import Mathlib

/-!
# The h^m heuristic and the combining evaluator

A shallow embedding of `src/search/heuristics/hm_heuristic.cc` and
`src/search/evaluators/combining_evaluator.cc`.

* C++ `int` values are `Int`; the one arithmetic operation of the fixpoint
  (`c + op.get_cost()`) is reduced into the 32-bit two's-complement range by `wrap32`
  (signed overflow, which C++ leaves undefined, wraps around).
* `std::map<Tuple, int>` is an association list whose entries are kept in key order;
  `std::sort` on facts is an insertion sort for the same order.
* A failed `assert(hm_table.count(t) == 1)` / `hm_table.at(t)` is the error
  `HMError.missing_key`; the `do ... while` loop of `update_hm_table` runs on fuel and
  `HMError.out_of_fuel` marks a loop that was cut off (the fuel of `update_hm_table` is
  proved sufficient).
* Variable ids, values and state ids are natural numbers.
* A `shared_ptr<Evaluator>` is the identity of an evaluator object; `store_deadend_info`
  acts on the evaluator objects by identity, since one object can be held by several
  lists.
-/

namespace hm_heuristic

/-! ## Task model (the interface of `task_proxy`) -/

/-- Modelled from the spec: FactPair of the task interface (its header is not part of the
sources): a variable id together with one of its values. -/
structure FactPair where
  var : Nat
  value : Nat
deriving DecidableEq, Repr

/-- Modelled from the spec: Tuple, declared in the header of the heuristic as a vector of
facts (`std::vector<FactPair>`). -/
abbrev Tuple := List FactPair

/-- Modelled from the spec: the comparison `operator<` of FactPair, by variable and then by
value (the structural order of the data model). -/
def FactPair.lt (a b : FactPair) : Prop :=
  a.var < b.var ∨ (a.var = b.var ∧ a.value < b.value)

/-- The non-strict order that `std::sort` with `operator<` establishes between neighbours. -/
def FactPair.le (a b : FactPair) : Prop :=
  a.var < b.var ∨ (a.var = b.var ∧ a.value ≤ b.value)

instance FactPair.decLt : DecidableRel FactPair.lt :=
  fun a b => by unfold FactPair.lt; exact inferInstance

instance FactPair.decLe : DecidableRel FactPair.le :=
  fun a b => by unfold FactPair.le; exact inferInstance

/-- The call `sort(v.begin(), v.end())` on a vector of facts. -/
def sort_facts (v : Tuple) : Tuple :=
  List.insertionSort FactPair.le v

/-- The lexicographic `operator<` of `std::vector<FactPair>`, the key order of the table. -/
def tuple_lt : Tuple → Tuple → Bool
  | [], [] => false
  | [], _ :: _ => true
  | _ :: _, [] => false
  | a :: as, b :: bs =>
    if FactPair.lt a b then true
    else if FactPair.lt b a then false
    else tuple_lt as bs

/-- Modelled from the spec: EffectProxy of the task interface: the conditions of an effect
and the fact it sets. -/
structure Effect where
  conditions : List FactPair
  fact : FactPair
deriving DecidableEq, Repr

/-- Modelled from the spec: OperatorProxy of the task interface: preconditions, effects and
cost of an operator. -/
structure Operator where
  preconditions : List FactPair
  effects : List Effect
  cost : Int
deriving DecidableEq, Repr

/-- Modelled from the spec: the planning task behind `task_proxy` (the task interface is not
part of the sources): `get_variables[i]` is the domain size of variable `i`. -/
structure Task where
  get_variables : List Nat
  get_operators : List Operator
  get_axioms : List Operator
  get_goals : List FactPair
deriving Repr

/-- Modelled from the spec: a state assigns a value to every variable; `state[i]` is the value
of variable `i`. -/
abbrev State := List Nat

/-- The value `numeric_limits<int>::max()`. -/
def INT_MAX : Int := 2147483647

/-- Modelled from the spec: the "distinguished unsolvable sentinel" `DEAD_END` of the
`Heuristic` base class, whose header is not part of the sources; it is `-1`, distinct from
every value `eval` can return. -/
def DEAD_END : Int := -1

/-- Reduction of an integer into the range of a 32-bit `int` (two's complement). -/
def wrap32 (x : Int) : Int :=
  (x + 2147483648) % 4294967296 - 2147483648

/-- Modelled from the spec: the helper `task_properties::get_fact_pairs` on a state (not part
of the sources): the facts `(i, state[i])` in the order of the variables. -/
def get_fact_pairs_of_state (state : State) : Tuple :=
  (List.range state.length).map (fun i => ⟨i, state.getD i 0⟩)

/-- Modelled from the spec: whether a fact holds in a state. -/
def holds (state : State) (f : FactPair) : Bool :=
  state[f.var]? == some f.value

/-- Modelled from the spec: the helper `task_properties::is_goal_state` (not part of the
sources): every goal fact holds in the state. -/
def is_goal_state (task : Task) (state : State) : Bool :=
  task.get_goals.all (fun g => holds state g)

/-- Modelled from the spec: the helper `task_properties::has_conditional_effects` (not part of
the sources): some effect of some operator has a condition. -/
def has_conditional_effects (task : Task) : Bool :=
  task.get_operators.any (fun op => op.effects.any (fun e => !e.conditions.isEmpty))

/-- Modelled from the spec: the helper `task_properties::has_axioms` (not part of the
sources): the task has an axiom. -/
def has_axioms (task : Task) : Bool :=
  !task.get_axioms.isEmpty

/-! ## The table `hm_table` -/

/-- Modelled from the spec: the type of `hm_table`, declared in the header of the heuristic as
an ordered map from tuples to costs (`std::map<Tuple, int>`): the entries in key order. -/
abbrev HMTable := List (Tuple × Int)

/-- The lookup `hm_table.at(t)` / `hm_table.find(t)`: the value stored under `t`, if any. -/
def HMTable.at : HMTable → Tuple → Option Int
  | [], _ => none
  | (k, v) :: rest, t => if k = t then some v else HMTable.at rest t

/-- Overwrite the value of the existing key `t`; the key set is untouched. -/
def HMTable.set : HMTable → Tuple → Int → HMTable
  | [], _, _ => []
  | (k, w) :: rest, t, v =>
    if k = t then (k, v) :: rest else (k, w) :: HMTable.set rest t v

/-- Put a new key at its place in the key order. -/
def HMTable.insert_new : HMTable → Tuple → Int → HMTable
  | [], t, v => [(t, v)]
  | (k, w) :: rest, t, v =>
    if tuple_lt t k then (t, v) :: (k, w) :: rest
    else (k, w) :: HMTable.insert_new rest t v

/-- The assignment `hm_table[t] = v`: overwrite the entry, or create it. -/
def HMTable.assign (tbl : HMTable) (t : Tuple) (v : Int) : HMTable :=
  match tbl.at t with
  | some _ => tbl.set t v
  | none => tbl.insert_new t v

/-- The keys of the table, in iteration order. -/
def HMTable.keys (tbl : HMTable) : List Tuple :=
  tbl.map Prod.fst

/-- Ways in which a run of the heuristic does not return normally. -/
inductive HMError where
  | missing_key (t : Tuple)
  | out_of_fuel
deriving DecidableEq, Repr

/-! ## Enumeration of tuples -/

/-- The recursion `generate_all_tuples_aux(var, sz, base)`: for every variable `i ≥ var` and
every value `j` of it, enter `base ++ [(i, j)]` with cost 0 and, when `sz > 1`, recurse with
`(i + 1, sz - 1)`. The two equations differ only in how `sz - 1` is written. -/
def generate_all_tuples_aux (task : Task) : Nat → Nat → Tuple → HMTable → HMTable
  | var, 0, base, tbl =>
    (List.range' var (task.get_variables.length - var)).foldl (fun tbl i =>
      (List.range (task.get_variables.getD i 0)).foldl (fun tbl j =>
        tbl.assign (base ++ [⟨i, j⟩]) 0) tbl) tbl
  | var, sz + 1, base, tbl =>
    (List.range' var (task.get_variables.length - var)).foldl (fun tbl i =>
      (List.range (task.get_variables.getD i 0)).foldl (fun tbl j =>
        let tbl1 := tbl.assign (base ++ [⟨i, j⟩]) 0
        if sz + 1 > 1 then generate_all_tuples_aux task (i + 1) sz (base ++ [⟨i, j⟩]) tbl1
        else tbl1) tbl) tbl

/-- The call `generate_all_tuples()` of the constructor, on the empty table. -/
def generate_all_tuples (task : Task) (m : Nat) : HMTable :=
  generate_all_tuples_aux task 0 m [] []

/-- The recursion `generate_all_partial_tuples_aux(base_tuple, t, index, sz, res)`; the list
argument is `base_tuple` from position `index` on. For `sz = 1` each remaining fact closes a
tuple; otherwise the tuple is also extended recursively with `sz - 1`. -/
def generate_all_partial_tuples_aux : Tuple → Tuple → Nat → List Tuple → List Tuple
  | [], _, _, res => res
  | x :: rest, t, sz, res =>
    let res1 := res ++ [t ++ [x]]
    let res2 := if sz = 1 then res1
      else generate_all_partial_tuples_aux rest (t ++ [x]) (sz - 1) res1
    generate_all_partial_tuples_aux rest t sz res2

/-- The call `generate_all_partial_tuples(base_tuple, res)` with `res` empty. -/
def generate_all_partial_tuples (m : Nat) (base_tuple : Tuple) : List Tuple :=
  generate_all_partial_tuples_aux base_tuple [] m []

/-! ## Evaluation and relaxation -/

/-- The function `check_tuple_in_tuple`: 0 if every fact of `tuple` occurs in `big_tuple`,
else `INT_MAX`. -/
def check_tuple_in_tuple (tuple big_tuple : Tuple) : Int :=
  if tuple.all (fun fact0 => big_tuple.any (fun fact1 => fact0 = fact1)) then 0 else INT_MAX

/-- The function `init_hm_table(t)`: every entry is reset to `check_tuple_in_tuple(key, t)`. -/
def init_hm_table (tbl : HMTable) (t : Tuple) : HMTable :=
  tbl.map (fun hm_ent => (hm_ent.1, check_tuple_in_tuple hm_ent.1 t))

/-- The loop of `eval` over the partial tuples, carrying `max`. -/
def eval_loop (tbl : HMTable) : List Tuple → Int → Except HMError Int
  | [], max => .ok max
  | tuple :: rest, max =>
    match tbl.at tuple with
    | none => .error (.missing_key tuple)
    | some h => eval_loop tbl rest (if h > max then h else max)

/-- The function `eval(t)`: the maximum of the table over the partial tuples of `t`. -/
def eval (m : Nat) (tbl : HMTable) (t : Tuple) : Except HMError Int :=
  eval_loop tbl (generate_all_partial_tuples m t) 0

/-- The members `hm_table` and `was_updated` that the relaxation mutates. -/
structure HMState where
  hm_table : HMTable
  was_updated : Bool
deriving DecidableEq, Repr

/-- The function `update_hm_entry(t, val)`. -/
def update_hm_entry (st : HMState) (t : Tuple) (val : Int) : Except HMError HMState :=
  match st.hm_table.at t with
  | none => .error (.missing_key t)
  | some cur =>
    if cur > val then .ok ⟨st.hm_table.set t val, true⟩ else .ok st

/-- The function `get_operator_pre`. -/
def get_operator_pre (op : Operator) : Tuple :=
  sort_facts op.preconditions

/-- The function `get_operator_eff`. -/
def get_operator_eff (op : Operator) : Tuple :=
  sort_facts (op.effects.map (fun eff => eff.fact))

/-- The function `contradict_effect_of(op, var, val)`. -/
def contradict_effect_of (op : Operator) (var val : Nat) : Bool :=
  op.effects.any (fun eff => eff.fact.var = var ∧ eff.fact.value ≠ val)

/-- The validity loop of `extend_tuple`: no variable occurs twice (`vars` holds those seen). -/
def no_var_twice : Tuple → List Nat → Bool
  | [], _ => true
  | fact :: rest, vars =>
    if vars.contains fact.var then false else no_var_twice rest (fact.var :: vars)

/-- The precondition built in `extend_tuple`: the operator's preconditions plus every fact of
`tuple` that is neither in `t` nor already present, then sorted. -/
def extended_pre (op : Operator) (t tuple : Tuple) : Tuple :=
  sort_facts (tuple.foldl (fun pre fact =>
    if fact ∉ t then (if fact ∉ pre then pre ++ [fact] else pre) else pre)
    (get_operator_pre op))

/-- The body of the loop of `extend_tuple` for one key `tuple` of the table. -/
def extend_tuple_step (m : Nat) (t : Tuple) (op : Operator) (st : HMState) (tuple : Tuple) :
    Except HMError HMState :=
  let contradict := tuple.any (fun fact => contradict_effect_of op fact.var fact.value)
  if !contradict ∧ tuple.length > t.length ∧ check_tuple_in_tuple t tuple = 0 then
    let pre := extended_pre op t tuple
    if no_var_twice pre [] then
      match eval m st.hm_table pre with
      | .error e => .error e
      | .ok c2 =>
        if c2 ≠ INT_MAX then update_hm_entry st tuple (wrap32 (c2 + op.cost)) else .ok st
    else .ok st
  else .ok st

/-- A loop over a list that threads the state and stops at the first error. -/
def for_each {α : Type} (f : HMState → α → Except HMError HMState) :
    List α → HMState → Except HMError HMState
  | [], st => .ok st
  | x :: rest, st =>
    match f st x with
    | .error e => .error e
    | .ok st1 => for_each f rest st1

/-- The function `extend_tuple(t, op)`: a loop over the entries of the table. -/
def extend_tuple (m : Nat) (t : Tuple) (op : Operator) (st : HMState) :
    Except HMError HMState :=
  for_each (extend_tuple_step m t op) st.hm_table.keys st

/-- The body of the loop over `partial_effs` in `update_hm_table`. -/
def partial_eff_step (m : Nat) (op : Operator) (c1 : Int) (st : HMState)
    (partial_eff : Tuple) : Except HMError HMState :=
  match update_hm_entry st partial_eff (wrap32 (c1 + op.cost)) with
  | .error e => .error e
  | .ok st1 =>
    if partial_eff.length < m then extend_tuple m partial_eff op st1 else .ok st1

/-- The body of the loop over the operators in `update_hm_table`. -/
def operator_step (m : Nat) (st : HMState) (op : Operator) : Except HMError HMState :=
  match eval m st.hm_table (get_operator_pre op) with
  | .error e => .error e
  | .ok c1 =>
    if c1 ≠ INT_MAX then
      for_each (partial_eff_step m op c1) (generate_all_partial_tuples m (get_operator_eff op)) st
    else .ok st

/-- One round of the `do ... while` loop of `update_hm_table`: `was_updated` is cleared and
every operator is processed. -/
def update_round (task : Task) (m : Nat) (tbl : HMTable) : Except HMError HMState :=
  for_each (operator_step m) task.get_operators ⟨tbl, false⟩

/-- The `do ... while (was_updated)` loop, cut off after `fuel` rounds; the result carries
the value of the counter `round`. -/
def update_hm_table_loop (task : Task) (m : Nat) : Nat → Nat → HMTable →
    Except HMError (HMTable × Nat)
  | 0, _, _ => .error .out_of_fuel
  | fuel + 1, round, tbl =>
    match update_round task m tbl with
    | .error e => .error e
    | .ok st =>
      if st.was_updated then update_hm_table_loop task m fuel (round + 1) st.hm_table
      else .ok (st.hm_table, round + 1)

/-- The weight of a table: the distance of every entry from the least `int`, summed. -/
def table_weight (tbl : HMTable) : Nat :=
  (tbl.map (fun e => (e.2 + 2147483648).toNat)).sum

/-- The function `update_hm_table()`: the loop with as much fuel as the weight allows. -/
def update_hm_table (task : Task) (m : Nat) (tbl : HMTable) : Except HMError (HMTable × Nat) :=
  update_hm_table_loop task m (table_weight tbl + 1) 0 tbl

/-- The function `compute_heuristic(state)` on a heuristic with table `tbl`: the value
returned and the table left behind. -/
def compute_heuristic (task : Task) (m : Nat) (tbl : HMTable) (state : State) :
    Except HMError (Int × HMTable) :=
  if is_goal_state task state then .ok (0, tbl)
  else
    let s_tup := get_fact_pairs_of_state state
    match update_hm_table task m (init_hm_table tbl s_tup) with
    | .error e => .error e
    | .ok (tbl1, _) =>
      match eval m tbl1 task.get_goals with
      | .error e => .error e
      | .ok h => if h = INT_MAX then .ok (DEAD_END, tbl1) else .ok (h, tbl1)

/-! ## Semantics of the planning task -/

/-- Modelled from the spec: an operator is applicable in a state when all its precondition
facts hold there (the successor generator of the search component is not part of the
sources). -/
def applicable (op : Operator) (state : State) : Bool :=
  op.preconditions.all (fun f => holds state f)

/-- Modelled from the spec: the successor state; every effect whose conditions hold in the
state sets its fact (the state registry is not part of the sources). -/
def apply_operator (op : Operator) (state : State) : State :=
  op.effects.foldl (fun s eff =>
    if eff.conditions.all (fun f => holds state f) then s.set eff.fact.var eff.fact.value
    else s) state

/-- Modelled from the spec: the state reached by an operator sequence, if every operator is
applicable where it is applied. -/
def run_plan : List Operator → State → Option State
  | [], state => some state
  | op :: rest, state =>
    if applicable op state then run_plan rest (apply_operator op state) else none

/-- The summed cost of an operator sequence. -/
def plan_cost (plan : List Operator) : Int :=
  (plan.map (fun op => op.cost)).sum

/-- A fact names an existing variable and a value of its domain. -/
def in_domain (task : Task) (f : FactPair) : Prop :=
  f.var < task.get_variables.length ∧ f.value < task.get_variables.getD f.var 0

instance in_domain.dec (task : Task) (f : FactPair) : Decidable (in_domain task f) := by
  unfold in_domain; exact inferInstance

/-- The invariants of a planning task as the heuristic receives it: facts are in the domain,
the preconditions of an operator name a variable at most once and so do its effects, and the
goal is a Tuple in the sense of the data model (strictly increasing variable ids). -/
def Task.well_formed (task : Task) : Prop :=
  (∀ op ∈ task.get_operators,
    (∀ f ∈ op.preconditions, in_domain task f) ∧ (op.preconditions.map (fun f => f.var)).Nodup ∧
    (∀ eff ∈ op.effects, in_domain task eff.fact) ∧
    (op.effects.map (fun eff => eff.fact.var)).Nodup) ∧
  (∀ g ∈ task.get_goals, in_domain task g) ∧
  task.get_goals.Pairwise (fun a b => a.var < b.var)

instance Task.well_formed.dec (task : Task) : Decidable task.well_formed := by
  unfold Task.well_formed; exact inferInstance

/-! ## The proof of unsolvability -/

/-- Modelled from the spec: the set expressions of the certificate algebra
(`UnsolvabilityManager`, not part of the sources), as the terms its operations build. -/
inductive SetExpression where
  | horn_formula (varamount : Int) (clauses : List (List Int))
  | progression (set : SetExpression) (action_set : Nat)
  | emptyset
  | goalset
  | union (left right : SetExpression)
  | intersection (left right : SetExpression)
deriving DecidableEq, Repr

/-- Modelled from the spec: the judgments of the certificate algebra (`UnsolvabilityManager`,
not part of the sources), as the terms its rules build. -/
inductive Judgment where
  | rule_ed
  | statement (left right : SetExpression) (label : String)
  | rule_sd (set : SetExpression) (dead subset : Judgment)
  | rule_pg (set : SetExpression) (closed dead goal_dead : Judgment)
deriving DecidableEq, Repr

/-- Modelled from the spec: the members of HMHeuristic (declared in its header, which is not
part of the sources) that the proof of unsolvability reads and writes;
`unreachable_tuples` is the `unordered_map` from state ids to the recorded tuples. -/
structure HMHeuristic where
  m : Nat
  goals : Tuple
  hm_table : HMTable
  unsolvability_setup : Bool
  fact_to_variable : List (List Int)
  strips_varamount : Int
  mutexes : List (List Int)
  unreachable_tuples : List (Nat × List Tuple)
deriving DecidableEq, Repr

/-- The constructor of HMHeuristic; `strips_varamount` is not initialised by it and holds the
given indeterminate value. -/
def HMHeuristic.new (task : Task) (m : Nat) (indeterminate : Int) : HMHeuristic :=
  { m := m, goals := task.get_goals, hm_table := generate_all_tuples task m,
    unsolvability_setup := false, fact_to_variable := [], strips_varamount := indeterminate,
    mutexes := [], unreachable_tuples := [] }

/-- The call `v.resize(n)` on a vector: cut to `n` entries or fill up with the default. -/
def resize {α : Type} (v : List α) (n : Nat) (dflt : α) : List α :=
  v.take n ++ List.replicate (n - v.length) dflt

/-- The entry `fact_to_variable[var][value]`. -/
def proof_variable (fact_to_variable : List (List Int)) (var value : Nat) : Int :=
  (fact_to_variable.getD var []).getD value 0

/-- The first loop nest of `setup_unsolvability_proof`: numbers the facts from 1 on; the
result is `fact_to_variable` and `strips_varamount`. -/
def number_facts (task : Task) (fact_to_variable : List (List Int)) : List (List Int) × Int :=
  let varamount := task.get_variables.length
  (List.range varamount).foldl (fun acc i =>
    let domsize := task.get_variables.getD i 0
    (List.range domsize).foldl (fun acc j =>
      (acc.1.set i ((acc.1.getD i []).set j (acc.2 + 1)), acc.2 + 1))
      (acc.1.set i (resize (acc.1.getD i []) domsize 0), acc.2))
    (resize fact_to_variable varamount [], 0)

/-- The second loop nest of `setup_unsolvability_proof`: one clause per variable and pair
`j < k` of its values, appended to `mutexes`. -/
def mutex_clauses (task : Task) (fact_to_variable : List (List Int))
    (mutexes : List (List Int)) : List (List Int) :=
  let varamount := task.get_variables.length
  (List.range varamount).foldl (fun mutexes i =>
    let domsize := task.get_variables.getD i 0
    (List.range (domsize - 1)).foldl (fun mutexes j =>
      (List.range' (j + 1) (domsize - (j + 1))).foldl (fun mutexes k =>
        mutexes ++ [[-proof_variable fact_to_variable i j, -proof_variable fact_to_variable i k]])
        mutexes) mutexes) mutexes

/-- The function `setup_unsolvability_proof()`. -/
def setup_unsolvability_proof (task : Task) (h : HMHeuristic) : HMHeuristic :=
  let numbered := number_facts task h.fact_to_variable
  { h with fact_to_variable := numbered.1, strips_varamount := numbered.2,
           mutexes := mutex_clauses task numbered.1 h.mutexes,
           unsolvability_setup := true }

/-- The call `unreachable_tuples.insert({id, tuples})`: an `unordered_map` keeps the entry it
already has for the key. -/
def unordered_map_insert (map : List (Nat × List Tuple)) (id : Nat) (tuples : List Tuple) :
    List (Nat × List Tuple) :=
  if map.any (fun e => e.1 = id) then map else (id, tuples) :: map

/-- The lookup `unreachable_tuples.find(id)`. -/
def unordered_map_find (map : List (Nat × List Tuple)) (id : Nat) : Option (List Tuple) :=
  (map.find? (fun e => e.1 = id)).map (fun e => e.2)

/-- The access `unreachable_tuples[id]`: a missing entry is created empty; the result is the
entry and the map. -/
def unordered_map_index (map : List (Nat × List Tuple)) (id : Nat) :
    List Tuple × List (Nat × List Tuple) :=
  match unordered_map_find map id with
  | some tuples => (tuples, map)
  | none => ([], (id, []) :: map)

/-- The tuples that `store_deadend_info` collects: every key whose value is `INT_MAX`, each
pushed to the front of the list. -/
def collect_unreachable (tbl : HMTable) : List Tuple :=
  tbl.foldl (fun tuples elem => if elem.2 = INT_MAX then elem.1 :: tuples else tuples) []

/-- The function `store_deadend_info(eval_context)`, for the context's state id. -/
def store_deadend_info (task : Task) (h : HMHeuristic) (state_id : Nat) : HMHeuristic :=
  let h1 := if !h.unsolvability_setup then setup_unsolvability_proof task h else h
  { h1 with unreachable_tuples :=
      unordered_map_insert h1.unreachable_tuples state_id (collect_unreachable h1.hm_table) }

/-- The clause built for one recorded tuple in `get_dead_end_justification`. -/
def tuple_clause (fact_to_variable : List (List Int)) (tuple : Tuple) : List Int :=
  tuple.map (fun fact => -proof_variable fact_to_variable fact.var fact.value)

/-- The clause list built at the start of `get_dead_end_justification`, and the map after the
access `unreachable_tuples[id]`. -/
def justification_clauses (h : HMHeuristic) (state_id : Nat) :
    List (List Int) × List (Nat × List Tuple) :=
  let entry := unordered_map_index h.unreachable_tuples state_id
  (h.mutexes ++ entry.1.map (tuple_clause h.fact_to_variable), entry.2)

/-- The function `get_dead_end_justification(eval_context, unsolvmanager)` for the context's
state id: the pair it returns and the heuristic after the call. It has no failing path. -/
def get_dead_end_justification (h : HMHeuristic) (state_id : Nat) :
    (SetExpression × Judgment) × HMHeuristic :=
  let built := justification_clauses h state_id
  let set := SetExpression.horn_formula h.strips_varamount built.1
  let progression := SetExpression.progression set 0
  let empty_set := SetExpression.emptyset
  let union_with_empty := SetExpression.union set empty_set
  let goal_set := SetExpression.goalset
  let goal_intersection := SetExpression.intersection set goal_set
  let empty_dead := Judgment.rule_ed
  let progression_closed := Judgment.statement progression union_with_empty "b2"
  let goal_intersection_empty := Judgment.statement goal_intersection empty_set "b1"
  let goal_intersection_dead :=
    Judgment.rule_sd goal_intersection empty_dead goal_intersection_empty
  let set_dead := Judgment.rule_pg set progression_closed empty_dead goal_intersection_dead
  ((set, set_dead), { h with unreachable_tuples := built.2 })

/-- The function `compute_heuristic` as a member: the value returned and the heuristic with
the table the call leaves behind. -/
def HMHeuristic.compute_heuristic (task : Task) (h : HMHeuristic) (state : State) :
    Except HMError (Int × HMHeuristic) :=
  match hm_heuristic.compute_heuristic task h.m h.hm_table state with
  | .error e => .error e
  | .ok (v, tbl) => .ok (v, { h with hm_table := tbl })

/-- The heuristic objects that calls of the member functions produce from a freshly
constructed one. -/
inductive reachable (task : Task) (m : Nat) : HMHeuristic → Prop where
  | new (indeterminate : Int) : reachable task m (HMHeuristic.new task m indeterminate)
  | compute (h h1 : HMHeuristic) (state : State) (v : Int) :
      reachable task m h → HMHeuristic.compute_heuristic task h state = .ok (v, h1) →
      reachable task m h1
  | store (h : HMHeuristic) (state_id : Nat) :
      reachable task m h → reachable task m (store_deadend_info task h state_id)
  | justify (h : HMHeuristic) (state_id : Nat) :
      reachable task m h → reachable task m (get_dead_end_justification h state_id).2

/-- The total number of facts of the task: the sum of the domain sizes. -/
def total_facts (task : Task) : Int :=
  (task.get_variables.sum : Nat)

/-- The snapshot of a table: its keys with value `INT_MAX`, last key first. -/
def infinite_tuples (tbl : HMTable) : List Tuple :=
  ((tbl.filter (fun elem => elem.2 = INT_MAX)).map Prod.fst).reverse

/-! ### Example objects -/

/-- An example task: two variables with two values each, one operator of cost 3 that needs
`(0, 0)` and sets `(1, 1)`, and the goal `(1, 1)`. -/
def example_task : Task :=
  { get_variables := [2, 2],
    get_operators := [⟨[⟨0, 0⟩], [⟨[], ⟨1, 1⟩⟩], 3⟩],
    get_axioms := [],
    get_goals := [⟨1, 1⟩] }

/-- An example task whose goal `(1, 1)` no operator produces: the only operator needs `(0, 0)`
and sets `(0, 1)` at cost 1. -/
def example_unsolvable_task : Task :=
  { get_variables := [2, 2],
    get_operators := [⟨[⟨0, 0⟩], [⟨[], ⟨0, 1⟩⟩], 1⟩],
    get_axioms := [],
    get_goals := [⟨1, 1⟩] }

/-- The table of the example task for `m = 2` after evaluating the dead state `[1, 0]`. -/
def example_dead_table : HMTable :=
  [([⟨0, 0⟩], 2147483647), ([⟨0, 0⟩, ⟨1, 0⟩], 2147483647), ([⟨0, 0⟩, ⟨1, 1⟩], 2147483647),
   ([⟨0, 1⟩], 0), ([⟨0, 1⟩, ⟨1, 0⟩], 0), ([⟨0, 1⟩, ⟨1, 1⟩], 2147483647),
   ([⟨1, 0⟩], 0), ([⟨1, 1⟩], 2147483647)]

/-- The example heuristic after `compute_heuristic` on the dead state `[1, 0]`. -/
def example_heuristic : HMHeuristic :=
  { HMHeuristic.new example_task 2 0 with hm_table := example_dead_table }

/-! ## Vocabulary of the theorems -/

instance FactPair.le_total : IsTotal FactPair FactPair.le :=
  ⟨fun a b => by unfold FactPair.le; omega⟩

instance FactPair.le_trans : IsTrans FactPair FactPair.le :=
  ⟨fun a b c => by unfold FactPair.le; omega⟩

/-- The tuples that setup enters into the table: between 1 and `m` facts, variable ids
strictly increasing, every fact in the domain. -/
def valid_key (task : Task) (m : Nat) (t : Tuple) : Prop :=
  t ≠ [] ∧ t.length ≤ m ∧ t.Pairwise (fun a b => a.var < b.var) ∧ ∀ f ∈ t, in_domain task f

/-- The extensions that `generate_all_tuples_aux` appends to its base: between 1 and `bound`
facts in the domain, with strictly increasing variable ids from `var` on. -/
def valid_extension (task : Task) (bound var : Nat) (ext : Tuple) : Prop :=
  ext ≠ [] ∧ ext.length ≤ bound ∧ ext.Pairwise (fun a b => a.var < b.var) ∧
    ∀ f ∈ ext, in_domain task f ∧ var ≤ f.var

/-- The tuples that one relaxation round can write: the partial tuples of an operator's effects
and, through `extend_tuple`, tuples of at least two facts. -/
def relax_target (task : Task) (m : Nat) (t : Tuple) : Prop :=
  (∃ op ∈ task.get_operators, t ∈ generate_all_partial_tuples m (get_operator_eff op)) ∨
    2 ≤ t.length

/-- The key set of a table is the one that setup builds. -/
def keys_ok (task : Task) (m : Nat) (tbl : HMTable) : Prop :=
  ∀ t, t ∈ tbl.keys ↔ valid_key task m t

/-- No entry of the first table is below the entry of the second, key by key. -/
def table_le (a b : HMTable) : Prop :=
  a.keys = b.keys ∧ ∀ t v, b.at t = some v → ∃ w, a.at t = some w ∧ w ≤ v

/-- Every key whose facts all hold in the state has an entry of at most `c`. -/
def reached_within (task : Task) (m : Nat) (tbl : HMTable) (state : State) (c : Int) : Prop :=
  ∀ T, valid_key task m T → (∀ f ∈ T, holds state f = true) →
    ∃ v, tbl.at T = some v ∧ v ≤ c

/-- The write of `extend_tuple(t, op)` to the key `tuple` would not lower the entry. -/
def extension_closed (m : Nat) (tbl : HMTable) (op : Operator) (t tuple : Tuple) : Prop :=
  tuple.any (fun fact => contradict_effect_of op fact.var fact.value) = false →
  tuple.length > t.length → check_tuple_in_tuple t tuple = 0 →
  no_var_twice (extended_pre op t tuple) [] = true →
  ∀ c2, eval m tbl (extended_pre op t tuple) = .ok c2 → c2 ≠ INT_MAX →
    ∃ cur, tbl.at tuple = some cur ∧ cur ≤ wrap32 (c2 + op.cost)

/-- Neither the write to the partial effect `pe` nor its extensions would lower an entry. -/
def effect_closed (m : Nat) (tbl : HMTable) (op : Operator) (c1 : Int) (pe : Tuple) : Prop :=
  (∃ cur, tbl.at pe = some cur ∧ cur ≤ wrap32 (c1 + op.cost)) ∧
  (pe.length < m → ∀ tuple ∈ tbl.keys, extension_closed m tbl op pe tuple)

/-- Processing the operator would not lower any entry. -/
def operator_closed (m : Nat) (tbl : HMTable) (op : Operator) : Prop :=
  ∀ c1, eval m tbl (get_operator_pre op) = .ok c1 → c1 ≠ INT_MAX →
    ∀ pe ∈ generate_all_partial_tuples m (get_operator_eff op), effect_closed m tbl op c1 pe

/-- The table is a fixpoint of the relaxation: no operator lowers any entry. -/
def is_fixpoint (task : Task) (m : Nat) (tbl : HMTable) : Prop :=
  ∀ op ∈ task.get_operators, operator_closed m tbl op


/-! ## Vocabulary of further theorems -/

/-- Successive calls of `compute_heuristic` on the listed states, each on the table the
previous call left behind; the result is the table after the last call. -/
def evaluate_states (task : Task) (m : Nat) : HMTable → List State → Except HMError HMTable
  | tbl, [] => .ok tbl
  | tbl, state :: rest =>
    match compute_heuristic task m tbl state with
    | .error e => .error e
    | .ok (_, tbl1) => evaluate_states task m tbl1 rest

/-- Every entry of the table has cost 0. -/
def all_zero (tbl : HMTable) : Prop :=
  ∀ e ∈ tbl, e.2 = 0

/-- The table of the example task for `m = 2` after evaluating the state `[0, 0]`. -/
def example_live_table : HMTable :=
  [([⟨0, 0⟩], 0), ([⟨0, 0⟩, ⟨1, 0⟩], 0), ([⟨0, 0⟩, ⟨1, 1⟩], 3),
   ([⟨0, 1⟩], 2147483647), ([⟨0, 1⟩, ⟨1, 0⟩], 2147483647), ([⟨0, 1⟩, ⟨1, 1⟩], 2147483647),
   ([⟨1, 0⟩], 0), ([⟨1, 1⟩], 3)]

/-- The example heuristic after it recorded state id 7 and then evaluated the state
`[0, 0]`. -/
def example_heuristic_later : HMHeuristic :=
  { store_deadend_info example_task example_heuristic 7 with hm_table := example_live_table }

/-- An example task whose goal lists variable 1 before variable 0; each variable occurs once
and every value is in its domain. -/
def example_unsorted_goal_task : Task :=
  { get_variables := [2, 2],
    get_operators := [⟨[⟨0, 0⟩], [⟨[], ⟨1, 1⟩⟩], 3⟩],
    get_axioms := [],
    get_goals := [⟨1, 1⟩, ⟨0, 1⟩] }

/-- A list of facts names each variable at most once, with a value of its domain. -/
def names_each_variable_once (task : Task) (facts : List FactPair) : Prop :=
  (facts.map (fun f => f.var)).Nodup ∧ ∀ f ∈ facts, in_domain task f

instance names_each_variable_once.dec (task : Task) (facts : List FactPair) :
    Decidable (names_each_variable_once task facts) := by
  unfold names_each_variable_once; exact inferInstance

/-- The sub-tuples of a tuple in the words of the spec: its non-empty order-preserving
sub-sequences of at most `m` facts. -/
def sub_tuples (m : Nat) (t : Tuple) : List Tuple :=
  (List.sublists' t).filter (fun x => decide (x ≠ [] ∧ x.length ≤ m))

/-- The maximum of a list of costs, 0 for the empty list. -/
def maximum_or_zero : List Int → Int
  | [] => 0
  | x :: xs => xs.foldl max x

/-- The reference definition of `eval` in the words of the spec: decompose the tuple into its
sub-tuples of at most `m` facts, look up each in the table, and return their maximum (0 if
there is none). -/
def eval_reference (m : Nat) (tbl : HMTable) (t : Tuple) : Int :=
  maximum_or_zero ((sub_tuples m t).filterMap (fun x => tbl.at x))

/-- The number of facts of the variables before variable `i`. -/
def fact_offset (doms : List Nat) (i : Nat) : Nat :=
  (doms.take i).sum

/-! ### The max-cost relaxation in the words of the spec -/

/-- The operator has the fact as an effect. -/
def has_effect (op : Operator) (f : FactPair) : Prop :=
  ∃ eff ∈ op.effects, eff.fact = f

instance has_effect.dec (op : Operator) (f : FactPair) : Decidable (has_effect op f) := by
  unfold has_effect; exact inferInstance

/-- The maximum of a cost function over a list of facts, 0 for the empty list; `⊤` is the
infinite cost. -/
def max_cost (cost : FactPair → WithTop Int) (facts : List FactPair) : WithTop Int :=
  (facts.map cost).foldr max 0

/-- The minimum, over the operators having `f` as an effect, of the operator cost plus the
maximum of the cost function over the operator's preconditions; infinite when there is no such
operator. -/
def relax_value (task : Task) (cost : FactPair → WithTop Int) (f : FactPair) : WithTop Int :=
  ((task.get_operators.filter (fun op => decide (has_effect op f))).map
    (fun op => (op.cost : WithTop Int) + max_cost cost op.preconditions)).foldr min ⊤

/-- The equations of the max-cost relaxation in the words of the spec: cost 0 for the facts
of the state, and otherwise the minimum over the operators having the fact as an effect. -/
def satisfies_relaxation (task : Task) (s : State) (cost : FactPair → WithTop Int) : Prop :=
  ∀ f, cost f = if holds s f then 0 else relax_value task cost f

/-- The reference cost function of the spec: the pointwise greatest function that satisfies
the equations of the max-cost relaxation. -/
def is_max_cost_relaxation (task : Task) (s : State) (cost : FactPair → WithTop Int) : Prop :=
  satisfies_relaxation task s cost ∧
    ∀ cost1, satisfies_relaxation task s cost1 → ∀ f, cost1 f ≤ cost f

/-- The value that stands for a cost in the result of the heuristic: `DEAD_END` for the
infinite cost. -/
def heuristic_value (c : WithTop Int) : Int :=
  WithTop.untop' DEAD_END c

/-- The cost that a table entry stands for: `INT_MAX` is the infinite cost. -/
def entry_cost (v : Int) : WithTop Int :=
  if v = INT_MAX then ⊤ else (v : WithTop Int)

/-- The cost function that a table for `m = 1` holds: the entry of the one-fact tuple; a fact
without an entry costs 0 if it holds in the state and is unreachable otherwise. -/
def table_cost (tbl : HMTable) (s : State) (f : FactPair) : WithTop Int :=
  match tbl.at [f] with
  | some v => entry_cost v
  | none => if holds s f then 0 else ⊤

/-- The number of entries of the table that are not `INT_MAX`. -/
def finite_entries (tbl : HMTable) : Nat :=
  (tbl.filter (fun e => decide (e.2 < INT_MAX))).length

/-- The invariant of the relaxation for `m = 1` from the state `s` with operator costs of at
most `C`: entries are between 0 and `INT_MAX`; a finite entry is at most `C` times the number
of finite entries, is at least the cost that any solution of the equations gives the fact and,
for a fact outside the state, is justified by an operator whose preconditions have entries
that are lower by the operator's cost. -/
def relaxation_invariant (task : Task) (s : State) (C : Int) (tbl : HMTable) : Prop :=
  (∀ t v, tbl.at t = some v → 0 ≤ v ∧ v ≤ INT_MAX) ∧
  (∀ t v, tbl.at t = some v → v < INT_MAX → v ≤ C * finite_entries tbl) ∧
  (∀ cost1, satisfies_relaxation task s cost1 →
    ∀ f v, tbl.at [f] = some v → v < INT_MAX → cost1 f ≤ (v : WithTop Int)) ∧
  (∀ f v, tbl.at [f] = some v → v < INT_MAX → holds s f = false →
    ∃ op ∈ task.get_operators, has_effect op f ∧ ∃ c : Int, 0 ≤ c ∧ c + op.cost ≤ v ∧
      ∀ p ∈ op.preconditions, ∃ y, tbl.at [p] = some y ∧ y ≤ c)

/-- An example task whose only operator has the cost `INT_MAX`: one variable with two values,
the operator needs nothing and sets `(0, 1)`, which is the goal. -/
def example_large_cost_task : Task :=
  { get_variables := [2],
    get_operators := [{ preconditions := [], effects := [⟨[], ⟨0, 1⟩⟩], cost := 2147483647 }],
    get_axioms := [],
    get_goals := [⟨0, 1⟩] }

/-- The cost function of the max-cost relaxation of `example_large_cost_task` from the state
`[0]`. -/
def example_large_cost (f : FactPair) : WithTop Int :=
  if f = ⟨0, 0⟩ then 0 else if f = ⟨0, 1⟩ then ((2147483647 : Int) : WithTop Int) else ⊤

end hm_heuristic

namespace combining_evaluator

/-- Modelled from the spec: the infinite value `EvaluationResult::INFTY` (its header is not
part of the sources), the largest `int`. -/
def INFTY : Int := 2147483647

/-- Modelled from the spec: EvaluationResult (its header is not part of the sources): a value
and the preferred operators; a fresh result has no preferred operators and an uninitialised
value, written `-2`. -/
structure EvaluationResult where
  evaluator_value : Int
  preferred_operators : List Nat
deriving DecidableEq, Repr

/-- The default constructor of EvaluationResult. -/
def EvaluationResult.new : EvaluationResult :=
  ⟨-2, []⟩

/-- The setter `set_evaluator_value`. -/
def EvaluationResult.set_evaluator_value (r : EvaluationResult) (value : Int) :
    EvaluationResult :=
  { r with evaluator_value := value }

/-- Modelled from the spec: the evaluation context of the current state (not part of the
sources): the value of every evaluator, keyed by the evaluator's identity, and the record of
the evaluators whose value was requested, in the order of the requests. -/
structure EvaluationContext where
  value : Nat → Int
  queried : List Nat

/-- The query `eval_context.get_evaluator_value_or_infinity(e)`; the request is recorded. -/
def EvaluationContext.get_evaluator_value_or_infinity (ctx : EvaluationContext) (e : Nat) :
    Int × EvaluationContext :=
  (ctx.value e, { ctx with queried := ctx.queried ++ [e] })

/-- The query `eval_context.is_evaluator_value_infinite(e)`. -/
def EvaluationContext.is_evaluator_value_infinite (ctx : EvaluationContext) (e : Nat) : Bool :=
  ctx.value e = INFTY

/-- Modelled from the spec: the evaluator objects of the search by identity (the address that
a `shared_ptr<Evaluator>` holds) with the state of each object; the header of the evaluators
is not part of the sources. One object can be held by several lists and reached through
several sub-evaluators, so a call that changes an object changes it for every holder. -/
abbrev EvaluatorObjects (σ : Type) := Nat → σ

/-- Modelled from the spec: the Evaluator interface (its header is not part of the sources),
as the combining evaluator uses a sub-evaluator: its identity, its internal state as a
justification request reads it, and its virtual functions (`σ` is the type of the state, `J`
of what a justification request yields). The virtual function `store_deadend_info` acts on
the evaluator objects: the object it is called on can change itself and every object it
holds. -/
structure Evaluator (σ J : Type) where
  id : Nat
  state : σ
  dead_ends_are_reliable : Bool
  store_deadend_info : EvaluationContext → EvaluatorObjects σ → EvaluatorObjects σ
  get_dead_end_justification : EvaluationContext → σ → J

/-- Modelled from the spec: the members of CombiningEvaluator (declared in its header, which
is not part of the sources). -/
structure CombiningEvaluator (σ J : Type) where
  subevaluators : List (Evaluator σ J)
  all_dead_ends_are_reliable : Bool

/-- The constructor of CombiningEvaluator. -/
def CombiningEvaluator.new {σ J : Type} (evals : List (Evaluator σ J)) :
    CombiningEvaluator σ J :=
  { subevaluators := evals,
    all_dead_ends_are_reliable :=
      evals.foldl (fun all_reliable subevaluator =>
        if !subevaluator.dead_ends_are_reliable then false else all_reliable) true }

/-- The function `CombiningEvaluator::dead_ends_are_reliable()`. -/
def CombiningEvaluator.dead_ends_are_reliable {σ J : Type} (c : CombiningEvaluator σ J) : Bool :=
  c.all_dead_ends_are_reliable

/-- The loop of `compute_result` over the sub-evaluators, carrying the context and `values`. -/
def compute_result_loop {σ J : Type} (combine_values : List Int → Int)
    (result : EvaluationResult) :
    List (Evaluator σ J) → EvaluationContext → List Int → EvaluationResult × EvaluationContext
  | [], ctx, values => (result.set_evaluator_value (combine_values values), ctx)
  | subevaluator :: rest, ctx, values =>
    let q := ctx.get_evaluator_value_or_infinity subevaluator.id
    if q.1 = INFTY then (result.set_evaluator_value q.1, q.2)
    else compute_result_loop combine_values result rest q.2 (values ++ [q.1])

/-- The function `CombiningEvaluator::compute_result(eval_context)`; `combine_values` is the
pure virtual function of the subclass. -/
def CombiningEvaluator.compute_result {σ J : Type} (c : CombiningEvaluator σ J)
    (combine_values : List Int → Int) (ctx : EvaluationContext) :
    EvaluationResult × EvaluationContext :=
  compute_result_loop combine_values EvaluationResult.new c.subevaluators ctx []

/-- The loop of `store_deadend_info` over the shared pointers: the evaluator objects after
the call and the identities of the sub-evaluators whose `store_deadend_info` was invoked. The
loop itself writes to no object; it stops after the first call. -/
def store_deadend_info_loop {σ J : Type} (ctx : EvaluationContext) :
    List (Evaluator σ J) → EvaluatorObjects σ → EvaluatorObjects σ × List Nat
  | [], objects => (objects, [])
  | subevaluator :: rest, objects =>
    if ctx.is_evaluator_value_infinite subevaluator.id then
      (subevaluator.store_deadend_info ctx objects, [subevaluator.id])
    else store_deadend_info_loop ctx rest objects

/-- The function `CombiningEvaluator::store_deadend_info(eval_context)`, on the evaluator
objects as they are when it is called. -/
def CombiningEvaluator.store_deadend_info {σ J : Type} (c : CombiningEvaluator σ J)
    (ctx : EvaluationContext) (objects : EvaluatorObjects σ) :
    EvaluatorObjects σ × List Nat :=
  store_deadend_info_loop ctx c.subevaluators objects

/-- Modelled from the spec: the exit code of a critical error (`utils::ExitCode`, not part of
the sources). -/
inductive ExitCode where
  | SEARCH_CRITICAL_ERROR
deriving DecidableEq, Repr

/-- The loop of `get_dead_end_justification`; falling out of it ends the process with
`SEARCH_CRITICAL_ERROR`. -/
def get_dead_end_justification_loop {σ J : Type} (ctx : EvaluationContext) :
    List (Evaluator σ J) → Except ExitCode J
  | [] => .error .SEARCH_CRITICAL_ERROR
  | subevaluator :: rest =>
    if ctx.is_evaluator_value_infinite subevaluator.id then
      .ok (subevaluator.get_dead_end_justification ctx subevaluator.state)
    else get_dead_end_justification_loop ctx rest

/-- The function `CombiningEvaluator::get_dead_end_justification(eval_context, unsolvmanager)`. -/
def CombiningEvaluator.get_dead_end_justification {σ J : Type} (c : CombiningEvaluator σ J)
    (ctx : EvaluationContext) : Except ExitCode J :=
  get_dead_end_justification_loop ctx c.subevaluators

/-! ### Example objects -/

/-- An example sub-evaluator: the state of its object counts the calls of
`store_deadend_info` and its justification is its own identity. -/
def example_subevaluator (id : Nat) (reliable : Bool) : Evaluator Nat Nat :=
  ⟨id, 0, reliable, fun _ objects => fun x => if x = id then objects x + 1 else objects x,
    fun _ _ => id⟩

/-- An example combining evaluator over the sub-evaluators 0, 1 and 2. -/
def example_combining_evaluator : CombiningEvaluator Nat Nat :=
  CombiningEvaluator.new
    [example_subevaluator 0 true, example_subevaluator 1 false, example_subevaluator 2 true]

/-- An example context in which evaluator 1 is infinite and the others have value 5. -/
def example_context_infinite : EvaluationContext :=
  ⟨fun e => if e = 1 then INFTY else 5, []⟩

/-- An example context in which evaluator `e` has the finite value `5 + e`. -/
def example_context_finite : EvaluationContext :=
  ⟨fun e => 5 + e, []⟩

/-- An example sub-evaluator that is itself a combining evaluator: object 3, which holds the
example sub-evaluator 1; its `store_deadend_info` is the one of the combining evaluator. -/
def example_inner_evaluator : Evaluator Nat Nat :=
  ⟨3, 0, false,
    fun ctx objects =>
      ((CombiningEvaluator.new [example_subevaluator 1 false]).store_deadend_info ctx objects).1,
    fun _ _ => 3⟩

/-- An example combining evaluator whose list holds object 3 and object 1, which object 3
holds as well. -/
def example_sharing_evaluator : CombiningEvaluator Nat Nat :=
  CombiningEvaluator.new [example_inner_evaluator, example_subevaluator 1 false]

/-- An example combining evaluator that lists object 1 twice. -/
def example_twice_evaluator : CombiningEvaluator Nat Nat :=
  CombiningEvaluator.new [example_subevaluator 1 false, example_subevaluator 1 false]

/-- An example context in which every evaluator is infinite. -/
def example_context_all_infinite : EvaluationContext :=
  ⟨fun _ => INFTY, []⟩

end combining_evaluator

namespace hm_heuristic

/-! ## The table -/

theorem at_isSome_iff_mem_keys (tbl : HMTable) (t : Tuple) :
    (tbl.at t).isSome = true ↔ t ∈ tbl.keys := by
  induction tbl with
  | nil => simp [HMTable.at, HMTable.keys]
  | cons e rest ih =>
    obtain ⟨k, v⟩ := e
    by_cases hk : k = t
    · simp [HMTable.at, HMTable.keys, hk]
    · have hk2 : ¬ t = k := fun h => hk h.symm
      simp only [HMTable.at, hk, if_false, ih]
      simp [HMTable.keys, hk2]

theorem at_eq_none_iff (tbl : HMTable) (t : Tuple) : tbl.at t = none ↔ t ∉ tbl.keys := by
  rw [← at_isSome_iff_mem_keys]
  cases tbl.at t <;> simp

theorem at_of_mem_keys (tbl : HMTable) (t : Tuple) (h : t ∈ tbl.keys) :
    ∃ v, tbl.at t = some v := by
  have := (at_isSome_iff_mem_keys tbl t).mpr h
  exact Option.isSome_iff_exists.mp this

theorem keys_set (tbl : HMTable) (t : Tuple) (v : Int) : (tbl.set t v).keys = tbl.keys := by
  induction tbl with
  | nil => rfl
  | cons e rest ih =>
    obtain ⟨k, w⟩ := e
    by_cases hk : k = t
    · simp [HMTable.set, HMTable.keys, hk]
    · simp only [HMTable.set, hk, if_false]
      simp only [HMTable.keys, List.map_cons] at ih ⊢
      rw [ih]

theorem at_set (tbl : HMTable) (t t1 : Tuple) (v : Int) :
    (tbl.set t v).at t1 = if t1 = t then (tbl.at t).map (fun _ => v) else tbl.at t1 := by
  induction tbl with
  | nil => simp [HMTable.set, HMTable.at]
  | cons e rest ih =>
    obtain ⟨k, w⟩ := e
    by_cases hkt : k = t
    · subst hkt
      by_cases h1 : t1 = k
      · subst h1
        simp [HMTable.set, HMTable.at]
      · have h2 : ¬ k = t1 := fun h => h1 h.symm
        simp [HMTable.set, HMTable.at, h2, h1]
    · by_cases h1 : t1 = t
      · subst h1
        simp only [HMTable.set, hkt, if_false, HMTable.at, if_true] at ih ⊢
        exact ih
      · simp only [HMTable.set, hkt, if_false, HMTable.at, h1] at ih ⊢
        rw [ih]

theorem at_set_self (tbl : HMTable) (t : Tuple) (v cur : Int) (h : tbl.at t = some cur) :
    (tbl.set t v).at t = some v := by
  rw [at_set, if_pos rfl, h]
  rfl

theorem at_set_other (tbl : HMTable) (t t1 : Tuple) (v : Int) (h : t1 ≠ t) :
    (tbl.set t v).at t1 = tbl.at t1 := by
  rw [at_set, if_neg h]

theorem keys_init (tbl : HMTable) (s : Tuple) : (init_hm_table tbl s).keys = tbl.keys := by
  unfold init_hm_table HMTable.keys
  rw [List.map_map]
  rfl

theorem at_init (tbl : HMTable) (s t : Tuple) :
    (init_hm_table tbl s).at t = (tbl.at t).map (fun _ => check_tuple_in_tuple t s) := by
  induction tbl with
  | nil => simp [init_hm_table, HMTable.at]
  | cons e rest ih =>
    obtain ⟨k, w⟩ := e
    have hcons : init_hm_table ((k, w) :: rest) s =
        (k, check_tuple_in_tuple k s) :: init_hm_table rest s := by
      simp [init_hm_table]
    rw [hcons]
    by_cases hk : k = t
    · subst hk
      simp [HMTable.at]
    · simp only [HMTable.at, hk, if_false]
      exact ih

/-! ## Loops -/

theorem for_each_rel {α : Type} (f : HMState → α → Except HMError HMState)
    (R : HMState → HMState → Prop) (hrefl : ∀ s, R s s)
    (htrans : ∀ a b c, R a b → R b c → R a c) (xs : List α)
    (hstep : ∀ st x st1, x ∈ xs → f st x = .ok st1 → R st st1) :
    ∀ st st1, for_each f xs st = .ok st1 → R st st1 := by
  induction xs with
  | nil =>
    intro st st1 h
    simp only [for_each, Except.ok.injEq] at h
    subst h
    exact hrefl st
  | cons x rest ih =>
    intro st st1 h
    simp only [for_each] at h
    cases hf : f st x with
    | error e => rw [hf] at h; cases h
    | ok st2 =>
      rw [hf] at h
      have h1 := hstep st x st2 (List.mem_cons_self _ _) hf
      have h2 := ih (fun st x st1 hx => hstep st x st1 (List.mem_cons_of_mem _ hx)) st2 st1 h
      exact htrans _ _ _ h1 h2

theorem for_each_succeeds {α : Type} (f : HMState → α → Except HMError HMState)
    (P : HMState → Prop) (xs : List α)
    (hstep : ∀ st x, x ∈ xs → P st → ∃ st1, f st x = .ok st1 ∧ P st1) :
    ∀ st, P st → ∃ st1, for_each f xs st = .ok st1 ∧ P st1 := by
  induction xs with
  | nil =>
    intro st hP
    exact ⟨st, rfl, hP⟩
  | cons x rest ih =>
    intro st hP
    obtain ⟨st2, hf, hP2⟩ := hstep st x (List.mem_cons_self _ _) hP
    obtain ⟨st1, hrest, hP1⟩ :=
      ih (fun st x hx => hstep st x (List.mem_cons_of_mem _ hx)) st2 hP2
    refine ⟨st1, ?_, hP1⟩
    simp only [for_each, hf]
    exact hrest

theorem for_each_quiet {α : Type} (f : HMState → α → Except HMError HMState)
    (Q : HMTable → α → Prop) (xs : List α)
    (hstep : ∀ st x st1, x ∈ xs → f st x = .ok st1 → st1.was_updated = false →
      st1 = st ∧ Q st.hm_table x) :
    ∀ st st1, for_each f xs st = .ok st1 → st1.was_updated = false →
      st1 = st ∧ ∀ x ∈ xs, Q st.hm_table x := by
  induction xs with
  | nil =>
    intro st st1 h _
    simp only [for_each, Except.ok.injEq] at h
    exact ⟨h.symm, by simp⟩
  | cons x rest ih =>
    intro st st1 h hq
    simp only [for_each] at h
    cases hf : f st x with
    | error e => rw [hf] at h; cases h
    | ok st2 =>
      rw [hf] at h
      obtain ⟨heq, hQ⟩ :=
        ih (fun st x st1 hx => hstep st x st1 (List.mem_cons_of_mem _ hx)) st2 st1 h hq
      subst heq
      obtain ⟨heq2, hQ2⟩ := hstep st x st1 (List.mem_cons_self _ _) hf hq
      subst heq2
      refine ⟨rfl, ?_⟩
      intro y hy
      rcases List.mem_cons.mp hy with rfl | hy
      · exact hQ2
      · exact hQ y hy

/-! ## Partial tuples -/

theorem mem_partial_tuples_aux (rest : Tuple) :
    ∀ (t : Tuple) (sz : Nat) (res : List Tuple) (x : Tuple), 1 ≤ sz →
      (x ∈ generate_all_partial_tuples_aux rest t sz res ↔
        x ∈ res ∨ ∃ ext : Tuple, ext.Sublist rest ∧ ext ≠ [] ∧ ext.length ≤ sz ∧
          x = t ++ ext) := by
  induction rest with
  | nil =>
    intro t sz res x _
    simp only [generate_all_partial_tuples_aux, List.sublist_nil]
    constructor
    · intro h; exact Or.inl h
    · rintro (h | ⟨ext, h1, h2, _⟩)
      · exact h
      · exact absurd h1 h2
  | cons a rest ih =>
    intro t sz res x hsz
    simp only [generate_all_partial_tuples_aux]
    rw [ih t sz _ x hsz]
    by_cases h1 : sz = 1
    · subst h1
      simp only [if_true, List.mem_append, List.mem_singleton]
      constructor
      · rintro ((h | h) | ⟨ext, hs, hne, hl, hx⟩)
        · exact Or.inl h
        · exact Or.inr ⟨[a], by simp, by simp, by simp, h⟩
        · exact Or.inr ⟨ext, List.Sublist.cons _ hs, hne, hl, hx⟩
      · rintro (h | ⟨ext, hs, hne, hl, hx⟩)
        · exact Or.inl (Or.inl h)
        · rcases List.sublist_cons_iff.mp hs with hs1 | ⟨r, hr, hs1⟩
          · exact Or.inr ⟨ext, hs1, hne, hl, hx⟩
          · subst hr
            have hr0 : r = [] := by
              simp only [List.length_cons] at hl
              exact List.length_eq_zero.mp (by omega)
            subst hr0
            exact Or.inl (Or.inr hx)
    · have hsz2 : 1 ≤ sz - 1 := by omega
      simp only [h1, if_false]
      rw [ih (t ++ [a]) (sz - 1) _ x hsz2]
      simp only [List.mem_append, List.mem_singleton]
      constructor
      · rintro (((h | h) | ⟨ext, hs, hne, hl, hx⟩) | ⟨ext, hs, hne, hl, hx⟩)
        · exact Or.inl h
        · exact Or.inr ⟨[a], by simp, by simp, by simp; omega, h⟩
        · refine Or.inr ⟨a :: ext, List.cons_sublist_cons.mpr hs, by simp, ?_, ?_⟩
          · simp only [List.length_cons]; omega
          · simp [hx]
        · exact Or.inr ⟨ext, List.Sublist.cons _ hs, hne, hl, hx⟩
      · rintro (h | ⟨ext, hs, hne, hl, hx⟩)
        · exact Or.inl (Or.inl (Or.inl h))
        · rcases List.sublist_cons_iff.mp hs with hs1 | ⟨r, hr, hs1⟩
          · exact Or.inr ⟨ext, hs1, hne, hl, hx⟩
          · subst hr
            by_cases hr0 : r = []
            · subst hr0
              exact Or.inl (Or.inl (Or.inr hx))
            · refine Or.inl (Or.inr ⟨r, hs1, hr0, ?_, ?_⟩)
              · simp only [List.length_cons] at hl; omega
              · simp [hx]

/-- The partial tuples of `base` are its non-empty sublists of at most `m` facts. -/
theorem mem_partial_tuples (m : Nat) (hm : 1 ≤ m) (base x : Tuple) :
    x ∈ generate_all_partial_tuples m base ↔ x.Sublist base ∧ x ≠ [] ∧ x.length ≤ m := by
  unfold generate_all_partial_tuples
  rw [mem_partial_tuples_aux base [] m [] x hm]
  simp only [List.not_mem_nil, false_or, List.nil_append]
  constructor
  · rintro ⟨ext, hs, hne, hl, rfl⟩
    exact ⟨hs, hne, hl⟩
  · rintro ⟨hs, hne, hl⟩
    exact ⟨x, hs, hne, hl, rfl⟩

/-- Also for `m = 0` a partial tuple is a non-empty sublist. -/
theorem partial_tuples_aux_shape (rest : Tuple) :
    ∀ (t : Tuple) (sz : Nat) (res : List Tuple) (x : Tuple),
      x ∈ generate_all_partial_tuples_aux rest t sz res →
        x ∈ res ∨ ∃ ext : Tuple, ext.Sublist rest ∧ ext ≠ [] ∧ x = t ++ ext := by
  induction rest with
  | nil =>
    intro t sz res x h
    simp only [generate_all_partial_tuples_aux] at h
    exact Or.inl h
  | cons a rest ih =>
    intro t sz res x h
    simp only [generate_all_partial_tuples_aux] at h
    rcases ih t sz _ x h with h2 | ⟨ext, hs, hne, hx⟩
    · by_cases h1 : sz = 1
      · simp only [h1, if_true, List.mem_append, List.mem_singleton] at h2
        rcases h2 with h2 | h2
        · exact Or.inl h2
        · exact Or.inr ⟨[a], by simp, by simp, h2⟩
      · simp only [h1, if_false] at h2
        rcases ih (t ++ [a]) (sz - 1) _ x h2 with h3 | ⟨ext, hs, _, hx⟩
        · simp only [List.mem_append, List.mem_singleton] at h3
          rcases h3 with h3 | h3
          · exact Or.inl h3
          · exact Or.inr ⟨[a], by simp, by simp, h3⟩
        · exact Or.inr ⟨a :: ext, List.cons_sublist_cons.mpr hs, by simp, by simp [hx]⟩
    · exact Or.inr ⟨ext, List.Sublist.cons _ hs, hne, hx⟩

theorem partial_tuple_shape (m : Nat) (base x : Tuple)
    (h : x ∈ generate_all_partial_tuples m base) : x.Sublist base ∧ x ≠ [] := by
  unfold generate_all_partial_tuples at h
  rcases partial_tuples_aux_shape base [] m [] x h with h | ⟨ext, hs, hne, hx⟩
  · simp at h
  · simp only [List.nil_append] at hx
    subst hx
    exact ⟨hs, hne⟩

/-! ## The function `eval` -/

theorem eval_loop_ok (tbl : HMTable) (ts : List Tuple) :
    ∀ (acc v : Int), eval_loop tbl ts acc = .ok v →
      acc ≤ v ∧ (∀ t ∈ ts, ∃ x, tbl.at t = some x ∧ x ≤ v) ∧
      (v = acc ∨ ∃ t ∈ ts, tbl.at t = some v) := by
  induction ts with
  | nil =>
    intro acc v h
    simp only [eval_loop, Except.ok.injEq] at h
    subst h
    simp
  | cons t rest ih =>
    intro acc v h
    simp only [eval_loop] at h
    cases hat : tbl.at t with
    | none => rw [hat] at h; cases h
    | some x =>
      rw [hat] at h
      simp only at h
      obtain ⟨h1, h2, h3⟩ := ih _ v h
      by_cases hx : x > acc
      · simp only [hx, if_true] at h1 h3
        refine ⟨by omega, ?_, ?_⟩
        · intro t1 ht1
          rcases List.mem_cons.mp ht1 with rfl | ht1
          · exact ⟨x, hat, h1⟩
          · exact h2 t1 ht1
        · rcases h3 with h3 | ⟨t1, ht1, hv⟩
          · exact Or.inr ⟨t, List.mem_cons_self _ _, by rw [hat, h3]⟩
          · exact Or.inr ⟨t1, List.mem_cons_of_mem _ ht1, hv⟩
      · simp only [hx, if_false] at h1 h3
        refine ⟨h1, ?_, ?_⟩
        · intro t1 ht1
          rcases List.mem_cons.mp ht1 with rfl | ht1
          · exact ⟨x, hat, by omega⟩
          · exact h2 t1 ht1
        · rcases h3 with h3 | ⟨t1, ht1, hv⟩
          · exact Or.inl h3
          · exact Or.inr ⟨t1, List.mem_cons_of_mem _ ht1, hv⟩

theorem eval_loop_succeeds (tbl : HMTable) (ts : List Tuple)
    (hkeys : ∀ t ∈ ts, t ∈ tbl.keys) : ∀ acc : Int, ∃ v, eval_loop tbl ts acc = .ok v := by
  induction ts with
  | nil => intro acc; exact ⟨acc, rfl⟩
  | cons t rest ih =>
    intro acc
    obtain ⟨x, hx⟩ := at_of_mem_keys tbl t (hkeys t (List.mem_cons_self _ _))
    simp only [eval_loop, hx]
    exact ih (fun t1 ht1 => hkeys t1 (List.mem_cons_of_mem _ ht1)) _

theorem eval_loop_congr (tbl1 tbl2 : HMTable) (ts : List Tuple)
    (h : ∀ t ∈ ts, tbl1.at t = tbl2.at t) :
    ∀ acc : Int, eval_loop tbl1 ts acc = eval_loop tbl2 ts acc := by
  induction ts with
  | nil => intro acc; rfl
  | cons t rest ih =>
    intro acc
    simp only [eval_loop, h t (List.mem_cons_self _ _)]
    cases tbl2.at t with
    | none => rfl
    | some x => exact ih (fun t1 ht1 => h t1 (List.mem_cons_of_mem _ ht1)) _

/-- The value of `eval` is at least 0 and bounds every entry it looked up; it is 0 or one
of those entries. -/
theorem eval_ok (m : Nat) (tbl : HMTable) (t : Tuple) (v : Int) (h : eval m tbl t = .ok v) :
    0 ≤ v ∧ (∀ x ∈ generate_all_partial_tuples m t, ∃ y, tbl.at x = some y ∧ y ≤ v) ∧
    (v = 0 ∨ ∃ x ∈ generate_all_partial_tuples m t, tbl.at x = some v) :=
  eval_loop_ok tbl _ 0 v h

/-- When every partial tuple has an entry of at most `c` and `0 ≤ c`, `eval` returns a value
of at most `c`. -/
theorem eval_le (m : Nat) (tbl : HMTable) (t : Tuple) (c : Int) (hc : 0 ≤ c)
    (hall : ∀ x ∈ generate_all_partial_tuples m t, ∃ y, tbl.at x = some y ∧ y ≤ c) :
    ∃ v, eval m tbl t = .ok v ∧ 0 ≤ v ∧ v ≤ c := by
  have hkeys : ∀ x ∈ generate_all_partial_tuples m t, x ∈ tbl.keys := by
    intro x hx
    obtain ⟨y, hy, _⟩ := hall x hx
    exact (at_isSome_iff_mem_keys tbl x).mp (by rw [hy]; rfl)
  obtain ⟨v, hv⟩ := eval_loop_succeeds tbl _ hkeys 0
  refine ⟨v, hv, (eval_ok m tbl t v hv).1, ?_⟩
  rcases (eval_ok m tbl t v hv).2.2 with h0 | ⟨x, hx, hxv⟩
  · omega
  · obtain ⟨y, hy, hyc⟩ := hall x hx
    rw [hxv] at hy
    cases hy
    exact hyc

/-! ## One write of the relaxation -/

theorem update_hm_entry_cases (st st1 : HMState) (t : Tuple) (val : Int)
    (h : update_hm_entry st t val = .ok st1) :
    ∃ cur, st.hm_table.at t = some cur ∧
      ((val < cur ∧ st1 = ⟨st.hm_table.set t val, true⟩) ∨ (cur ≤ val ∧ st1 = st)) := by
  unfold update_hm_entry at h
  cases hat : st.hm_table.at t with
  | none => rw [hat] at h; cases h
  | some cur =>
    rw [hat] at h
    simp only at h
    refine ⟨cur, rfl, ?_⟩
    by_cases hc : cur > val
    · simp only [hc, if_true, Except.ok.injEq] at h
      exact Or.inl ⟨hc, h.symm⟩
    · simp only [hc, if_false, Except.ok.injEq] at h
      exact Or.inr ⟨by omega, h.symm⟩

theorem update_hm_entry_succeeds (st : HMState) (t : Tuple) (val : Int)
    (hk : t ∈ st.hm_table.keys) : ∃ st1, update_hm_entry st t val = .ok st1 := by
  obtain ⟨cur, hcur⟩ := at_of_mem_keys _ t hk
  unfold update_hm_entry
  rw [hcur]
  simp only
  by_cases hc : cur > val
  · exact ⟨_, by rw [if_pos hc]⟩
  · exact ⟨_, by rw [if_neg hc]⟩

/-! ## Lifting a relation from single writes to a round -/

section lifting

variable (task : Task) (m : Nat) (R : HMState → HMState → Prop)

theorem extend_tuple_step_rel (hrefl : ∀ s, R s s)
    (hupd : ∀ st t x st1, relax_target task m t →
      update_hm_entry st t (wrap32 x) = .ok st1 → R st st1)
    (t : Tuple) (ht : t ≠ []) (op : Operator) (st st1 : HMState) (tuple : Tuple)
    (h : extend_tuple_step m t op st tuple = .ok st1) : R st st1 := by
  have hpos : 1 ≤ t.length := by
    cases t with
    | nil => exact absurd rfl ht
    | cons a r => simp
  unfold extend_tuple_step at h
  simp only at h
  split at h
  · rename_i hcond
    split at h
    · split at h
      · cases h
      · split at h
        · exact hupd _ _ _ _ (Or.inr (by omega)) h
        · cases h; exact hrefl _
    · cases h; exact hrefl _
  · cases h; exact hrefl _

theorem extend_tuple_rel (hrefl : ∀ s, R s s) (htrans : ∀ a b c, R a b → R b c → R a c)
    (hupd : ∀ st t x st1, relax_target task m t →
      update_hm_entry st t (wrap32 x) = .ok st1 → R st st1)
    (t : Tuple) (ht : t ≠ []) (op : Operator) (st st1 : HMState)
    (h : extend_tuple m t op st = .ok st1) : R st st1 :=
  for_each_rel _ R hrefl htrans _
    (fun s x s1 _ hs => extend_tuple_step_rel task m R hrefl hupd t ht op s s1 x hs) st st1 h

theorem partial_eff_step_rel (hrefl : ∀ s, R s s) (htrans : ∀ a b c, R a b → R b c → R a c)
    (hupd : ∀ st t x st1, relax_target task m t →
      update_hm_entry st t (wrap32 x) = .ok st1 → R st st1)
    (op : Operator) (hop : op ∈ task.get_operators) (c1 : Int) (st st1 : HMState)
    (pe : Tuple) (hpe : pe ∈ generate_all_partial_tuples m (get_operator_eff op))
    (h : partial_eff_step m op c1 st pe = .ok st1) : R st st1 := by
  unfold partial_eff_step at h
  cases hu : update_hm_entry st pe (wrap32 (c1 + op.cost)) with
  | error e => rw [hu] at h; cases h
  | ok st2 =>
    rw [hu] at h
    simp only at h
    have h1 : R st st2 := hupd _ _ _ _ (Or.inl ⟨op, hop, hpe⟩) hu
    split at h
    · exact htrans _ _ _ h1
        (extend_tuple_rel task m R hrefl htrans hupd pe (partial_tuple_shape m _ pe hpe).2
          op st2 st1 h)
    · cases h; exact h1

theorem operator_step_rel (hrefl : ∀ s, R s s) (htrans : ∀ a b c, R a b → R b c → R a c)
    (hupd : ∀ st t x st1, relax_target task m t →
      update_hm_entry st t (wrap32 x) = .ok st1 → R st st1)
    (op : Operator) (hop : op ∈ task.get_operators) (st st1 : HMState)
    (h : operator_step m st op = .ok st1) : R st st1 := by
  unfold operator_step at h
  cases he : eval m st.hm_table (get_operator_pre op) with
  | error e => rw [he] at h; cases h
  | ok c1 =>
    rw [he] at h
    simp only at h
    split at h
    · exact for_each_rel _ R hrefl htrans _
        (fun s x s1 hx hs => partial_eff_step_rel task m R hrefl htrans hupd op hop c1 s s1 x
          hx hs) st st1 h
    · cases h; exact hrefl _

/-- A reflexive and transitive relation that every single write of the relaxation respects
holds between the start and the end of a round. -/
theorem update_round_rel (hrefl : ∀ s, R s s) (htrans : ∀ a b c, R a b → R b c → R a c)
    (hupd : ∀ st t x st1, relax_target task m t →
      update_hm_entry st t (wrap32 x) = .ok st1 → R st st1)
    (tbl : HMTable) (st : HMState) (h : update_round task m tbl = .ok st) :
    R ⟨tbl, false⟩ st :=
  for_each_rel _ R hrefl htrans _
    (fun s x s1 hx hs => operator_step_rel task m R hrefl htrans hupd x hx s s1 hs) _ st h

end lifting

/-! ## What a round preserves -/

theorem wrap32_range (x : Int) : -2147483648 ≤ wrap32 x ∧ wrap32 x ≤ INT_MAX := by
  unfold wrap32 INT_MAX
  omega

theorem wrap32_eq (x : Int) (h1 : -2147483648 ≤ x) (h2 : x ≤ 2147483647) : wrap32 x = x := by
  unfold wrap32
  omega

theorem table_weight_cons (k : Tuple) (w : Int) (rest : HMTable) :
    table_weight ((k, w) :: rest) = (w + 2147483648).toNat + table_weight rest := by
  simp [table_weight]

theorem table_weight_set (tbl : HMTable) (t : Tuple) (v cur : Int)
    (hat : tbl.at t = some cur) (hlt : v < cur) (hlow : -2147483648 ≤ v) :
    table_weight (tbl.set t v) < table_weight tbl := by
  induction tbl with
  | nil => simp [HMTable.at] at hat
  | cons e rest ih =>
    obtain ⟨k, w⟩ := e
    by_cases hk : k = t
    · simp only [HMTable.at, hk, if_true, Option.some.injEq] at hat
      subst hat
      simp only [HMTable.set, hk, if_true, table_weight_cons]
      omega
    · simp only [HMTable.at, hk, if_false] at hat
      simp only [HMTable.set, hk, if_false, table_weight_cons]
      have := ih hat
      omega

theorem update_round_keys (task : Task) (m : Nat) (tbl : HMTable) (st : HMState)
    (h : update_round task m tbl = .ok st) : st.hm_table.keys = tbl.keys := by
  refine update_round_rel task m (fun a b => b.hm_table.keys = a.hm_table.keys)
    (fun _ => rfl) (fun a b c h1 h2 => h2.trans h1) ?_ tbl st h
  intro s t x s1 _ hu
  obtain ⟨cur, _, hc | hc⟩ := update_hm_entry_cases s s1 t _ hu
  · rw [hc.2]
    exact keys_set _ _ _
  · rw [hc.2]

theorem update_round_weight (task : Task) (m : Nat) (tbl : HMTable) (st : HMState)
    (h : update_round task m tbl = .ok st) :
    table_weight st.hm_table ≤ table_weight tbl ∧
    (st.was_updated = true → table_weight st.hm_table < table_weight tbl) := by
  have key := update_round_rel task m
    (fun a b => table_weight b.hm_table ≤ table_weight a.hm_table ∧
      (b.was_updated = true → a.was_updated = false →
        table_weight b.hm_table < table_weight a.hm_table))
    (fun s => ⟨le_refl _, fun h1 h2 => by rw [h1] at h2; cases h2⟩)
    (fun a b c h1 h2 => ⟨le_trans h2.1 h1.1, fun hc ha => by
      cases hb : b.was_updated
      · exact lt_of_lt_of_le (h2.2 hc hb) h1.1
      · exact lt_of_le_of_lt h2.1 (h1.2 hb ha)⟩) ?_ tbl st h
  · exact ⟨key.1, fun hu => key.2 hu rfl⟩
  · intro s t x s1 _ hu
    obtain ⟨cur, hcur, hc | hc⟩ := update_hm_entry_cases s s1 t _ hu
    · rw [hc.2]
      have hlt := table_weight_set s.hm_table t _ cur hcur hc.1 (wrap32_range x).1
      exact ⟨le_of_lt hlt, fun _ _ => hlt⟩
    · rw [hc.2]
      exact ⟨le_refl _, fun h1 h2 => by rw [h1] at h2; cases h2⟩

theorem table_le_refl (a : HMTable) : table_le a a :=
  ⟨rfl, fun _ v hv => ⟨v, hv, le_refl _⟩⟩

theorem table_le_trans (a b c : HMTable) (h1 : table_le a b) (h2 : table_le b c) :
    table_le a c := by
  refine ⟨h1.1.trans h2.1, ?_⟩
  intro t v hv
  obtain ⟨w, hw, hwv⟩ := h2.2 t v hv
  obtain ⟨u, hu, huw⟩ := h1.2 t w hw
  exact ⟨u, hu, le_trans huw hwv⟩

theorem update_round_le (task : Task) (m : Nat) (tbl : HMTable) (st : HMState)
    (h : update_round task m tbl = .ok st) : table_le st.hm_table tbl := by
  refine update_round_rel task m (fun a b => table_le b.hm_table a.hm_table)
    (fun s => table_le_refl _) (fun a b c h1 h2 => table_le_trans _ _ _ h2 h1) ?_ tbl st h
  intro s t x s1 _ hu
  obtain ⟨cur, hcur, hc | hc⟩ := update_hm_entry_cases s s1 t _ hu
  · rw [hc.2]
    refine ⟨keys_set _ _ _, ?_⟩
    intro t1 v hv
    by_cases ht : t1 = t
    · subst ht
      rw [hcur] at hv
      cases hv
      exact ⟨_, at_set_self _ _ _ _ hcur, le_of_lt hc.1⟩
    · exact ⟨v, by rw [at_set_other _ _ _ _ ht]; exact hv, le_refl _⟩
  · rw [hc.2]
    exact table_le_refl _

/-- A round leaves alone every entry that is not a target of the relaxation. -/
theorem update_round_frame (task : Task) (m : Nat) (tbl : HMTable) (st : HMState)
    (h : update_round task m tbl = .ok st) (t : Tuple) (ht : ¬ relax_target task m t) :
    st.hm_table.at t = tbl.at t := by
  refine update_round_rel task m (fun a b => b.hm_table.at t = a.hm_table.at t)
    (fun _ => rfl) (fun a b c h1 h2 => h2.trans h1) ?_ tbl st h
  intro s t1 x s1 htgt hu
  obtain ⟨cur, _, hc | hc⟩ := update_hm_entry_cases s s1 t1 _ hu
  · rw [hc.2]
    have hne : t ≠ t1 := fun he => ht (he ▸ htgt)
    exact at_set_other _ _ _ _ hne
  · rw [hc.2]

/-- A round keeps every entry at or below `INT_MAX`. -/
theorem update_round_bounded (task : Task) (m : Nat) (tbl : HMTable) (st : HMState)
    (h : update_round task m tbl = .ok st)
    (hb : ∀ t v, tbl.at t = some v → v ≤ INT_MAX) :
    ∀ t v, st.hm_table.at t = some v → v ≤ INT_MAX := by
  refine update_round_rel task m
    (fun a b => (∀ t v, a.hm_table.at t = some v → v ≤ INT_MAX) →
      (∀ t v, b.hm_table.at t = some v → v ≤ INT_MAX))
    (fun _ h => h) (fun a b c h1 h2 h0 => h2 (h1 h0)) ?_ tbl st h hb
  intro s t1 x s1 _ hu h0
  obtain ⟨cur, hcur, hc | hc⟩ := update_hm_entry_cases s s1 t1 _ hu
  · rw [hc.2]
    intro t v hv
    by_cases ht : t = t1
    · subst ht
      rw [at_set_self _ _ _ _ hcur] at hv
      cases hv
      exact (wrap32_range x).2
    · rw [at_set_other _ _ _ _ ht] at hv
      exact h0 t v hv
  · rw [hc.2]
    exact h0

/-! ## A round that reports no update -/

theorem update_hm_entry_quiet (st st1 : HMState) (t : Tuple) (val : Int)
    (h : update_hm_entry st t val = .ok st1) (hq : st1.was_updated = false) :
    st1 = st ∧ ∃ cur, st.hm_table.at t = some cur ∧ cur ≤ val := by
  obtain ⟨cur, hcur, hc | hc⟩ := update_hm_entry_cases st st1 t val h
  · rw [hc.2] at hq
    cases hq
  · exact ⟨hc.2, cur, hcur, hc.1⟩

theorem extend_tuple_step_quiet (m : Nat) (t : Tuple) (op : Operator) (st st1 : HMState)
    (tuple : Tuple) (h : extend_tuple_step m t op st tuple = .ok st1)
    (hq : st1.was_updated = false) :
    st1 = st ∧ extension_closed m st.hm_table op t tuple := by
  unfold extend_tuple_step at h
  simp only at h
  by_cases hcond : (!tuple.any (fun fact => contradict_effect_of op fact.var fact.value)) = true ∧
      tuple.length > t.length ∧ check_tuple_in_tuple t tuple = 0
  · rw [if_pos hcond] at h
    by_cases hvalid : no_var_twice (extended_pre op t tuple) [] = true
    · rw [if_pos hvalid] at h
      cases he : eval m st.hm_table (extended_pre op t tuple) with
      | error e => rw [he] at h; cases h
      | ok c2 =>
        rw [he] at h
        simp only at h
        by_cases hc2 : c2 ≠ INT_MAX
        · rw [if_pos hc2] at h
          obtain ⟨heq, hcur⟩ := update_hm_entry_quiet _ _ _ _ h hq
          refine ⟨heq, ?_⟩
          intro _ _ _ _ c hc _
          rw [he] at hc
          cases hc
          exact hcur
        · rw [if_neg hc2] at h
          cases h
          refine ⟨rfl, ?_⟩
          intro _ _ _ _ c hc hne
          rw [he] at hc
          cases hc
          exact absurd hne hc2
    · rw [if_neg hvalid] at h
      cases h
      exact ⟨rfl, fun _ _ _ hv => absurd hv hvalid⟩
  · rw [if_neg hcond] at h
    cases h
    refine ⟨rfl, ?_⟩
    intro h1 h2 h3
    exact absurd ⟨by simp [h1], h2, h3⟩ hcond

theorem extend_tuple_quiet (m : Nat) (t : Tuple) (op : Operator) (st st1 : HMState)
    (h : extend_tuple m t op st = .ok st1) (hq : st1.was_updated = false) :
    st1 = st ∧ ∀ tuple ∈ st.hm_table.keys, extension_closed m st.hm_table op t tuple :=
  for_each_quiet (extend_tuple_step m t op)
    (fun tbl tuple => extension_closed m tbl op t tuple) st.hm_table.keys
    (fun s x s1 _ hs hq1 => extend_tuple_step_quiet m t op s s1 x hs hq1) st st1 h hq

theorem extend_tuple_flag (m : Nat) (t : Tuple) (op : Operator) (st st1 : HMState)
    (h : extend_tuple m t op st = .ok st1) (hst : st.was_updated = true) :
    st1.was_updated = true := by
  cases hq : st1.was_updated
  · have := (extend_tuple_quiet m t op st st1 h hq).1
    rw [this, hst] at hq
    cases hq
  · rfl

theorem partial_eff_step_quiet (m : Nat) (op : Operator) (c1 : Int) (st st1 : HMState)
    (pe : Tuple) (h : partial_eff_step m op c1 st pe = .ok st1)
    (hq : st1.was_updated = false) :
    st1 = st ∧ effect_closed m st.hm_table op c1 pe := by
  unfold partial_eff_step at h
  cases hu : update_hm_entry st pe (wrap32 (c1 + op.cost)) with
  | error e => rw [hu] at h; cases h
  | ok st2 =>
    rw [hu] at h
    simp only at h
    by_cases hlen : pe.length < m
    · rw [if_pos hlen] at h
      obtain ⟨heq, hext⟩ := extend_tuple_quiet m pe op st2 st1 h hq
      subst heq
      obtain ⟨heq2, hcur⟩ := update_hm_entry_quiet _ _ _ _ hu hq
      subst heq2
      exact ⟨rfl, hcur, fun _ => hext⟩
    · rw [if_neg hlen] at h
      cases h
      obtain ⟨heq2, hcur⟩ := update_hm_entry_quiet _ _ _ _ hu hq
      exact ⟨heq2, hcur, fun hl => absurd hl hlen⟩

theorem operator_step_quiet (m : Nat) (op : Operator) (st st1 : HMState)
    (h : operator_step m st op = .ok st1) (hq : st1.was_updated = false) :
    st1 = st ∧ operator_closed m st.hm_table op := by
  unfold operator_step at h
  cases he : eval m st.hm_table (get_operator_pre op) with
  | error e => rw [he] at h; cases h
  | ok c1 =>
    rw [he] at h
    simp only at h
    by_cases hc1 : c1 ≠ INT_MAX
    · rw [if_pos hc1] at h
      obtain ⟨heq, hcl⟩ := for_each_quiet (partial_eff_step m op c1)
        (fun tbl pe => effect_closed m tbl op c1 pe) _
        (fun s x s1 _ hs hq1 => partial_eff_step_quiet m op c1 s s1 x hs hq1) st st1 h hq
      refine ⟨heq, ?_⟩
      intro c hc _
      rw [he] at hc
      cases hc
      exact hcl
    · rw [if_neg hc1] at h
      cases h
      refine ⟨rfl, ?_⟩
      intro c hc hne
      rw [he] at hc
      cases hc
      exact absurd hne hc1

/-- A round that ends with `was_updated` false has changed nothing, and its table is a
fixpoint of the relaxation. -/
theorem update_round_quiet (task : Task) (m : Nat) (tbl : HMTable) (st : HMState)
    (h : update_round task m tbl = .ok st) (hq : st.was_updated = false) :
    st = ⟨tbl, false⟩ ∧ is_fixpoint task m tbl :=
  for_each_quiet (operator_step m) (fun tbl op => operator_closed m tbl op) _
    (fun s x s1 _ hs hq1 => operator_step_quiet m x s s1 hs hq1) ⟨tbl, false⟩ st h hq

/-! ## The loop of `update_hm_table` -/

theorem for_each_fuel {α : Type} (f : HMState → α → Except HMError HMState) (xs : List α)
    (hstep : ∀ st x, f st x ≠ .error .out_of_fuel) :
    ∀ st, for_each f xs st ≠ .error .out_of_fuel := by
  induction xs with
  | nil => intro st h; cases h
  | cons x rest ih =>
    intro st
    simp only [for_each]
    cases hf : f st x with
    | error e =>
      simp only
      intro h
      exact hstep st x (by rw [hf]; exact h)
    | ok st2 => exact ih st2

theorem eval_loop_fuel (tbl : HMTable) (ts : List Tuple) :
    ∀ acc : Int, eval_loop tbl ts acc ≠ .error .out_of_fuel := by
  induction ts with
  | nil => intro acc h; cases h
  | cons t rest ih =>
    intro acc
    simp only [eval_loop]
    cases tbl.at t with
    | none => intro h; cases h
    | some x => exact ih _

theorem update_hm_entry_fuel (st : HMState) (t : Tuple) (val : Int) :
    update_hm_entry st t val ≠ .error .out_of_fuel := by
  unfold update_hm_entry
  cases st.hm_table.at t with
  | none => intro h; cases h
  | some cur =>
    simp only
    split <;> (intro h; cases h)

theorem extend_tuple_step_fuel (m : Nat) (t : Tuple) (op : Operator) (st : HMState)
    (tuple : Tuple) : extend_tuple_step m t op st tuple ≠ .error .out_of_fuel := by
  unfold extend_tuple_step
  simp only
  split
  · split
    · cases he : eval m st.hm_table (extended_pre op t tuple) with
      | error e =>
        simp only
        intro h
        exact eval_loop_fuel _ _ 0 (by unfold eval at he; rw [he, Except.error.inj h])
      | ok c2 =>
        simp only
        split
        · exact update_hm_entry_fuel _ _ _
        · intro h; cases h
    · intro h; cases h
  · intro h; cases h

theorem partial_eff_step_fuel (m : Nat) (op : Operator) (c1 : Int) (st : HMState)
    (pe : Tuple) : partial_eff_step m op c1 st pe ≠ .error .out_of_fuel := by
  unfold partial_eff_step
  cases hu : update_hm_entry st pe (wrap32 (c1 + op.cost)) with
  | error e =>
    simp only
    intro h
    exact update_hm_entry_fuel _ _ _ (by rw [hu]; exact h)
  | ok st2 =>
    simp only
    split
    · exact for_each_fuel _ _ (fun s x => extend_tuple_step_fuel m pe op s x) st2
    · intro h; cases h

theorem operator_step_fuel (m : Nat) (st : HMState) (op : Operator) :
    operator_step m st op ≠ .error .out_of_fuel := by
  unfold operator_step
  cases he : eval m st.hm_table (get_operator_pre op) with
  | error e =>
    simp only
    intro h
    exact eval_loop_fuel _ _ 0 (by unfold eval at he; rw [he, Except.error.inj h])
  | ok c1 =>
    simp only
    split
    · exact for_each_fuel _ _ (fun s x => partial_eff_step_fuel m op c1 s x) st
    · intro h; cases h

theorem update_round_fuel (task : Task) (m : Nat) (tbl : HMTable) :
    update_round task m tbl ≠ .error .out_of_fuel :=
  for_each_fuel _ _ (fun s x => operator_step_fuel m s x) _

/-- With more fuel than the weight of the table the loop is not cut off. -/
theorem loop_enough_fuel (task : Task) (m : Nat) :
    ∀ (fuel round : Nat) (tbl : HMTable), table_weight tbl < fuel →
      update_hm_table_loop task m fuel round tbl ≠ .error .out_of_fuel := by
  intro fuel
  induction fuel with
  | zero => intro round tbl h; omega
  | succ fuel ih =>
    intro round tbl hw
    simp only [update_hm_table_loop]
    cases hr : update_round task m tbl with
    | error e =>
      simp only
      intro h
      exact update_round_fuel task m tbl (by rw [hr, Except.error.inj h])
    | ok st =>
      simp only
      have hwt := update_round_weight task m tbl st hr
      by_cases hu : st.was_updated = true
      · rw [if_pos hu]
        exact ih _ _ (by have := hwt.2 hu; omega)
      · rw [if_neg hu]
        intro h
        cases h

/-- The number of rounds of a run that returns is bounded by the fuel. -/
theorem loop_rounds (task : Task) (m : Nat) :
    ∀ (fuel round : Nat) (tbl tblF : HMTable) (n : Nat),
      update_hm_table_loop task m fuel round tbl = .ok (tblF, n) →
        round < n ∧ n ≤ round + fuel := by
  intro fuel
  induction fuel with
  | zero => intro round tbl tblF n h; cases h
  | succ fuel ih =>
    intro round tbl tblF n h
    simp only [update_hm_table_loop] at h
    cases hr : update_round task m tbl with
    | error e => rw [hr] at h; cases h
    | ok st =>
      rw [hr] at h
      simp only at h
      by_cases hu : st.was_updated = true
      · rw [if_pos hu] at h
        have := ih _ _ _ _ h
        omega
      · rw [if_neg hu] at h
        cases h
        omega

/-- A run of the loop that returns ends in a table on which a further round changes nothing;
a reflexive, transitive relation that rounds respect holds between its first and last
table. -/
theorem loop_result (task : Task) (m : Nat) (R : HMTable → HMTable → Prop)
    (hrefl : ∀ a, R a a) (htrans : ∀ a b c, R a b → R b c → R a c)
    (hround : ∀ tbl st, update_round task m tbl = .ok st → R tbl st.hm_table) :
    ∀ (fuel round : Nat) (tbl tblF : HMTable) (n : Nat),
      update_hm_table_loop task m fuel round tbl = .ok (tblF, n) →
        R tbl tblF ∧ update_round task m tblF = .ok ⟨tblF, false⟩ ∧
          is_fixpoint task m tblF := by
  intro fuel
  induction fuel with
  | zero => intro round tbl tblF n h; cases h
  | succ fuel ih =>
    intro round tbl tblF n h
    simp only [update_hm_table_loop] at h
    cases hr : update_round task m tbl with
    | error e => rw [hr] at h; cases h
    | ok st =>
      rw [hr] at h
      simp only at h
      by_cases hu : st.was_updated = true
      · rw [if_pos hu] at h
        obtain ⟨h1, h2⟩ := ih _ _ _ _ h
        exact ⟨htrans _ _ _ (hround tbl st hr) h1, h2⟩
      · rw [if_neg hu] at h
        cases h
        have hq : st.was_updated = false := by
          cases hb : st.was_updated
          · rfl
          · exact absurd hb hu
        obtain ⟨heq, hfix⟩ := update_round_quiet task m tbl st hr hq
        rw [heq] at hr ⊢
        exact ⟨hrefl _, hr, hfix⟩

/-! ## The keys that setup generates -/

theorem mem_keys_insert_new (tbl : HMTable) (t : Tuple) (v : Int) (t1 : Tuple) :
    t1 ∈ (tbl.insert_new t v).keys ↔ t1 = t ∨ t1 ∈ tbl.keys := by
  induction tbl with
  | nil => simp [HMTable.insert_new, HMTable.keys]
  | cons e rest ih =>
    obtain ⟨k, w⟩ := e
    by_cases hlt : tuple_lt t k = true
    · simp [HMTable.insert_new, hlt, HMTable.keys]
    · simp only [HMTable.insert_new, hlt, Bool.false_eq_true, if_false]
      simp only [HMTable.keys, List.map_cons, List.mem_cons] at ih ⊢
      rw [ih]
      tauto

theorem mem_keys_assign (tbl : HMTable) (t : Tuple) (v : Int) (t1 : Tuple) :
    t1 ∈ (tbl.assign t v).keys ↔ t1 = t ∨ t1 ∈ tbl.keys := by
  unfold HMTable.assign
  cases hat : tbl.at t with
  | none => exact mem_keys_insert_new tbl t v t1
  | some cur =>
    simp only
    rw [keys_set]
    have hmem : t ∈ tbl.keys := (at_isSome_iff_mem_keys tbl t).mp (by rw [hat]; rfl)
    constructor
    · exact Or.inr
    · rintro (h | h)
      · rw [h]; exact hmem
      · exact h

theorem foldl_keys {α : Type} (f : HMTable → α → HMTable) (A : α → Tuple → Prop)
    (xs : List α)
    (hf : ∀ tbl x, x ∈ xs → ∀ t, t ∈ (f tbl x).keys ↔ t ∈ tbl.keys ∨ A x t) :
    ∀ tbl t, t ∈ (xs.foldl f tbl).keys ↔ t ∈ tbl.keys ∨ ∃ x ∈ xs, A x t := by
  induction xs with
  | nil => intro tbl t; simp
  | cons x rest ih =>
    intro tbl t
    rw [List.foldl_cons, ih (fun tbl y hy => hf tbl y (List.mem_cons_of_mem _ hy)),
      hf tbl x (List.mem_cons_self _ _)]
    simp only [List.mem_cons, exists_eq_or_imp]
    tauto

theorem valid_extension_succ (task : Task) (b var : Nat) (ext : Tuple) :
    valid_extension task (b + 1) var ext ↔
      ∃ i j, var ≤ i ∧ i < task.get_variables.length ∧ j < task.get_variables.getD i 0 ∧
        (ext = [⟨i, j⟩] ∨
          ∃ ext1, valid_extension task b (i + 1) ext1 ∧ ext = ⟨i, j⟩ :: ext1) := by
  constructor
  · rintro ⟨hne, hlen, hpw, hdom⟩
    cases ext with
    | nil => exact absurd rfl hne
    | cons f rest =>
      obtain ⟨hf1, hf2⟩ := hdom f (List.mem_cons_self _ _)
      refine ⟨f.var, f.value, hf2, hf1.1, hf1.2, ?_⟩
      by_cases hr : rest = []
      · subst hr
        exact Or.inl rfl
      · refine Or.inr ⟨rest, ⟨hr, ?_, ?_, ?_⟩, rfl⟩
        · simp only [List.length_cons] at hlen; omega
        · exact (List.pairwise_cons.mp hpw).2
        · intro g hg
          refine ⟨(hdom g (List.mem_cons_of_mem _ hg)).1, ?_⟩
          have := (List.pairwise_cons.mp hpw).1 g hg
          omega
  · rintro ⟨i, j, hvi, hin, hj, h | ⟨ext1, ⟨hne, hlen, hpw, hdom⟩, h⟩⟩
    · subst h
      refine ⟨by simp, by simp, by simp, ?_⟩
      intro f hf
      rw [List.mem_singleton] at hf
      subst hf
      exact ⟨⟨hin, hj⟩, hvi⟩
    · subst h
      refine ⟨by simp, by simp only [List.length_cons]; omega, ?_, ?_⟩
      · refine List.pairwise_cons.mpr ⟨?_, hpw⟩
        intro g hg
        have := (hdom g hg).2
        show i < g.var
        omega
      · intro f hf
        rcases List.mem_cons.mp hf with rfl | hf
        · exact ⟨⟨hin, hj⟩, hvi⟩
        · exact ⟨(hdom f hf).1, by have := (hdom f hf).2; omega⟩

theorem valid_extension_zero (task : Task) (var : Nat) (ext : Tuple) :
    ¬ valid_extension task 0 var ext := by
  rintro ⟨hne, hlen, _⟩
  exact hne (List.length_eq_zero.mp (by omega))

theorem mem_range'_var (var n i : Nat) : i ∈ List.range' var (n - var) ↔ var ≤ i ∧ i < n := by
  rw [List.mem_range'_1]
  omega

theorem keys_generate_aux (task : Task) :
    ∀ (sz var : Nat) (base : Tuple) (tbl : HMTable) (t : Tuple),
      t ∈ (generate_all_tuples_aux task var sz base tbl).keys ↔
        t ∈ tbl.keys ∨ ∃ ext, valid_extension task (sz - 1 + 1) var ext ∧ t = base ++ ext := by
  intro sz
  induction sz with
  | zero =>
    intro var base tbl t
    simp only [generate_all_tuples_aux]
    rw [foldl_keys _ (fun i t => ∃ j ∈ List.range (task.get_variables.getD i 0),
      t = base ++ [⟨i, j⟩])]
    · apply or_congr Iff.rfl
      simp only [Nat.zero_sub, valid_extension_succ, valid_extension_zero, false_and,
        exists_false, or_false, mem_range'_var, List.mem_range]
      constructor
      · rintro ⟨i, ⟨h1, h2⟩, j, hj, rfl⟩
        exact ⟨_, ⟨i, j, h1, h2, hj, rfl⟩, rfl⟩
      · rintro ⟨ext, ⟨i, j, h1, h2, hj, rfl⟩, rfl⟩
        exact ⟨i, ⟨h1, h2⟩, j, hj, rfl⟩
    · intro tbl1 i _ t1
      rw [foldl_keys _ (fun j t => t = base ++ [⟨i, j⟩])]
      intro tbl2 j _ t2
      rw [mem_keys_assign]
      tauto
  | succ sz ih =>
    intro var base tbl t
    simp only [generate_all_tuples_aux]
    rw [foldl_keys _ (fun i t => ∃ j ∈ List.range (task.get_variables.getD i 0),
      t = base ++ [⟨i, j⟩] ∨
        ∃ ext1, valid_extension task sz (i + 1) ext1 ∧ t = base ++ ⟨i, j⟩ :: ext1)]
    · apply or_congr Iff.rfl
      simp only [Nat.add_sub_cancel, valid_extension_succ, mem_range'_var, List.mem_range]
      constructor
      · rintro ⟨i, ⟨h1, h2⟩, j, hj, h | ⟨ext1, hv, h⟩⟩
        · exact ⟨_, ⟨i, j, h1, h2, hj, Or.inl rfl⟩, h⟩
        · exact ⟨_, ⟨i, j, h1, h2, hj, Or.inr ⟨ext1, hv, rfl⟩⟩, h⟩
      · rintro ⟨ext, ⟨i, j, h1, h2, hj, h | ⟨ext1, hv, h⟩⟩, rfl⟩
        · exact ⟨i, ⟨h1, h2⟩, j, hj, Or.inl (by rw [h])⟩
        · exact ⟨i, ⟨h1, h2⟩, j, hj, Or.inr ⟨ext1, hv, by rw [h]⟩⟩
    · intro tbl1 i _ t1
      rw [foldl_keys _ (fun j t => t = base ++ [⟨i, j⟩] ∨
        ∃ ext1, valid_extension task sz (i + 1) ext1 ∧ t = base ++ ⟨i, j⟩ :: ext1)]
      intro tbl2 j _ t2
      by_cases hsz : sz + 1 > 1
      · simp only [hsz, if_true]
        rw [ih, mem_keys_assign]
        have hb : sz - 1 + 1 = sz := by omega
        rw [hb]
        simp only [List.append_assoc, List.singleton_append]
        tauto
      · simp only [hsz, if_false]
        rw [mem_keys_assign]
        have h0 : sz = 0 := by omega
        subst h0
        simp only [valid_extension_zero, false_and, exists_false, or_false]
        tauto

/-- Setup enumeration (keys): for `m ≥ 1` the keys of the generated table are exactly the
tuples of 1 to `m` facts in the domain with strictly increasing variable ids. -/
theorem keys_generate_all_tuples (task : Task) (m : Nat) (hm : 1 ≤ m) :
    keys_ok task m (generate_all_tuples task m) := by
  intro t
  unfold generate_all_tuples
  rw [keys_generate_aux]
  have hb : m - 1 + 1 = m := by omega
  rw [hb]
  simp only [HMTable.keys, List.map_nil, List.not_mem_nil, false_or, List.nil_append]
  constructor
  · rintro ⟨ext, ⟨h1, h2, h3, h4⟩, rfl⟩
    exact ⟨h1, h2, h3, fun f hf => (h4 f hf).1⟩
  · rintro ⟨h1, h2, h3, h4⟩
    exact ⟨t, ⟨h1, h2, h3, fun f hf => ⟨h4 f hf, Nat.zero_le _⟩⟩, rfl⟩

/-! ## Sorted facts and valid keys -/

theorem sort_facts_sorted (v : Tuple) : (sort_facts v).Pairwise FactPair.le :=
  List.sorted_insertionSort FactPair.le v

theorem mem_sort_facts (v : Tuple) (f : FactPair) : f ∈ sort_facts v ↔ f ∈ v :=
  List.mem_insertionSort FactPair.le

theorem sort_facts_perm (v : Tuple) : (sort_facts v).Perm v :=
  List.perm_insertionSort FactPair.le v

theorem strict_of_sorted_nodup (l : Tuple) (hs : l.Pairwise FactPair.le)
    (hn : (l.map (fun f => f.var)).Nodup) : l.Pairwise (fun a b => a.var < b.var) := by
  have hne : l.Pairwise (fun a b => a.var ≠ b.var) := by
    unfold List.Nodup at hn
    rw [List.pairwise_map] at hn
    exact hn
  refine (hs.and hne).imp ?_
  intro a b h
  obtain ⟨h1, h2⟩ := h
  unfold FactPair.le at h1
  omega

theorem sort_facts_strict (v : Tuple) (hn : (v.map (fun f => f.var)).Nodup) :
    (sort_facts v).Pairwise (fun a b => a.var < b.var) := by
  apply strict_of_sorted_nodup _ (sort_facts_sorted v)
  exact ((sort_facts_perm v).map _).nodup_iff.mpr hn

theorem valid_key_of_sublist (task : Task) (m : Nat) (base x : Tuple)
    (hpw : base.Pairwise (fun a b => a.var < b.var)) (hdom : ∀ f ∈ base, in_domain task f)
    (hs : x.Sublist base) (hne : x ≠ []) (hlen : x.length ≤ m) : valid_key task m x :=
  ⟨hne, hlen, hpw.sublist hs, fun f hf => hdom f (hs.subset hf)⟩

theorem partial_tuples_valid (task : Task) (m : Nat) (hm : 1 ≤ m) (base : Tuple)
    (hpw : base.Pairwise (fun a b => a.var < b.var)) (hdom : ∀ f ∈ base, in_domain task f) :
    ∀ x ∈ generate_all_partial_tuples m base, valid_key task m x := by
  intro x hx
  obtain ⟨hs, hne, hlen⟩ := (mem_partial_tuples m hm base x).mp hx
  exact valid_key_of_sublist task m base x hpw hdom hs hne hlen

theorem eval_succeeds (task : Task) (m : Nat) (hm : 1 ≤ m) (tbl : HMTable)
    (hk : keys_ok task m tbl) (t : Tuple) (hpw : t.Pairwise (fun a b => a.var < b.var))
    (hdom : ∀ f ∈ t, in_domain task f) : ∃ v, eval m tbl t = .ok v :=
  eval_loop_succeeds tbl _
    (fun x hx => (hk x).mpr (partial_tuples_valid task m hm t hpw hdom x hx)) 0

theorem pre_strict (task : Task) (hwf : task.well_formed) (op : Operator)
    (hop : op ∈ task.get_operators) :
    (get_operator_pre op).Pairwise (fun a b => a.var < b.var) ∧
    ∀ f ∈ get_operator_pre op, in_domain task f := by
  obtain ⟨h1, h2, _, _⟩ := hwf.1 op hop
  refine ⟨sort_facts_strict _ h2, ?_⟩
  intro f hf
  exact h1 f ((mem_sort_facts _ f).mp hf)

theorem eff_strict (task : Task) (hwf : task.well_formed) (op : Operator)
    (hop : op ∈ task.get_operators) :
    (get_operator_eff op).Pairwise (fun a b => a.var < b.var) ∧
    ∀ f ∈ get_operator_eff op, in_domain task f := by
  obtain ⟨_, _, h3, h4⟩ := hwf.1 op hop
  refine ⟨sort_facts_strict _ (by rw [List.map_map]; exact h4), ?_⟩
  intro f hf
  have hf2 := (mem_sort_facts _ f).mp hf
  obtain ⟨e, he, rfl⟩ := List.mem_map.mp hf2
  exact h3 e he

theorem no_var_twice_iff (l : Tuple) :
    ∀ vars : List Nat, no_var_twice l vars = true ↔
      (l.map (fun f => f.var)).Nodup ∧ ∀ f ∈ l, f.var ∉ vars := by
  induction l with
  | nil => intro vars; simp [no_var_twice]
  | cons a rest ih =>
    intro vars
    simp only [no_var_twice]
    by_cases ha : a.var ∈ vars
    · have hc : vars.contains a.var = true := by simpa using ha
      simp only [hc, if_true]
      constructor
      · intro h; cases h
      · rintro ⟨_, h⟩
        exact absurd ha (h a (List.mem_cons_self _ _))
    · have hc : vars.contains a.var = false := by simpa using ha
      simp only [hc, Bool.false_eq_true, if_false]
      rw [ih]
      simp only [List.map_cons, List.nodup_cons, List.mem_map, List.mem_cons,
        forall_eq_or_imp, not_exists, not_and, not_or]
      constructor
      · rintro ⟨h1, h2⟩
        refine ⟨⟨?_, h1⟩, ha, ?_⟩
        · intro f hf hv
          exact (h2 f hf).1 hv
        · intro f hf
          exact (h2 f hf).2
      · rintro ⟨⟨h1, h2⟩, _, h4⟩
        refine ⟨h2, ?_⟩
        intro f hf
        exact ⟨fun hv => h1 f hf hv, h4 f hf⟩

theorem extended_fold_mem (t tuple : Tuple) :
    ∀ (pre : Tuple) (f : FactPair),
      f ∈ tuple.foldl (fun pre fact =>
        if fact ∉ t then (if fact ∉ pre then pre ++ [fact] else pre) else pre) pre ↔
      f ∈ pre ∨ (f ∈ tuple ∧ f ∉ t) := by
  induction tuple with
  | nil => intro pre f; simp
  | cons a rest ih =>
    intro pre f
    rw [List.foldl_cons, ih]
    by_cases hat : a ∈ t
    · simp only [hat, not_true_eq_false, if_false, List.mem_cons]
      constructor
      · rintro (h | ⟨h1, h2⟩)
        · exact Or.inl h
        · exact Or.inr ⟨Or.inr h1, h2⟩
      · rintro (h | ⟨h1 | h1, h2⟩)
        · exact Or.inl h
        · subst h1; exact absurd hat h2
        · exact Or.inr ⟨h1, h2⟩
    · simp only [hat, not_false_eq_true, if_true, List.mem_cons]
      by_cases hap : a ∈ pre
      · simp only [hap, not_true_eq_false, if_false]
        constructor
        · rintro (h | ⟨h1, h2⟩)
          · exact Or.inl h
          · exact Or.inr ⟨Or.inr h1, h2⟩
        · rintro (h | ⟨h1 | h1, h2⟩)
          · exact Or.inl h
          · subst h1; exact Or.inl hap
          · exact Or.inr ⟨h1, h2⟩
      · simp only [hap, not_false_eq_true, if_true, List.mem_append, List.mem_singleton]
        constructor
        · rintro ((h | h) | ⟨h1, h2⟩)
          · exact Or.inl h
          · subst h; exact Or.inr ⟨Or.inl rfl, hat⟩
          · exact Or.inr ⟨Or.inr h1, h2⟩
        · rintro (h | ⟨h1 | h1, h2⟩)
          · exact Or.inl (Or.inl h)
          · exact Or.inl (Or.inr h1)
          · exact Or.inr ⟨h1, h2⟩

theorem extended_fold_nodup (t tuple : Tuple) :
    ∀ pre : Tuple, pre.Nodup →
      (tuple.foldl (fun pre fact =>
        if fact ∉ t then (if fact ∉ pre then pre ++ [fact] else pre) else pre) pre).Nodup := by
  induction tuple with
  | nil => intro pre h; exact h
  | cons a rest ih =>
    intro pre h
    rw [List.foldl_cons]
    apply ih
    by_cases hat : a ∈ t
    · simp only [hat, not_true_eq_false, if_false]; exact h
    · simp only [hat, not_false_eq_true, if_true]
      by_cases hap : a ∈ pre
      · simp only [hap, not_true_eq_false, if_false]; exact h
      · simp only [hap, not_false_eq_true, if_true]
        refine List.Nodup.append h (List.nodup_singleton a) ?_
        intro x hx hx2
        rw [List.mem_singleton] at hx2
        subst hx2
        exact hap hx

theorem mem_extended_pre (op : Operator) (t tuple : Tuple) (f : FactPair) :
    f ∈ extended_pre op t tuple ↔ f ∈ op.preconditions ∨ (f ∈ tuple ∧ f ∉ t) := by
  unfold extended_pre
  rw [mem_sort_facts, extended_fold_mem, get_operator_pre, mem_sort_facts]

theorem extended_pre_strict (op : Operator) (t tuple : Tuple)
    (hv : no_var_twice (extended_pre op t tuple) [] = true) :
    (extended_pre op t tuple).Pairwise (fun a b => a.var < b.var) :=
  strict_of_sorted_nodup _ (sort_facts_sorted _) ((no_var_twice_iff _ []).mp hv).1

/-! ## A round on a well-formed task does not fail -/

theorem keys_ok_of_keys_eq (task : Task) (m : Nat) (a b : HMTable) (h : b.keys = a.keys)
    (hk : keys_ok task m a) : keys_ok task m b := by
  intro t
  rw [h]
  exact hk t

theorem update_hm_entry_keys (st st1 : HMState) (t : Tuple) (val : Int)
    (h : update_hm_entry st t val = .ok st1) : st1.hm_table.keys = st.hm_table.keys := by
  obtain ⟨cur, _, hc | hc⟩ := update_hm_entry_cases st st1 t val h
  · rw [hc.2]
    exact keys_set _ _ _
  · rw [hc.2]

theorem extend_tuple_step_succeeds (task : Task) (m : Nat) (hm : 1 ≤ m)
    (hwf : task.well_formed) (op : Operator) (hop : op ∈ task.get_operators) (t : Tuple)
    (st : HMState) (hk : keys_ok task m st.hm_table) (tuple : Tuple)
    (htk : tuple ∈ st.hm_table.keys) :
    ∃ st1, extend_tuple_step m t op st tuple = .ok st1 ∧ keys_ok task m st1.hm_table := by
  unfold extend_tuple_step
  simp only
  split
  · split
    · rename_i hv
      have hdom : ∀ f ∈ extended_pre op t tuple, in_domain task f := by
        intro f hf
        rcases (mem_extended_pre op t tuple f).mp hf with h | ⟨h, _⟩
        · exact (hwf.1 op hop).1 f h
        · exact ((hk tuple).mp htk).2.2.2 f h
      obtain ⟨c2, hc2⟩ := eval_succeeds task m hm st.hm_table hk _
        (extended_pre_strict op t tuple hv) hdom
      rw [hc2]
      simp only
      split
      · obtain ⟨st1, hst1⟩ := update_hm_entry_succeeds st tuple (wrap32 (c2 + op.cost)) htk
        exact ⟨st1, hst1, keys_ok_of_keys_eq task m _ _
          (update_hm_entry_keys _ _ _ _ hst1) hk⟩
      · exact ⟨st, rfl, hk⟩
    · exact ⟨st, rfl, hk⟩
  · exact ⟨st, rfl, hk⟩

theorem extend_tuple_succeeds (task : Task) (m : Nat) (hm : 1 ≤ m)
    (hwf : task.well_formed) (op : Operator) (hop : op ∈ task.get_operators) (t : Tuple)
    (st : HMState) (hk : keys_ok task m st.hm_table) :
    ∃ st1, extend_tuple m t op st = .ok st1 ∧ keys_ok task m st1.hm_table := by
  unfold extend_tuple
  apply for_each_succeeds (extend_tuple_step m t op) (fun s => keys_ok task m s.hm_table)
  · intro s x hx hs
    have hx2 : x ∈ s.hm_table.keys := (hs x).mpr ((hk x).mp hx)
    exact extend_tuple_step_succeeds task m hm hwf op hop t s hs x hx2
  · exact hk

theorem partial_eff_step_succeeds (task : Task) (m : Nat) (hm : 1 ≤ m)
    (hwf : task.well_formed) (op : Operator) (hop : op ∈ task.get_operators) (c1 : Int)
    (st : HMState) (hk : keys_ok task m st.hm_table) (pe : Tuple)
    (hpe : pe ∈ generate_all_partial_tuples m (get_operator_eff op)) :
    ∃ st1, partial_eff_step m op c1 st pe = .ok st1 ∧ keys_ok task m st1.hm_table := by
  have hvalid : valid_key task m pe :=
    partial_tuples_valid task m hm _ (eff_strict task hwf op hop).1
      (eff_strict task hwf op hop).2 pe hpe
  obtain ⟨st2, hst2⟩ :=
    update_hm_entry_succeeds st pe (wrap32 (c1 + op.cost)) ((hk pe).mpr hvalid)
  have hk2 : keys_ok task m st2.hm_table :=
    keys_ok_of_keys_eq task m _ _ (update_hm_entry_keys _ _ _ _ hst2) hk
  unfold partial_eff_step
  rw [hst2]
  simp only
  split
  · exact extend_tuple_succeeds task m hm hwf op hop pe st2 hk2
  · exact ⟨st2, rfl, hk2⟩

theorem operator_step_succeeds (task : Task) (m : Nat) (hm : 1 ≤ m)
    (hwf : task.well_formed) (op : Operator) (hop : op ∈ task.get_operators)
    (st : HMState) (hk : keys_ok task m st.hm_table) :
    ∃ st1, operator_step m st op = .ok st1 ∧ keys_ok task m st1.hm_table := by
  obtain ⟨c1, hc1⟩ := eval_succeeds task m hm st.hm_table hk _
    (pre_strict task hwf op hop).1 (pre_strict task hwf op hop).2
  unfold operator_step
  rw [hc1]
  simp only
  split
  · apply for_each_succeeds (partial_eff_step m op c1) (fun s => keys_ok task m s.hm_table)
    · intro s x hx hs
      exact partial_eff_step_succeeds task m hm hwf op hop c1 s hs x hx
    · exact hk
  · exact ⟨st, rfl, hk⟩

theorem update_round_succeeds (task : Task) (m : Nat) (hm : 1 ≤ m)
    (hwf : task.well_formed) (tbl : HMTable) (hk : keys_ok task m tbl) :
    ∃ st, update_round task m tbl = .ok st ∧ keys_ok task m st.hm_table := by
  unfold update_round
  apply for_each_succeeds (operator_step m) (fun s => keys_ok task m s.hm_table)
  · intro s x hx hs
    exact operator_step_succeeds task m hm hwf x hx s hs
  · exact hk

theorem loop_no_missing_key (task : Task) (m : Nat) (hm : 1 ≤ m) (hwf : task.well_formed) :
    ∀ (fuel round : Nat) (tbl : HMTable), keys_ok task m tbl →
      (∃ tblF n, update_hm_table_loop task m fuel round tbl = .ok (tblF, n)) ∨
        update_hm_table_loop task m fuel round tbl = .error .out_of_fuel := by
  intro fuel
  induction fuel with
  | zero => intro round tbl _; exact Or.inr rfl
  | succ fuel ih =>
    intro round tbl hk
    obtain ⟨st, hst, hk2⟩ := update_round_succeeds task m hm hwf tbl hk
    simp only [update_hm_table_loop, hst]
    by_cases hu : st.was_updated = true
    · rw [if_pos hu]
      exact ih _ _ hk2
    · rw [if_neg hu]
      exact Or.inl ⟨_, _, rfl⟩

/-- On a well-formed task and a table with the keys of setup, `update_hm_table` returns. -/
theorem update_hm_table_succeeds (task : Task) (m : Nat) (hm : 1 ≤ m)
    (hwf : task.well_formed) (tbl : HMTable) (hk : keys_ok task m tbl) :
    ∃ tblF n, update_hm_table task m tbl = .ok (tblF, n) := by
  unfold update_hm_table
  rcases loop_no_missing_key task m hm hwf (table_weight tbl + 1) 0 tbl hk with h | h
  · exact h
  · exact absurd h (loop_enough_fuel task m _ _ tbl (Nat.lt_succ_self _))

/-! ## Termination of the fixpoint -/

/-- C10. Termination of the fixpoint: on every table that `init_hm_table` produces, the
`do ... while` loop of `update_hm_table` ends by itself after at most `table_weight + 1`
rounds (it is never cut off); a round that sets `was_updated` leaves no entry higher and
strictly lowers the weight of the table, which is a natural number; and on a well-formed task
with the keys of setup the loop returns a table. -/
theorem update_hm_table_terminates (task : Task) (m : Nat) (tbl0 : HMTable) (s : Tuple) :
    update_hm_table task m (init_hm_table tbl0 s) ≠ .error .out_of_fuel ∧
    (∀ tblF n, update_hm_table task m (init_hm_table tbl0 s) = .ok (tblF, n) →
      1 ≤ n ∧ n ≤ table_weight (init_hm_table tbl0 s) + 1) ∧
    (∀ tbl st, update_round task m tbl = .ok st → st.was_updated = true →
      table_le st.hm_table tbl ∧ table_weight st.hm_table < table_weight tbl) ∧
    (1 ≤ m → task.well_formed → tbl0.keys = (generate_all_tuples task m).keys →
      ∃ tblF n, update_hm_table task m (init_hm_table tbl0 s) = .ok (tblF, n)) := by
  refine ⟨?_, ?_, ?_, ?_⟩
  · exact loop_enough_fuel task m _ _ _ (Nat.lt_succ_self _)
  · intro tblF n h
    have := loop_rounds task m _ _ _ _ _ h
    omega
  · intro tbl st h hu
    exact ⟨update_round_le task m tbl st h, (update_round_weight task m tbl st h).2 hu⟩
  · intro hm hwf hkeys
    exact update_hm_table_succeeds task m hm hwf _
      (keys_ok_of_keys_eq task m _ _ ((keys_init tbl0 s).trans hkeys)
        (keys_generate_all_tuples task m hm))

/-! ## Dead-end detection -/

theorem mem_fact_pairs_of_state (state : State) (f : FactPair) :
    f ∈ get_fact_pairs_of_state state ↔ holds state f = true := by
  unfold get_fact_pairs_of_state holds
  simp only [List.mem_map, List.mem_range, beq_iff_eq]
  constructor
  · rintro ⟨i, hi, rfl⟩
    simp [List.getD_eq_getElem?_getD, List.getElem?_eq_getElem hi]
  · intro h
    have hlt : f.var < state.length := by
      by_contra hge
      rw [List.getElem?_eq_none (by omega)] at h
      cases h
    refine ⟨f.var, hlt, ?_⟩
    rw [List.getElem?_eq_getElem hlt] at h
    cases f
    simp only [List.getD_eq_getElem?_getD, List.getElem?_eq_getElem hlt, Option.getD_some]
    simp only [Option.some.injEq] at h
    simp [h]

theorem check_tuple_in_tuple_eq_zero (tuple big : Tuple) :
    check_tuple_in_tuple tuple big = 0 ↔ ∀ f ∈ tuple, f ∈ big := by
  unfold check_tuple_in_tuple
  by_cases h : (tuple.all fun fact0 => big.any fun fact1 => decide (fact0 = fact1)) = true
  · rw [if_pos h]
    simp only [List.all_eq_true, List.any_eq_true, decide_eq_true_eq] at h
    simp only [true_iff]
    intro f hf
    obtain ⟨x, hx, rfl⟩ := h f hf
    exact hx
  · rw [if_neg h]
    simp only [List.all_eq_true, List.any_eq_true, decide_eq_true_eq] at h
    constructor
    · intro h0
      simp [INT_MAX] at h0
    · intro hall
      exact absurd (fun f hf => ⟨f, hall f hf, rfl⟩) h

theorem check_tuple_in_tuple_cases (tuple big : Tuple) :
    check_tuple_in_tuple tuple big = 0 ∨ check_tuple_in_tuple tuple big = INT_MAX := by
  unfold check_tuple_in_tuple
  split
  · exact Or.inl rfl
  · exact Or.inr rfl

theorem init_bounded (tbl : HMTable) (s : Tuple) :
    ∀ t v, (init_hm_table tbl s).at t = some v → v ≤ INT_MAX := by
  intro t v h
  rw [at_init] at h
  cases hat : tbl.at t with
  | none => rw [hat] at h; cases h
  | some w =>
    rw [hat] at h
    simp only [Option.map_some', Option.some.injEq] at h
    rcases check_tuple_in_tuple_cases t s with h0 | h0
    · rw [h0] at h; rw [← h]; simp [INT_MAX]
    · rw [h0] at h; rw [← h]

/-- What a run of `update_hm_table` that returns establishes: the keys are those of the start,
no entry has risen, entries outside the targets of the relaxation are unchanged, a bound by
`INT_MAX` is kept, and the final table is a fixpoint. -/
theorem update_hm_table_result (task : Task) (m : Nat) (tbl tblF : HMTable) (n : Nat)
    (h : update_hm_table task m tbl = .ok (tblF, n)) :
    table_le tblF tbl ∧ (∀ t, ¬ relax_target task m t → tblF.at t = tbl.at t) ∧
    ((∀ t v, tbl.at t = some v → v ≤ INT_MAX) → ∀ t v, tblF.at t = some v → v ≤ INT_MAX) ∧
    is_fixpoint task m tblF := by
  unfold update_hm_table at h
  have key := loop_result task m
    (fun a b => table_le b a ∧ (∀ t, ¬ relax_target task m t → b.at t = a.at t) ∧
      ((∀ t v, a.at t = some v → v ≤ INT_MAX) → ∀ t v, b.at t = some v → v ≤ INT_MAX))
    (fun a => ⟨table_le_refl a, fun _ _ => rfl, fun hb => hb⟩)
    (fun a b c h1 h2 => ⟨table_le_trans _ _ _ h2.1 h1.1,
      fun t ht => (h2.2.1 t ht).trans (h1.2.1 t ht), fun hb => h2.2.2 (h1.2.2 hb)⟩)
    (fun a st hr => ⟨update_round_le task m a st hr, update_round_frame task m a st hr,
      update_round_bounded task m a st hr⟩) _ _ _ _ _ h
  exact ⟨key.1.1, key.1.2.1, key.1.2.2, key.2.2⟩

theorem goal_strict (task : Task) (hwf : task.well_formed) :
    task.get_goals.Pairwise (fun a b => a.var < b.var) ∧
    ∀ f ∈ task.get_goals, in_domain task f :=
  ⟨hwf.2.2, hwf.2.1⟩

/-- C2. Dead-end detection: on a well-formed task, for `m ≥ 1`, a table with the keys of setup
and a goal fact `g` that occurs in no operator's effects, `compute_heuristic` returns
`DEAD_END` for every state in which `g` does not hold; the entry of the singleton tuple of `g`
is still `INT_MAX` in the table the call leaves behind. -/
theorem dead_end_detection (task : Task) (m : Nat) (hm : 1 ≤ m) (hwf : task.well_formed)
    (tbl : HMTable) (hkeys : tbl.keys = (generate_all_tuples task m).keys) (state : State)
    (g : FactPair)
    (hg : g ∈ task.get_goals)
    (hno : ∀ op ∈ task.get_operators, ∀ eff ∈ op.effects, eff.fact ≠ g)
    (hs : holds state g = false) :
    ∃ tblF, compute_heuristic task m tbl state = .ok (DEAD_END, tblF) ∧
      tblF.at [g] = some INT_MAX := by
  have hk : keys_ok task m tbl :=
    keys_ok_of_keys_eq task m _ _ hkeys (keys_generate_all_tuples task m hm)
  have hgoal : is_goal_state task state = false := by
    unfold is_goal_state
    rw [Bool.eq_false_iff]
    intro hall
    rw [List.all_eq_true] at hall
    rw [hall g hg] at hs
    cases hs
  have hgdom : in_domain task g := hwf.2.1 g hg
  have hgkey : valid_key task m [g] := by
    refine ⟨by simp, by simpa using hm, by simp, ?_⟩
    intro f hf
    rw [List.mem_singleton] at hf
    rw [hf]
    exact hgdom
  have hk1 : keys_ok task m (init_hm_table tbl (get_fact_pairs_of_state state)) :=
    keys_ok_of_keys_eq task m _ _ (keys_init _ _) hk
  obtain ⟨tblF, n, hrun⟩ := update_hm_table_succeeds task m hm hwf _ hk1
  obtain ⟨hle, hframe, hbound, _⟩ := update_hm_table_result task m _ tblF n hrun
  have hkF : keys_ok task m tblF := keys_ok_of_keys_eq task m _ _ hle.1 hk1
  -- the entry of `[g]` starts at `INT_MAX` and is never a target
  have hinit : (init_hm_table tbl (get_fact_pairs_of_state state)).at [g] = some INT_MAX := by
    rw [at_init]
    obtain ⟨w, hw⟩ := at_of_mem_keys tbl [g] ((hk [g]).mpr hgkey)
    rw [hw]
    simp only [Option.map_some', Option.some.injEq]
    rcases check_tuple_in_tuple_cases [g] (get_fact_pairs_of_state state) with h0 | h0
    · have := (check_tuple_in_tuple_eq_zero _ _).mp h0 g (List.mem_singleton.mpr rfl)
      rw [mem_fact_pairs_of_state, hs] at this
      cases this
    · exact h0
  have hnot : ¬ relax_target task m [g] := by
    rintro (⟨op, hop, hmem⟩ | hlen)
    · have hsub := (partial_tuple_shape m _ _ hmem).1
      have hgin : g ∈ get_operator_eff op := hsub.subset (List.mem_singleton.mpr rfl)
      unfold get_operator_eff at hgin
      rw [mem_sort_facts] at hgin
      obtain ⟨eff, heff, hfact⟩ := List.mem_map.mp hgin
      exact hno op hop eff heff hfact
    · simp at hlen
  have hfinal : tblF.at [g] = some INT_MAX := by
    rw [hframe [g] hnot]
    exact hinit
  -- the value of `eval` on the goal
  obtain ⟨v, hv⟩ := eval_succeeds task m hm tblF hkF task.get_goals
    (goal_strict task hwf).1 (goal_strict task hwf).2
  obtain ⟨_, hall, hsome⟩ := eval_ok m tblF task.get_goals v hv
  have hgmem : [g] ∈ generate_all_partial_tuples m task.get_goals := by
    rw [mem_partial_tuples m hm]
    exact ⟨List.singleton_sublist.mpr hg, by simp, by simpa using hm⟩
  have hge : INT_MAX ≤ v := by
    obtain ⟨y, hy, hyv⟩ := hall [g] hgmem
    rw [hfinal] at hy
    cases hy
    exact hyv
  have hle2 : v ≤ INT_MAX := by
    rcases hsome with h0 | ⟨x, _, hx⟩
    · rw [h0]; simp [INT_MAX]
    · exact hbound (init_bounded _ _) x v hx
  have hveq : v = INT_MAX := le_antisymm hle2 hge
  refine ⟨tblF, ?_, hfinal⟩
  unfold compute_heuristic
  simp only [hgoal, Bool.false_eq_true, if_false, hrun, hv, hveq, if_true]

/-- Witness of C2: the example task whose goal fact `(1, 1)` no operator produces, for
`m = 2` and the state `[0, 0]`. -/
theorem dead_end_detection_witness :
    (1 ≤ 2 ∧ example_unsolvable_task.well_formed ∧
      (⟨1, 1⟩ : FactPair) ∈ example_unsolvable_task.get_goals ∧
      holds [0, 0] ⟨1, 1⟩ = false) ∧
    ∃ tblF, compute_heuristic example_unsolvable_task 2
        (generate_all_tuples example_unsolvable_task 2) [0, 0] = .ok (DEAD_END, tblF) ∧
      tblF.at [⟨1, 1⟩] = some INT_MAX :=
  ⟨⟨by decide, by decide, by decide, by decide⟩,
    dead_end_detection example_unsolvable_task 2 (by decide) (by decide)
      (generate_all_tuples example_unsolvable_task 2) rfl [0, 0] ⟨1, 1⟩
      (by decide) (by decide) (by decide)⟩

/-! ## Admissibility -/

theorem unconditional_effects (task : Task) (hce : has_conditional_effects task = false)
    (op : Operator) (hop : op ∈ task.get_operators) :
    ∀ e ∈ op.effects, e.conditions = [] := by
  intro e he
  unfold has_conditional_effects at hce
  rw [List.any_eq_false] at hce
  have h1 := hce op hop
  simp only [Bool.not_eq_true] at h1
  rw [List.any_eq_false] at h1
  have h2 := h1 e he
  simpa using h2

theorem foldl_unconditional (state : State) (effs : List Effect)
    (hun : ∀ e ∈ effs, e.conditions = []) :
    ∀ s : State, effs.foldl (fun s eff =>
        if eff.conditions.all (fun f => holds state f) then s.set eff.fact.var eff.fact.value
        else s) s = effs.foldl (fun s eff => s.set eff.fact.var eff.fact.value) s := by
  induction effs with
  | nil => intro s; rfl
  | cons e rest ih =>
    intro s
    simp only [List.foldl_cons, hun e (List.mem_cons_self _ _), List.all_nil, if_true]
    exact ih (fun x hx => hun x (List.mem_cons_of_mem _ hx)) _

theorem fold_set_get (effs : List Effect) :
    ∀ (s : State) (v d : Nat),
      (effs.foldl (fun s eff => s.set eff.fact.var eff.fact.value) s)[v]? = some d →
        (∃ e ∈ effs, e.fact = ⟨v, d⟩) ∨ (s[v]? = some d ∧ ∀ e ∈ effs, e.fact.var ≠ v) := by
  induction effs with
  | nil => intro s v d h; exact Or.inr ⟨h, by simp⟩
  | cons e rest ih =>
    intro s v d h
    rw [List.foldl_cons] at h
    rcases ih _ v d h with ⟨e1, he1, hf⟩ | ⟨hget, hne⟩
    · exact Or.inl ⟨e1, List.mem_cons_of_mem _ he1, hf⟩
    · rw [List.getElem?_set] at hget
      by_cases hv : e.fact.var = v
      · rw [if_pos hv] at hget
        split at hget
        · simp only [Option.some.injEq] at hget
          refine Or.inl ⟨e, List.mem_cons_self _ _, ?_⟩
          cases hfact : e.fact with
          | mk a b =>
            rw [hfact] at hv hget
            simp only at hv hget
            rw [hv, hget]
        · cases hget
      · rw [if_neg hv] at hget
        refine Or.inr ⟨hget, ?_⟩
        intro x hx
        rcases List.mem_cons.mp hx with rfl | hx
        · exact hv
        · exact hne x hx

theorem holds_after (op : Operator) (hun : ∀ e ∈ op.effects, e.conditions = [])
    (s : State) (f : FactPair) (h : holds (apply_operator op s) f = true) :
    (∃ e ∈ op.effects, e.fact = f) ∨
      (holds s f = true ∧ ∀ e ∈ op.effects, e.fact.var ≠ f.var) := by
  unfold holds apply_operator at h
  rw [foldl_unconditional s op.effects hun, beq_iff_eq] at h
  rcases fold_set_get op.effects s f.var f.value h with h1 | ⟨h1, h2⟩
  · exact Or.inl h1
  · refine Or.inr ⟨?_, h2⟩
    unfold holds
    rw [beq_iff_eq]
    exact h1

theorem no_contradiction (op : Operator) (hun : ∀ e ∈ op.effects, e.conditions = [])
    (hnd : (op.effects.map (fun eff => eff.fact.var)).Nodup) (s : State) (f : FactPair)
    (h : holds (apply_operator op s) f = true) :
    contradict_effect_of op f.var f.value = false := by
  unfold contradict_effect_of
  rw [List.any_eq_false]
  intro e he
  simp only [decide_eq_true_eq, not_and, not_not]
  intro hvar
  rcases holds_after op hun s f h with ⟨e1, he1, hf⟩ | ⟨_, hne⟩
  · have : e = e1 := List.inj_on_of_nodup_map hnd he he1 (by rw [hvar, hf])
    rw [this, hf]
  · exact absurd hvar (hne e he)

theorem holds_inj (s : State) (f g : FactPair) (hf : holds s f = true)
    (hg : holds s g = true) (hv : f.var = g.var) : f = g := by
  unfold holds at hf hg
  rw [beq_iff_eq] at hf hg
  rw [hv, hg] at hf
  cases f
  cases g
  simp only [Option.some.injEq] at hf
  simp only at hv
  rw [hv, hf]

theorem nodup_of_strict (l : Tuple) (h : l.Pairwise (fun a b => a.var < b.var)) : l.Nodup := by
  unfold List.Nodup
  refine h.imp ?_
  intro a b hab heq
  rw [heq] at hab
  omega

theorem sublist_of_strict (a b : Tuple) (ha : a.Pairwise (fun x y => x.var < y.var))
    (hb : b.Pairwise (fun x y => x.var < y.var)) (hsub : ∀ f ∈ a, f ∈ b) : a.Sublist b := by
  haveI : IsAntisymm FactPair (fun x y => x.var < y.var) :=
    ⟨fun x y h1 h2 => absurd h1 (by omega)⟩
  exact List.sublist_of_subperm_of_sorted ((nodup_of_strict a ha).subperm hsub) ha hb

theorem eval_bound (task : Task) (m : Nat) (hm : 1 ≤ m) (tbl : HMTable) (s : State)
    (c : Int) (hc : 0 ≤ c) (hb : reached_within task m tbl s c) (t : Tuple)
    (hpw : t.Pairwise (fun a b => a.var < b.var)) (hdom : ∀ f ∈ t, in_domain task f)
    (hholds : ∀ f ∈ t, holds s f = true) :
    ∃ v, eval m tbl t = .ok v ∧ 0 ≤ v ∧ v ≤ c := by
  apply eval_le m tbl t c hc
  intro x hx
  have hx2 := (mem_partial_tuples m hm t x).mp hx
  exact hb x (partial_tuples_valid task m hm t hpw hdom x hx)
    (fun f hf => hholds f (hx2.1.subset hf))

/-- One step of a plan: when the keys that hold in a state have entries of at most `c` in a
fixpoint table, the keys that hold in the successor state have entries of at most
`c + cost`. -/
theorem relax_step (task : Task) (m : Nat) (hm : 1 ≤ m) (hwf : task.well_formed)
    (hce : has_conditional_effects task = false) (tbl : HMTable) (hk : keys_ok task m tbl)
    (hfix : is_fixpoint task m tbl) (op : Operator) (hop : op ∈ task.get_operators)
    (hcost : 0 ≤ op.cost) (s : State) (c : Int) (hc : 0 ≤ c)
    (hsmall : c + op.cost < INT_MAX) (happ : applicable op s = true)
    (hb : reached_within task m tbl s c) :
    reached_within task m tbl (apply_operator op s) (c + op.cost) := by
  intro T hT hTholds
  have hun := unconditional_effects task hce op hop
  have hpre := pre_strict task hwf op hop
  have heff := eff_strict task hwf op hop
  have hpre_holds : ∀ f ∈ op.preconditions, holds s f = true := by
    unfold applicable at happ
    rw [List.all_eq_true] at happ
    exact happ
  obtain ⟨c1, hc1, hc1pos, hc1le⟩ := eval_bound task m hm tbl s c hc hb (get_operator_pre op)
    hpre.1 hpre.2 (fun f hf => hpre_holds f ((mem_sort_facts _ f).mp hf))
  have hc1ne : c1 ≠ INT_MAX := by
    intro h
    rw [h] at hc1le
    omega
  have hclosed := hfix op hop c1 hc1 hc1ne
  have hw : ∀ x : Int, 0 ≤ x → x ≤ c → wrap32 (x + op.cost) = x + op.cost := by
    intro x h1 h2
    apply wrap32_eq
    · omega
    · unfold INT_MAX at hsmall
      omega
  have hmem_eff : ∀ f, f ∈ get_operator_eff op ↔ ∃ e ∈ op.effects, e.fact = f := by
    intro f
    unfold get_operator_eff
    rw [mem_sort_facts, List.mem_map]
  have hrest : ∀ f ∈ T, f ∉ get_operator_eff op → holds s f = true := by
    intro f hf hnot
    rcases holds_after op hun s f (hTholds f hf) with h1 | ⟨h1, _⟩
    · exact absurd ((hmem_eff f).mpr h1) hnot
    · exact h1
  by_cases hnone : ∀ f ∈ T, f ∉ get_operator_eff op
  · obtain ⟨v, hv, hvc⟩ := hb T hT (fun f hf => hrest f hf (hnone f hf))
    exact ⟨v, hv, by omega⟩
  · have ht_sub : (T.filter (fun f => decide (f ∈ get_operator_eff op))).Sublist T :=
      List.filter_sublist _
    have ht_eff : ∀ f ∈ T.filter (fun f => decide (f ∈ get_operator_eff op)),
        f ∈ get_operator_eff op := by
      intro f hf
      simpa using (List.mem_filter.mp hf).2
    have ht_ne : T.filter (fun f => decide (f ∈ get_operator_eff op)) ≠ [] := by
      intro hnil
      apply hnone
      intro f hf hfe
      have : f ∈ T.filter (fun f => decide (f ∈ get_operator_eff op)) :=
        List.mem_filter.mpr ⟨hf, by simpa using hfe⟩
      rw [hnil] at this
      cases this
    have ht_mem : T.filter (fun f => decide (f ∈ get_operator_eff op)) ∈
        generate_all_partial_tuples m (get_operator_eff op) := by
      rw [mem_partial_tuples m hm]
      exact ⟨sublist_of_strict _ _ (hT.2.2.1.sublist ht_sub) heff.1 ht_eff, ht_ne,
        le_trans ht_sub.length_le hT.2.1⟩
    obtain ⟨⟨cur, hcur, hcurle⟩, hext⟩ := hclosed _ ht_mem
    by_cases hfull : ∀ f ∈ T, f ∈ get_operator_eff op
    · have hteq : T.filter (fun f => decide (f ∈ get_operator_eff op)) = T :=
        List.filter_eq_self.mpr (by simpa using hfull)
      rw [hteq] at hcur
      rw [hw c1 hc1pos hc1le] at hcurle
      exact ⟨cur, hcur, by omega⟩
    · have hlt : (T.filter (fun f => decide (f ∈ get_operator_eff op))).length < T.length := by
        rw [List.length_filter_lt_length_iff_exists]
        simpa using hfull
      have hx := hext (by have := hT.2.1; omega) T ((hk T).mpr hT)
      have h1 : T.any (fun fact => contradict_effect_of op fact.var fact.value) = false := by
        rw [List.any_eq_false]
        intro f hf
        rw [no_contradiction op hun (hwf.1 op hop).2.2.2 s f (hTholds f hf)]
        simp
      have h3 : check_tuple_in_tuple (T.filter (fun f => decide (f ∈ get_operator_eff op))) T
          = 0 :=
        (check_tuple_in_tuple_eq_zero _ _).mpr (fun f hf => ht_sub.subset hf)
      have hepre_holds : ∀ f ∈ extended_pre op
          (T.filter (fun f => decide (f ∈ get_operator_eff op))) T, holds s f = true := by
        intro f hf
        rcases (mem_extended_pre op _ T f).mp hf with h | ⟨hfT, hnt⟩
        · exact hpre_holds f h
        · apply hrest f hfT
          intro hfe
          exact hnt (List.mem_filter.mpr ⟨hfT, by simpa using hfe⟩)
      have hepre_dom : ∀ f ∈ extended_pre op
          (T.filter (fun f => decide (f ∈ get_operator_eff op))) T, in_domain task f := by
        intro f hf
        rcases (mem_extended_pre op _ T f).mp hf with h | ⟨hfT, _⟩
        · exact (hwf.1 op hop).1 f h
        · exact hT.2.2.2 f hfT
      have hepre_nodup : (extended_pre op
          (T.filter (fun f => decide (f ∈ get_operator_eff op))) T).Nodup := by
        unfold extended_pre
        exact (sort_facts_perm _).nodup_iff.mpr
          (extended_fold_nodup _ T _ (nodup_of_strict _ hpre.1))
      have h4 : no_var_twice (extended_pre op
          (T.filter (fun f => decide (f ∈ get_operator_eff op))) T) [] = true := by
        rw [no_var_twice_iff]
        refine ⟨?_, by simp⟩
        exact List.Nodup.map_on
          (fun x hx y hy hxy => holds_inj s x y (hepre_holds x hx) (hepre_holds y hy) hxy)
          hepre_nodup
      obtain ⟨c2, hc2, hc2pos, hc2le⟩ := eval_bound task m hm tbl s c hc hb _
        (extended_pre_strict op _ T h4) hepre_dom hepre_holds
      have hc2ne : c2 ≠ INT_MAX := by
        intro h
        rw [h] at hc2le
        omega
      obtain ⟨cur2, hcur2, hcur2le⟩ := hx h1 hlt h3 h4 c2 hc2 hc2ne
      rw [hw c2 hc2pos hc2le] at hcur2le
      exact ⟨cur2, hcur2, by omega⟩

theorem run_plan_append (p : List Operator) (op : Operator) :
    ∀ s : State, run_plan (p ++ [op]) s =
      match run_plan p s with
      | some s1 => if applicable op s1 then some (apply_operator op s1) else none
      | none => none := by
  induction p with
  | nil => intro s; simp [run_plan]
  | cons a rest ih =>
    intro s
    simp only [List.cons_append, run_plan]
    by_cases ha : applicable a s = true
    · simp only [ha, if_true]
      exact ih _
    · simp only [ha, Bool.false_eq_true, if_false]

theorem plan_cost_append (p : List Operator) (op : Operator) :
    plan_cost (p ++ [op]) = plan_cost p + op.cost := by
  simp [plan_cost]

theorem plan_cost_nonneg (p : List Operator) (h : ∀ op ∈ p, 0 ≤ op.cost) :
    0 ≤ plan_cost p := by
  induction p with
  | nil => simp [plan_cost]
  | cons a rest ih =>
    have h1 := h a (List.mem_cons_self _ _)
    have h2 := ih (fun x hx => h x (List.mem_cons_of_mem _ hx))
    simp only [plan_cost, List.map_cons, List.sum_cons] at h2 ⊢
    omega

/-- Along a plan: in a fixpoint table that bounds the keys of the start state by 0, the keys
that hold in the state reached by a plan are bounded by the cost of the plan. -/
theorem plan_bound (task : Task) (m : Nat) (hm : 1 ≤ m) (hwf : task.well_formed)
    (hce : has_conditional_effects task = false)
    (hcost : ∀ op ∈ task.get_operators, 0 ≤ op.cost) (tbl : HMTable)
    (hk : keys_ok task m tbl) (hfix : is_fixpoint task m tbl) (s : State)
    (hinit : reached_within task m tbl s 0) (plan : List Operator) :
    (∀ op ∈ plan, op ∈ task.get_operators) → ∀ s1, run_plan plan s = some s1 →
      plan_cost plan < INT_MAX → reached_within task m tbl s1 (plan_cost plan) := by
  induction plan using List.reverseRecOn with
  | nil =>
    intro _ s1 hrun _
    simp only [run_plan, Option.some.injEq] at hrun
    subst hrun
    exact hinit
  | append_singleton p op ih =>
    intro hops s1 hrun hsmall
    have hp : ∀ x ∈ p, x ∈ task.get_operators :=
      fun x hx => hops x (List.mem_append_left _ hx)
    have hop : op ∈ task.get_operators :=
      hops op (List.mem_append_right _ (List.mem_singleton.mpr rfl))
    have hopcost := hcost op hop
    have hpcost : 0 ≤ plan_cost p := plan_cost_nonneg p (fun x hx => hcost x (hp x hx))
    rw [plan_cost_append] at hsmall ⊢
    rw [run_plan_append] at hrun
    cases hmid : run_plan p s with
    | none => rw [hmid] at hrun; cases hrun
    | some s0 =>
      rw [hmid] at hrun
      simp only at hrun
      by_cases happ : applicable op s0 = true
      · rw [if_pos happ, Option.some.injEq] at hrun
        subst hrun
        exact relax_step task m hm hwf hce tbl hk hfix op hop hopcost s0 _ hpcost hsmall happ
          (ih hp s0 hmid (by omega))
      · rw [if_neg happ] at hrun
        cases hrun

/-- C1. Admissibility of `compute_heuristic`: on a well-formed task without conditional effects
or axioms whose operator costs are non-negative, for `m ≥ 1`, a table with the keys of setup,
a state and an operator sequence of the task that is applicable from the state and ends in a
state satisfying all goal facts, with costs small enough that their sum along the sequence
stays below `INT_MAX` (the value that stands for infinite), the call returns a value that is
not `DEAD_END`, is at least 0 and is at most the summed cost of the sequence. -/
theorem compute_heuristic_admissible (task : Task) (m : Nat) (hm : 1 ≤ m)
    (hwf : task.well_formed) (hce : has_conditional_effects task = false)
    (hax : has_axioms task = false) (hcost : ∀ op ∈ task.get_operators, 0 ≤ op.cost)
    (tbl : HMTable) (hkeys : tbl.keys = (generate_all_tuples task m).keys) (state : State)
    (plan : List Operator) (hplan : ∀ op ∈ plan, op ∈ task.get_operators)
    (goal_state : State) (hrun : run_plan plan state = some goal_state)
    (hgoal : is_goal_state task goal_state = true) (hsmall : plan_cost plan < INT_MAX) :
    ∃ h tblF, compute_heuristic task m tbl state = .ok (h, tblF) ∧
      h ≠ DEAD_END ∧ 0 ≤ h ∧ h ≤ plan_cost plan := by
  have _ := hax
  have hpc : 0 ≤ plan_cost plan := plan_cost_nonneg plan (fun x hx => hcost x (hplan x hx))
  by_cases hg0 : is_goal_state task state = true
  · refine ⟨0, tbl, ?_, by simp [DEAD_END], le_refl _, hpc⟩
    unfold compute_heuristic
    rw [if_pos hg0]
  · have hk : keys_ok task m tbl :=
      keys_ok_of_keys_eq task m _ _ hkeys (keys_generate_all_tuples task m hm)
    have hk1 : keys_ok task m (init_hm_table tbl (get_fact_pairs_of_state state)) :=
      keys_ok_of_keys_eq task m _ _ (keys_init _ _) hk
    obtain ⟨tblF, n, hloop⟩ := update_hm_table_succeeds task m hm hwf _ hk1
    obtain ⟨hle, _, _, hfix⟩ := update_hm_table_result task m _ tblF n hloop
    have hkF : keys_ok task m tblF := keys_ok_of_keys_eq task m _ _ hle.1 hk1
    have hinit : reached_within task m tblF state 0 := by
      intro T hT hTholds
      obtain ⟨w, hw⟩ := at_of_mem_keys tbl T ((hk T).mpr hT)
      have h0 : (init_hm_table tbl (get_fact_pairs_of_state state)).at T = some 0 := by
        rw [at_init, hw]
        simp only [Option.map_some', Option.some.injEq]
        rw [check_tuple_in_tuple_eq_zero]
        intro f hf
        exact (mem_fact_pairs_of_state state f).mpr (hTholds f hf)
      exact hle.2 T 0 h0
    have hreach := plan_bound task m hm hwf hce hcost tblF hkF hfix state hinit plan hplan
      goal_state hrun hsmall
    have hgoal_holds : ∀ f ∈ task.get_goals, holds goal_state f = true := by
      unfold is_goal_state at hgoal
      rw [List.all_eq_true] at hgoal
      exact hgoal
    obtain ⟨h, hh, hhpos, hhle⟩ := eval_bound task m hm tblF goal_state _ hpc hreach
      task.get_goals (goal_strict task hwf).1 (goal_strict task hwf).2 hgoal_holds
    have hne : h ≠ INT_MAX := by
      intro he
      rw [he] at hhle
      omega
    refine ⟨h, tblF, ?_, ?_, hhpos, hhle⟩
    · unfold compute_heuristic
      simp only [hg0, Bool.false_eq_true, if_false, hloop, hh, hne]
    · unfold DEAD_END
      omega

/-- Witness of C1: the example task for `m = 2`; from the state `[0, 0]` its operator reaches
the goal at cost 3, and the heuristic value is 3. -/
theorem compute_heuristic_admissible_witness :
    (1 ≤ 2 ∧ example_task.well_formed ∧ has_conditional_effects example_task = false ∧
      has_axioms example_task = false ∧
      (∀ op ∈ example_task.get_operators, 0 ≤ op.cost) ∧
      run_plan example_task.get_operators [0, 0] = some [0, 1] ∧
      is_goal_state example_task [0, 1] = true ∧
      plan_cost example_task.get_operators < INT_MAX) ∧
    (∃ h tblF, compute_heuristic example_task 2 (generate_all_tuples example_task 2) [0, 0] =
        .ok (h, tblF) ∧ h ≠ DEAD_END ∧ 0 ≤ h ∧ h ≤ plan_cost example_task.get_operators) ∧
    plan_cost example_task.get_operators = 3 :=
  ⟨⟨by decide, by decide, by decide, by decide, by decide, by decide, by decide, by decide⟩,
    compute_heuristic_admissible example_task 2 (by decide) (by decide) (by decide)
      (by decide) (by decide) (generate_all_tuples example_task 2) rfl [0, 0]
      example_task.get_operators (fun _ h => h) [0, 1] (by decide) (by decide) (by decide),
    by decide⟩

/-! ## Theorems on the proof of unsolvability -/

theorem example_heuristic_computed :
    HMHeuristic.compute_heuristic example_task (HMHeuristic.new example_task 2 0) [1, 0] =
      .ok (DEAD_END, example_heuristic) := by
  rfl

theorem example_heuristic_reachable : reachable example_task 2 example_heuristic :=
  reachable.compute _ _ [1, 0] DEAD_END (reachable.new 0) example_heuristic_computed

theorem collect_unreachable_acc (tbl : HMTable) (acc : List Tuple) :
    tbl.foldl (fun tuples elem => if elem.2 = INT_MAX then elem.1 :: tuples else tuples) acc =
      infinite_tuples tbl ++ acc := by
  induction tbl generalizing acc with
  | nil => simp [infinite_tuples]
  | cons e rest ih =>
    rw [List.foldl_cons, ih]
    by_cases he : e.2 = INT_MAX
    · simp [infinite_tuples, List.filter_cons, he]
    · simp [infinite_tuples, List.filter_cons, he]

theorem collect_unreachable_eq (tbl : HMTable) :
    collect_unreachable tbl = infinite_tuples tbl := by
  unfold collect_unreachable
  rw [collect_unreachable_acc]
  simp

theorem number_inner_snd (d : Nat) (i : Nat) (acc : List (List Int) × Int) :
    ((List.range d).foldl (fun (acc : List (List Int) × Int) j =>
      (acc.1.set i ((acc.1.getD i []).set j (acc.2 + 1)), acc.2 + 1)) acc).2 = acc.2 + d := by
  induction d generalizing acc with
  | zero => simp
  | succ d ih =>
    rw [List.range_succ, List.foldl_append]
    simp only [List.foldl_cons, List.foldl_nil]
    rw [ih]
    push_cast
    ring

theorem number_outer_snd (doms : List Nat) (vars : List Nat) (acc : List (List Int) × Int) :
    (vars.foldl (fun (acc : List (List Int) × Int) i =>
      (List.range (doms.getD i 0)).foldl (fun (acc : List (List Int) × Int) j =>
        (acc.1.set i ((acc.1.getD i []).set j (acc.2 + 1)), acc.2 + 1))
        (acc.1.set i (resize (acc.1.getD i []) (doms.getD i 0) 0), acc.2)) acc).2 =
      acc.2 + ((vars.map (fun i => doms.getD i 0)).sum : Nat) := by
  induction vars generalizing acc with
  | nil => simp
  | cons i rest ih =>
    rw [List.foldl_cons, ih, number_inner_snd]
    simp only [List.map_cons, List.sum_cons]
    push_cast
    ring

theorem map_getD_range (l : List Nat) :
    (List.range l.length).map (fun i => l.getD i 0) = l := by
  apply List.ext_getElem
  · simp
  · intro n h1 h2
    simp [List.getD_eq_getElem?_getD, List.getElem?_eq_getElem h2]

theorem number_facts_snd (task : Task) (ftv : List (List Int)) :
    (number_facts task ftv).2 = total_facts task := by
  unfold number_facts total_facts
  simp only
  rw [number_outer_snd, map_getD_range]
  simp

theorem reachable_strips_varamount (task : Task) (m : Nat) (h : HMHeuristic)
    (hr : reachable task m h) :
    h.unsolvability_setup = true → h.strips_varamount = total_facts task := by
  induction hr with
  | new g => intro hs; simp [HMHeuristic.new] at hs
  | compute h h1 state v _ hc ih =>
    intro hs
    unfold HMHeuristic.compute_heuristic at hc
    split at hc
    · cases hc
    · cases hc
      exact ih hs
  | store h id _ ih =>
    intro _
    unfold store_deadend_info
    cases hset : h.unsolvability_setup
    · simp [setup_unsolvability_proof, number_facts_snd]
    · simpa using ih hset
  | justify h id _ ih =>
    intro hs
    exact ih hs

theorem store_sets_up (task : Task) (h : HMHeuristic) (id : Nat) :
    (store_deadend_info task h id).unsolvability_setup = true := by
  unfold store_deadend_info
  cases hset : h.unsolvability_setup <;> simp [setup_unsolvability_proof, hset]

theorem store_unreachable_tuples (task : Task) (h : HMHeuristic) (id : Nat) :
    (store_deadend_info task h id).unreachable_tuples =
      unordered_map_insert h.unreachable_tuples id (infinite_tuples h.hm_table) := by
  unfold store_deadend_info
  cases hset : h.unsolvability_setup <;>
    simp [setup_unsolvability_proof, hset, collect_unreachable_eq]

theorem find_insert_fresh (map : List (Nat × List Tuple)) (id : Nat) (tuples : List Tuple)
    (hfresh : unordered_map_find map id = none) :
    unordered_map_find (unordered_map_insert map id tuples) id = some tuples := by
  have hany : map.any (fun e => decide (e.1 = id)) = false := by
    unfold unordered_map_find at hfresh
    simp only [Option.map_eq_none', List.find?_eq_none] at hfresh
    simpa using hfresh
  unfold unordered_map_insert
  simp [hany, unordered_map_find]

/-- C9. Clause set of the certificate, for a heuristic object that member calls produced.
(1) When `store_deadend_info` records a state id that has no entry yet, the snapshot stored
for it is the list of the keys whose table value was `INT_MAX` at the call, each once.
(2) For a state id with a stored snapshot, once the proof is set up, the Horn formula that
`get_dead_end_justification` defines has as clauses the mutex clauses followed by exactly
one clause per tuple of the snapshot, the clause of a tuple being the negated
proof-variables of its facts, and as variable count the total number of facts. -/
theorem clause_set_of_certificate (task : Task) (m : Nat) (h : HMHeuristic) (state_id : Nat)
    (hr : reachable task m h) :
    (unordered_map_find h.unreachable_tuples state_id = none →
      (store_deadend_info task h state_id).unsolvability_setup = true ∧
      unordered_map_find (store_deadend_info task h state_id).unreachable_tuples state_id =
        some (((h.hm_table.filter (fun elem => elem.2 = INT_MAX)).map Prod.fst).reverse)) ∧
    (∀ snapshot, h.unsolvability_setup = true →
      unordered_map_find h.unreachable_tuples state_id = some snapshot →
      (get_dead_end_justification h state_id).1.1 =
        SetExpression.horn_formula (total_facts task)
          (h.mutexes ++ snapshot.map (fun tuple =>
            tuple.map (fun fact =>
              -proof_variable h.fact_to_variable fact.var fact.value)))) := by
  refine ⟨?_, ?_⟩
  · intro hfresh
    refine ⟨store_sets_up task h state_id, ?_⟩
    rw [store_unreachable_tuples]
    exact find_insert_fresh _ _ _ hfresh
  · intro snapshot hset hfind
    have hvars := reachable_strips_varamount task m h hr hset
    simp only [get_dead_end_justification, justification_clauses, unordered_map_index, hfind,
      hvars]
    rfl

/-- Witness of C9: the example heuristic, after the dead state was evaluated, records state
id 7; the snapshot holds the five unreachable tuples, and the formula has 4 variables, the
two mutex clauses and the five clauses of those tuples. -/
theorem clause_set_of_certificate_witness :
    reachable example_task 2 example_heuristic ∧
    reachable example_task 2 (store_deadend_info example_task example_heuristic 7) ∧
    unordered_map_find example_heuristic.unreachable_tuples 7 = none ∧
    unordered_map_find (store_deadend_info example_task example_heuristic 7).unreachable_tuples
      7 = some [[⟨1, 1⟩], [⟨0, 1⟩, ⟨1, 1⟩], [⟨0, 0⟩, ⟨1, 1⟩], [⟨0, 0⟩, ⟨1, 0⟩], [⟨0, 0⟩]] ∧
    (get_dead_end_justification (store_deadend_info example_task example_heuristic 7) 7).1.1 =
      SetExpression.horn_formula 4
        [[-1, -2], [-3, -4], [-4], [-2, -4], [-1, -4], [-1, -3], [-1]] :=
  ⟨example_heuristic_reachable,
    reachable.store _ 7 example_heuristic_reachable, rfl,
    ((clause_set_of_certificate example_task 2 example_heuristic 7
      example_heuristic_reachable).1 rfl).2.trans rfl,
    ((clause_set_of_certificate example_task 2
      (store_deadend_info example_task example_heuristic 7) 7
      (reachable.store _ 7 example_heuristic_reachable)).2 _ rfl rfl).trans rfl⟩

/-- C8, as the code behaves: `get_dead_end_justification` has no failing path. Called for a
state id without a recorded snapshot it creates an empty entry for that id and returns the
Horn formula over the mutex clauses alone, together with the judgment derived for it. -/
theorem justification_without_snapshot (h : HMHeuristic) (state_id : Nat)
    (hnone : unordered_map_find h.unreachable_tuples state_id = none) :
    (get_dead_end_justification h state_id).1.1 =
      SetExpression.horn_formula h.strips_varamount h.mutexes ∧
    (∃ closed goal_dead, (get_dead_end_justification h state_id).1.2 =
      Judgment.rule_pg (SetExpression.horn_formula h.strips_varamount h.mutexes) closed
        Judgment.rule_ed goal_dead) ∧
    unordered_map_find (get_dead_end_justification h state_id).2.unreachable_tuples state_id =
      some [] := by
  have hb : justification_clauses h state_id =
      (h.mutexes, (state_id, []) :: h.unreachable_tuples) := by
    simp only [justification_clauses, unordered_map_index, hnone, List.map_nil,
      List.append_nil]
  refine ⟨?_, ?_, ?_⟩
  · simp only [get_dead_end_justification, hb]
  · simp only [get_dead_end_justification, hb]
    exact ⟨_, _, rfl⟩
  · simp only [get_dead_end_justification, hb]
    simp [unordered_map_find]

/-- Witness of the amended C8: the example heuristic has no snapshot for state id 8. -/
theorem justification_without_snapshot_witness :
    unordered_map_find
      (store_deadend_info example_task example_heuristic 7).unreachable_tuples 8 = none ∧
    (get_dead_end_justification (store_deadend_info example_task example_heuristic 7) 8).1.1 =
      SetExpression.horn_formula 4 [[-1, -2], [-3, -4]] :=
  ⟨rfl, (justification_without_snapshot
    (store_deadend_info example_task example_heuristic 7) 8 rfl).1.trans rfl⟩

/-- Counterexample to C8 as stated: for state id 8, for which nothing was ever recorded, the
call returns a set expression and a judgment instead of ending the process. -/
theorem justification_returns_for_unrecorded_state :
    unordered_map_find
      (store_deadend_info example_task example_heuristic 7).unreachable_tuples 8 = none ∧
    (get_dead_end_justification (store_deadend_info example_task example_heuristic 7) 8).1 =
      (SetExpression.horn_formula 4 [[-1, -2], [-3, -4]],
        Judgment.rule_pg (SetExpression.horn_formula 4 [[-1, -2], [-3, -4]])
          (Judgment.statement
            (SetExpression.progression (SetExpression.horn_formula 4 [[-1, -2], [-3, -4]]) 0)
            (SetExpression.union (SetExpression.horn_formula 4 [[-1, -2], [-3, -4]])
              SetExpression.emptyset) "b2")
          Judgment.rule_ed
          (Judgment.rule_sd
            (SetExpression.intersection (SetExpression.horn_formula 4 [[-1, -2], [-3, -4]])
              SetExpression.goalset)
            Judgment.rule_ed
            (Judgment.statement
              (SetExpression.intersection (SetExpression.horn_formula 4 [[-1, -2], [-3, -4]])
                SetExpression.goalset)
              SetExpression.emptyset "b1"))) := by
  constructor
  · rfl
  · rfl


/-! ## History independence -/

theorem init_hm_table_of_keys (tbl1 tbl2 : HMTable) (h : tbl1.keys = tbl2.keys) (s : Tuple) :
    init_hm_table tbl1 s = init_hm_table tbl2 s := by
  have key : ∀ tbl : HMTable, init_hm_table tbl s =
      tbl.keys.map (fun k => (k, check_tuple_in_tuple k s)) := by
    intro tbl
    unfold init_hm_table HMTable.keys
    rw [List.map_map]
    rfl
  rw [key tbl1, key tbl2, h]

theorem compute_heuristic_keys (task : Task) (m : Nat) (tbl tblA : HMTable) (state : State)
    (h : Int) (hc : compute_heuristic task m tbl state = .ok (h, tblA)) :
    tblA.keys = tbl.keys := by
  unfold compute_heuristic at hc
  by_cases hg : is_goal_state task state = true
  · rw [if_pos hg] at hc
    cases hc
    rfl
  · rw [if_neg hg] at hc
    simp only at hc
    cases hrun : update_hm_table task m (init_hm_table tbl (get_fact_pairs_of_state state)) with
    | error e => rw [hrun] at hc; cases hc
    | ok r =>
      obtain ⟨tbl1, n⟩ := r
      rw [hrun] at hc
      simp only at hc
      have hk := (update_hm_table_result task m _ tbl1 n hrun).1.1
      cases hev : eval m tbl1 task.get_goals with
      | error e => rw [hev] at hc; cases hc
      | ok v =>
        rw [hev] at hc
        simp only at hc
        split at hc <;> (cases hc; exact hk.trans (keys_init _ _))

theorem compute_heuristic_of_keys (task : Task) (m : Nat) (tbl1 tbl2 : HMTable)
    (hkeys : tbl1.keys = tbl2.keys) (state : State) :
    (compute_heuristic task m tbl1 state).map Prod.fst =
      (compute_heuristic task m tbl2 state).map Prod.fst := by
  unfold compute_heuristic
  by_cases hg : is_goal_state task state = true
  · simp only [hg, if_true]
    rfl
  · rw [if_neg hg, if_neg hg]
    simp only
    rw [init_hm_table_of_keys tbl1 tbl2 hkeys]

theorem evaluate_states_keys (task : Task) (m : Nat) (states : List State) :
    ∀ tbl tblB, evaluate_states task m tbl states = .ok tblB → tblB.keys = tbl.keys := by
  induction states with
  | nil =>
    intro tbl tblB h
    simp only [evaluate_states, Except.ok.injEq] at h
    rw [h]
  | cons s rest ih =>
    intro tbl tblB h
    simp only [evaluate_states] at h
    cases hc : compute_heuristic task m tbl s with
    | error e => rw [hc] at h; cases h
    | ok r =>
      obtain ⟨v, tbl1⟩ := r
      rw [hc] at h
      simp only at h
      exact (ih tbl1 tblB h).trans (compute_heuristic_keys task m tbl tbl1 s v hc)

/-- C11. History independence of `compute_heuristic`: the value returned for a state depends
on the table only through its key set, which no call changes. Hence two tables with the same
keys give the same value, a second call on the same state returns the value of the first,
and so does a call made after any number of calls on other states in between. -/
theorem compute_heuristic_history_independent (task : Task) (m : Nat) (tbl : HMTable)
    (state : State) :
    (∀ tbl2 : HMTable, tbl2.keys = tbl.keys →
      (compute_heuristic task m tbl2 state).map Prod.fst =
        (compute_heuristic task m tbl state).map Prod.fst) ∧
    (∀ h tblA, compute_heuristic task m tbl state = .ok (h, tblA) →
      (compute_heuristic task m tblA state).map Prod.fst = .ok h) ∧
    (∀ h tblA others tblB, compute_heuristic task m tbl state = .ok (h, tblA) →
      evaluate_states task m tblA others = .ok tblB →
      (compute_heuristic task m tblB state).map Prod.fst = .ok h) := by
  refine ⟨?_, ?_, ?_⟩
  · intro tbl2 hk
    exact compute_heuristic_of_keys task m tbl2 tbl hk state
  · intro h tblA hc
    rw [compute_heuristic_of_keys task m tblA tbl
      (compute_heuristic_keys task m tbl tblA state h hc) state, hc]
    rfl
  · intro h tblA others tblB hc hothers
    have hk : tblB.keys = tbl.keys :=
      (evaluate_states_keys task m others tblA tblB hothers).trans
        (compute_heuristic_keys task m tbl tblA state h hc)
    rw [compute_heuristic_of_keys task m tblB tbl hk state, hc]
    rfl

/-- Witness of C11: on the example task the state `[0, 0]` has value 3 on the fresh table,
and again on the table left by evaluating `[0, 0]` and then the dead state `[1, 0]`. -/
theorem compute_heuristic_history_independent_witness :
    (compute_heuristic example_task 2 (generate_all_tuples example_task 2) [0, 0]).map Prod.fst
      = .ok 3 ∧
    evaluate_states example_task 2 example_live_table [[1, 0]] = .ok example_dead_table ∧
    (compute_heuristic example_task 2 example_dead_table [0, 0]).map Prod.fst = .ok 3 :=
  ⟨rfl, rfl,
    (compute_heuristic_history_independent example_task 2
      (generate_all_tuples example_task 2) [0, 0]).2.2 3 example_live_table [[1, 0]]
      example_dead_table rfl rfl⟩

/-! ## The snapshot of a state id -/

theorem insert_present (map : List (Nat × List Tuple)) (id : Nat) (snap tuples : List Tuple)
    (h : unordered_map_find map id = some snap) :
    unordered_map_insert map id tuples = map := by
  have hany : map.any (fun e => decide (e.1 = id)) = true := by
    unfold unordered_map_find at h
    rw [Option.map_eq_some'] at h
    obtain ⟨e, he, _⟩ := h
    rw [List.any_eq_true]
    have hp : decide (e.1 = id) = true := by
      have := List.find?_some he
      simpa using this
    exact ⟨e, List.mem_of_find?_eq_some he, hp⟩
  unfold unordered_map_insert
  rw [if_pos hany]

theorem example_heuristic_later_computed :
    HMHeuristic.compute_heuristic example_task
      (store_deadend_info example_task example_heuristic 7) [0, 0] =
      .ok (3, example_heuristic_later) := by
  rfl

/-- C13, as the code behaves: the snapshot is keyed by the state id, and a repeated call of
`store_deadend_info` for an id that has an entry keeps that entry. After two calls for the
same id made with different table contents, the snapshot stored under the id is the list of
tuples that were infinite at the first call. -/
theorem store_keeps_first_snapshot (task : Task) (h : HMHeuristic) (state_id : Nat)
    (tbl2 : HMTable) (hfresh : unordered_map_find h.unreachable_tuples state_id = none) :
    unordered_map_find (store_deadend_info task h state_id).unreachable_tuples state_id =
      some (infinite_tuples h.hm_table) ∧
    unordered_map_find
      (store_deadend_info task
        { store_deadend_info task h state_id with hm_table := tbl2 }
        state_id).unreachable_tuples state_id = some (infinite_tuples h.hm_table) := by
  have h1 : unordered_map_find (store_deadend_info task h state_id).unreachable_tuples state_id
      = some (infinite_tuples h.hm_table) := by
    rw [store_unreachable_tuples]
    exact find_insert_fresh _ _ _ hfresh
  refine ⟨h1, ?_⟩
  rw [store_unreachable_tuples]
  simp only
  rw [insert_present _ state_id _ _ h1]
  exact h1

/-- Witness of the amended C13: the example heuristic records state id 7 on the table of the
dead state and again on the table of the state `[0, 0]`; the snapshot stays the first one. -/
theorem store_keeps_first_snapshot_witness :
    unordered_map_find example_heuristic.unreachable_tuples 7 = none ∧
    unordered_map_find
      (store_deadend_info example_task example_heuristic_later 7).unreachable_tuples 7 =
      some (infinite_tuples example_dead_table) :=
  ⟨rfl, (store_keeps_first_snapshot example_task example_heuristic 7 example_live_table rfl).2⟩

/-- Counterexample to C13 as stated: state id 7 is recorded on the table of the dead state,
the state `[0, 0]` is evaluated, and state id 7 is recorded again. The snapshot under 7 is
not the list of the three tuples infinite at the second call but still the list of the five
tuples infinite at the first. -/
theorem snapshot_is_not_overwritten :
    infinite_tuples example_heuristic_later.hm_table =
      [[⟨0, 1⟩, ⟨1, 1⟩], [⟨0, 1⟩, ⟨1, 0⟩], [⟨0, 1⟩]] ∧
    unordered_map_find
      (store_deadend_info example_task example_heuristic_later 7).unreachable_tuples 7 =
      some [[⟨1, 1⟩], [⟨0, 1⟩, ⟨1, 1⟩], [⟨0, 0⟩, ⟨1, 1⟩], [⟨0, 0⟩, ⟨1, 0⟩], [⟨0, 0⟩]] ∧
    unordered_map_find
      (store_deadend_info example_task example_heuristic_later 7).unreachable_tuples 7 ≠
      some (infinite_tuples example_heuristic_later.hm_table) := by
  refine ⟨rfl, rfl, ?_⟩
  decide

/-! ## Fixpoint and monotonicity -/

theorem wrap32_le (x : Int) (h : -2147483648 ≤ x) : wrap32 x ≤ x := by
  unfold wrap32
  omega

/-- C15. The table left by `update_hm_table` is a fixpoint of the relaxation: one further
round on it reports no update and returns the same table; in particular, for every operator
with finite `eval(pre)` and every partial tuple `e` of its effects (for `m ≥ 1`: every
non-empty sub-tuple of at most `m` facts), the entry of `e` is at most the proposed value, and
at most `eval(pre) + cost` when the cost is an `int`. -/
theorem update_hm_table_fixpoint (task : Task) (m : Nat) (tbl tblF : HMTable) (n : Nat)
    (h : update_hm_table task m tbl = .ok (tblF, n)) :
    update_round task m tblF = .ok ⟨tblF, false⟩ ∧
    (∀ op ∈ task.get_operators, ∀ c1, eval m tblF (get_operator_pre op) = .ok c1 →
      c1 ≠ INT_MAX → ∀ e ∈ generate_all_partial_tuples m (get_operator_eff op),
        ∃ cur, tblF.at e = some cur ∧ cur ≤ wrap32 (c1 + op.cost) ∧
          (-2147483648 ≤ op.cost → cur ≤ c1 + op.cost)) ∧
    (1 ≤ m → ∀ op ∈ task.get_operators, ∀ c1, eval m tblF (get_operator_pre op) = .ok c1 →
      c1 ≠ INT_MAX → ∀ e : Tuple, e.Sublist (get_operator_eff op) → e ≠ [] → e.length ≤ m →
        ∃ cur, tblF.at e = some cur ∧ (-2147483648 ≤ op.cost → cur ≤ c1 + op.cost)) := by
  unfold update_hm_table at h
  obtain ⟨_, hround, hfix⟩ := loop_result task m (fun _ _ => True) (fun _ => trivial)
    (fun _ _ _ _ _ => trivial) (fun _ _ _ => trivial) _ _ _ _ _ h
  have key : ∀ op ∈ task.get_operators, ∀ c1, eval m tblF (get_operator_pre op) = .ok c1 →
      c1 ≠ INT_MAX → ∀ e ∈ generate_all_partial_tuples m (get_operator_eff op),
        ∃ cur, tblF.at e = some cur ∧ cur ≤ wrap32 (c1 + op.cost) ∧
          (-2147483648 ≤ op.cost → cur ≤ c1 + op.cost) := by
    intro op hop c1 hc1 hne e he
    obtain ⟨⟨cur, hcur, hle⟩, _⟩ := hfix op hop c1 hc1 hne e he
    refine ⟨cur, hcur, hle, ?_⟩
    intro hcost
    have hpos := (eval_ok m tblF _ c1 hc1).1
    exact le_trans hle (wrap32_le _ (by omega))
  refine ⟨hround, key, ?_⟩
  intro hm op hop c1 hc1 hne e hs hnil hlen
  obtain ⟨cur, hcur, _, hle⟩ :=
    key op hop c1 hc1 hne e ((mem_partial_tuples m hm _ e).mpr ⟨hs, hnil, hlen⟩)
  exact ⟨cur, hcur, hle⟩

/-- Witness of C15: the example task for `m = 2` from the state `[0, 0]`; the run returns,
and the effect `(1, 1)` of the operator has an entry of at most `0 + 3`. -/
theorem update_hm_table_fixpoint_witness :
    update_hm_table example_task 2
      (init_hm_table (generate_all_tuples example_task 2) (get_fact_pairs_of_state [0, 0])) =
      .ok (example_live_table, 2) ∧
    update_round example_task 2 example_live_table = .ok ⟨example_live_table, false⟩ ∧
    example_live_table.at [⟨1, 1⟩] = some 3 :=
  ⟨rfl, (update_hm_table_fixpoint example_task 2
    (init_hm_table (generate_all_tuples example_task 2) (get_fact_pairs_of_state [0, 0]))
    example_live_table 2 rfl).1, rfl⟩

theorem extend_tuple_step_le (m : Nat) (t : Tuple) (op : Operator) (st st1 : HMState)
    (tuple : Tuple) (h : extend_tuple_step m t op st tuple = .ok st1) :
    table_le st1.hm_table st.hm_table := by
  have hentry : ∀ x s1, update_hm_entry st tuple x = .ok s1 →
      table_le s1.hm_table st.hm_table := by
    intro x s1 hu
    obtain ⟨cur, hcur, hc | hc⟩ := update_hm_entry_cases st s1 tuple x hu
    · rw [hc.2]
      refine ⟨keys_set _ _ _, ?_⟩
      intro t1 v hv
      by_cases ht : t1 = tuple
      · subst ht
        rw [hcur] at hv
        cases hv
        exact ⟨_, at_set_self _ _ _ _ hcur, le_of_lt hc.1⟩
      · exact ⟨v, by rw [at_set_other _ _ _ _ ht]; exact hv, le_refl _⟩
    · rw [hc.2]
      exact table_le_refl _
  unfold extend_tuple_step at h
  simp only at h
  split at h
  · split at h
    · split at h
      · cases h
      · split at h
        · exact hentry _ _ h
        · cases h; exact table_le_refl _
    · cases h; exact table_le_refl _
  · cases h; exact table_le_refl _

/-- C16. Monotonicity within one evaluation: `update_hm_entry(t, val)` sets the entry of `t`
to the minimum of its value and `val` and leaves every other entry unchanged; hence after
each `extend_tuple` call, after each round and after `update_hm_table` no entry is above the
value it had before, in particular none is above the value `init_hm_table` gave it. -/
theorem relaxation_is_monotone (task : Task) (m : Nat) :
    (∀ st st1 t val, update_hm_entry st t val = .ok st1 →
      ∃ cur, st.hm_table.at t = some cur ∧ st1.hm_table.at t = some (min cur val) ∧
        ∀ t1, t1 ≠ t → st1.hm_table.at t1 = st.hm_table.at t1) ∧
    (∀ t op st st1, extend_tuple m t op st = .ok st1 → table_le st1.hm_table st.hm_table) ∧
    (∀ tbl st, update_round task m tbl = .ok st → table_le st.hm_table tbl) ∧
    (∀ tbl0 s tblF n, update_hm_table task m (init_hm_table tbl0 s) = .ok (tblF, n) →
      table_le tblF (init_hm_table tbl0 s)) := by
  refine ⟨?_, ?_, ?_, ?_⟩
  · intro st st1 t val hu
    obtain ⟨cur, hcur, hc | hc⟩ := update_hm_entry_cases st st1 t val hu
    · refine ⟨cur, hcur, ?_, ?_⟩
      · rw [hc.2, min_eq_right (le_of_lt hc.1)]
        exact at_set_self _ _ _ _ hcur
      · intro t1 ht1
        rw [hc.2]
        exact at_set_other _ _ _ _ ht1
    · refine ⟨cur, hcur, ?_, ?_⟩
      · rw [hc.2, min_eq_left hc.1]
        exact hcur
      · intro t1 _
        rw [hc.2]
  · intro t op st st1 h
    exact for_each_rel _ (fun a b => table_le b.hm_table a.hm_table)
      (fun s => table_le_refl _) (fun a b c h1 h2 => table_le_trans _ _ _ h2 h1) _
      (fun s x s1 _ hs => extend_tuple_step_le m t op s s1 x hs) st st1 h
  · intro tbl st h
    exact update_round_le task m tbl st h
  · intro tbl0 s tblF n h
    exact (update_hm_table_result task m _ tblF n h).1

/-! ## Setup enumeration -/

theorem mem_of_at (tbl : HMTable) (t : Tuple) (v : Int) (h : tbl.at t = some v) :
    (t, v) ∈ tbl := by
  induction tbl with
  | nil => simp [HMTable.at] at h
  | cons e rest ih =>
    obtain ⟨k, w⟩ := e
    by_cases hk : k = t
    · simp only [HMTable.at, hk, if_true, Option.some.injEq] at h
      rw [hk, h]
      exact List.mem_cons_self _ _
    · simp only [HMTable.at, hk, if_false] at h
      exact List.mem_cons_of_mem _ (ih h)

theorem all_zero_set (tbl : HMTable) (t : Tuple) (hz : all_zero tbl) :
    all_zero (tbl.set t 0) := by
  induction tbl with
  | nil => intro e he; simp [HMTable.set] at he
  | cons a rest ih =>
    obtain ⟨k, w⟩ := a
    have hrest : all_zero rest := fun e he => hz e (List.mem_cons_of_mem _ he)
    by_cases hk : k = t
    · simp only [HMTable.set, hk, if_true]
      intro e he
      rcases List.mem_cons.mp he with rfl | he
      · rfl
      · exact hrest e he
    · simp only [HMTable.set, hk, if_false]
      intro e he
      rcases List.mem_cons.mp he with rfl | he
      · exact hz _ (List.mem_cons_self _ _)
      · exact ih hrest e he

theorem all_zero_insert_new (tbl : HMTable) (t : Tuple) (hz : all_zero tbl) :
    all_zero (tbl.insert_new t 0) := by
  induction tbl with
  | nil =>
    intro e he
    simp only [HMTable.insert_new, List.mem_singleton] at he
    rw [he]
  | cons a rest ih =>
    obtain ⟨k, w⟩ := a
    have hrest : all_zero rest := fun e he => hz e (List.mem_cons_of_mem _ he)
    by_cases hlt : tuple_lt t k = true
    · simp only [HMTable.insert_new, hlt, if_true]
      intro e he
      rcases List.mem_cons.mp he with rfl | he
      · rfl
      · exact hz e he
    · simp only [HMTable.insert_new, hlt, Bool.false_eq_true, if_false]
      intro e he
      rcases List.mem_cons.mp he with rfl | he
      · exact hz _ (List.mem_cons_self _ _)
      · exact ih hrest e he

theorem all_zero_assign (tbl : HMTable) (t : Tuple) (hz : all_zero tbl) :
    all_zero (tbl.assign t 0) := by
  unfold HMTable.assign
  cases tbl.at t with
  | none => exact all_zero_insert_new tbl t hz
  | some cur => exact all_zero_set tbl t hz

theorem keys_insert_new_perm (tbl : HMTable) (t : Tuple) (v : Int) :
    (tbl.insert_new t v).keys.Perm (t :: tbl.keys) := by
  induction tbl with
  | nil => simp [HMTable.insert_new, HMTable.keys]
  | cons a rest ih =>
    obtain ⟨k, w⟩ := a
    by_cases hlt : tuple_lt t k = true
    · simp [HMTable.insert_new, hlt, HMTable.keys]
    · simp only [HMTable.insert_new, hlt, Bool.false_eq_true, if_false]
      simp only [HMTable.keys, List.map_cons] at ih ⊢
      exact (ih.cons k).trans (List.Perm.swap t k _)

theorem keys_nodup_assign (tbl : HMTable) (t : Tuple) (v : Int) (hn : tbl.keys.Nodup) :
    (tbl.assign t v).keys.Nodup := by
  unfold HMTable.assign
  cases hat : tbl.at t with
  | none =>
    simp only
    rw [(keys_insert_new_perm tbl t v).nodup_iff]
    exact List.nodup_cons.mpr ⟨(at_eq_none_iff tbl t).mp hat, hn⟩
  | some cur =>
    simp only
    rw [keys_set]
    exact hn

theorem foldl_invariant {α : Type} (P : HMTable → Prop) (f : HMTable → α → HMTable)
    (xs : List α) (hf : ∀ tbl x, P tbl → P (f tbl x)) :
    ∀ tbl, P tbl → P (xs.foldl f tbl) := by
  induction xs with
  | nil => intro tbl h; exact h
  | cons x rest ih =>
    intro tbl h
    rw [List.foldl_cons]
    exact ih _ (hf tbl x h)

theorem generate_aux_invariant (task : Task) (P : HMTable → Prop)
    (hassign : ∀ tbl t, P tbl → P (tbl.assign t 0)) :
    ∀ (sz var : Nat) (base : Tuple) (tbl : HMTable), P tbl →
      P (generate_all_tuples_aux task var sz base tbl) := by
  intro sz
  induction sz with
  | zero =>
    intro var base tbl h
    simp only [generate_all_tuples_aux]
    apply foldl_invariant P _ _ _ tbl h
    intro tbl1 i h1
    apply foldl_invariant P _ _ _ tbl1 h1
    intro tbl2 j h2
    exact hassign tbl2 _ h2
  | succ sz ih =>
    intro var base tbl h
    simp only [generate_all_tuples_aux]
    apply foldl_invariant P _ _ _ tbl h
    intro tbl1 i h1
    apply foldl_invariant P _ _ _ tbl1 h1
    intro tbl2 j h2
    split
    · exact ih _ _ _ (hassign tbl2 _ h2)
    · exact hassign tbl2 _ h2

/-- C18. Setup enumeration: for `m ≥ 1`, after `generate_all_tuples` the keys of the table
are exactly the tuples of 1 to `m` facts whose variable ids are strictly increasing and whose
values lie in the domain of their variable; no key occurs twice, and every key has cost 0. -/
theorem generate_all_tuples_spec (task : Task) (m : Nat) (hm : 1 ≤ m) :
    (∀ t : Tuple, t ∈ (generate_all_tuples task m).keys ↔
      (1 ≤ t.length ∧ t.length ≤ m ∧ t.Pairwise (fun a b => a.var < b.var) ∧
        ∀ f ∈ t, f.var < task.get_variables.length ∧
          f.value < task.get_variables.getD f.var 0)) ∧
    (generate_all_tuples task m).keys.Nodup ∧
    (∀ t ∈ (generate_all_tuples task m).keys, (generate_all_tuples task m).at t = some 0) := by
  have hzero : all_zero (generate_all_tuples task m) :=
    generate_aux_invariant task all_zero (fun tbl t h => all_zero_assign tbl t h) m 0 [] []
      (fun e he => by cases he)
  refine ⟨?_, ?_, ?_⟩
  · intro t
    rw [keys_generate_all_tuples task m hm t]
    unfold valid_key in_domain
    constructor
    · rintro ⟨h1, h2, h3, h4⟩
      refine ⟨?_, h2, h3, h4⟩
      cases t with
      | nil => exact absurd rfl h1
      | cons a r => simp
    · rintro ⟨h1, h2, h3, h4⟩
      refine ⟨?_, h2, h3, h4⟩
      intro hnil
      rw [hnil] at h1
      simp at h1
  · exact generate_aux_invariant task (fun tbl => tbl.keys.Nodup)
      (fun tbl t h => keys_nodup_assign tbl t 0 h) m 0 [] [] List.nodup_nil
  · intro t ht
    obtain ⟨v, hv⟩ := at_of_mem_keys _ t ht
    have hv0 : v = 0 := hzero _ (mem_of_at _ t v hv)
    rw [hv, hv0]

/-- Witness of C18: the example task with two variables of two values each and `m = 2` has
the four single facts and the four pairs as keys, all with cost 0. -/
theorem generate_all_tuples_spec_witness :
    (1 ≤ 2) ∧
    generate_all_tuples example_task 2 =
      [([⟨0, 0⟩], 0), ([⟨0, 0⟩, ⟨1, 0⟩], 0), ([⟨0, 0⟩, ⟨1, 1⟩], 0), ([⟨0, 1⟩], 0),
       ([⟨0, 1⟩, ⟨1, 0⟩], 0), ([⟨0, 1⟩, ⟨1, 1⟩], 0), ([⟨1, 0⟩], 0), ([⟨1, 1⟩], 0)] ∧
    (generate_all_tuples example_task 2).keys.Nodup :=
  ⟨by decide, rfl, (generate_all_tuples_spec example_task 2 (by decide)).2.1⟩

/-! ## The key-set invariant -/

/-- A remark on the order of the goal facts: a goal that lists variable 1 before variable 0
is not a Tuple of the data model, and on it the lookup of `eval(goals)` for the tuple
`[(1, 1), (0, 1)]` finds no key (`m = 2`, state `[0, 0]`), although every variable is named
once with an in-domain value. The key-set invariant needs the increasing variable ids. -/
theorem unsorted_goal_lookup_fails :
    (∀ op ∈ example_unsorted_goal_task.get_operators,
      names_each_variable_once example_unsorted_goal_task op.preconditions ∧
      names_each_variable_once example_unsorted_goal_task
        (op.effects.map (fun eff => eff.fact))) ∧
    names_each_variable_once example_unsorted_goal_task
      example_unsorted_goal_task.get_goals ∧
    [(⟨1, 1⟩ : FactPair), ⟨0, 1⟩] ∉ (generate_all_tuples example_unsorted_goal_task 2).keys ∧
    compute_heuristic example_unsorted_goal_task 2
      (generate_all_tuples example_unsorted_goal_task 2) [0, 0] =
      .error (.missing_key [⟨1, 1⟩, ⟨0, 1⟩]) := by
  refine ⟨by decide, by decide, by decide, rfl⟩

/-! ## The reference definition of `eval` -/

theorem sublists'_head (l : Tuple) :
    ∃ tl, List.sublists' l = [] :: tl ∧ ∀ y ∈ tl, y ≠ [] := by
  induction l with
  | nil => exact ⟨[], by simp, by simp⟩
  | cons x rest ih =>
    obtain ⟨tl, htl, hne⟩ := ih
    refine ⟨tl ++ List.map (List.cons x) ([] :: tl), ?_, ?_⟩
    · rw [List.sublists'_cons, htl]
      rfl
    · intro y hy
      rcases List.mem_append.mp hy with h | h
      · exact hne y h
      · obtain ⟨z, _, rfl⟩ := List.mem_map.mp h
        simp

theorem sub_tuples_zero (l : Tuple) : sub_tuples 0 l = [] := by
  unfold sub_tuples
  rw [List.filter_eq_nil_iff]
  intro x _
  simp only [decide_eq_true_eq, not_and]
  intro hne hlen
  exact hne (List.length_eq_zero.mp (by omega))

theorem sub_tuples_nil (m : Nat) : sub_tuples m [] = [] := by
  simp [sub_tuples]

theorem sub_tuples_cons (m : Nat) (hm : 1 ≤ m) (x : FactPair) (rest : Tuple) :
    sub_tuples m (x :: rest) =
      sub_tuples m rest ++ [x] :: (sub_tuples (m - 1) rest).map (List.cons x) := by
  obtain ⟨tl, htl, hne⟩ := sublists'_head rest
  unfold sub_tuples
  rw [List.sublists'_cons, List.filter_append, List.filter_map, htl]
  congr 1
  have h1 : (decide ((x :: ([] : Tuple)) ≠ [] ∧ (x :: ([] : Tuple)).length ≤ m)) = true := by
    simp only [decide_eq_true_eq]
    exact ⟨by simp, by simpa using hm⟩
  have h2 : (decide (([] : Tuple) ≠ [] ∧ ([] : Tuple).length ≤ m - 1)) = false := by
    simp
  simp only [List.filter_cons, Function.comp, h1, h2, if_true, List.map_cons, Bool.false_eq_true,
    if_false]
  congr 2
  apply List.filter_congr
  intro y hy
  have hy0 := hne y hy
  have hlen : 0 < y.length := List.length_pos.mpr hy0
  show decide (x :: y ≠ [] ∧ (x :: y).length ≤ m) = decide (y ≠ [] ∧ y.length ≤ m - 1)
  rw [decide_eq_decide]
  simp only [List.length_cons]
  constructor
  · rintro ⟨_, h⟩
    exact ⟨hy0, by omega⟩
  · rintro ⟨_, h⟩
    exact ⟨by simp, by omega⟩

theorem partial_tuples_aux_perm (rest : Tuple) :
    ∀ (t : Tuple) (sz : Nat) (res : List Tuple), 1 ≤ sz →
      (generate_all_partial_tuples_aux rest t sz res).Perm
        (res ++ (sub_tuples sz rest).map (fun ext => t ++ ext)) := by
  induction rest with
  | nil =>
    intro t sz res _
    simp [generate_all_partial_tuples_aux, sub_tuples_nil]
  | cons x rest ih =>
    intro t sz res hsz
    simp only [generate_all_partial_tuples_aux]
    refine (ih t sz _ hsz).trans ?_
    rw [sub_tuples_cons sz hsz]
    by_cases h1 : sz = 1
    · subst h1
      simp only [if_true, Nat.sub_self, sub_tuples_zero, List.map_nil, List.map_append,
        List.map_cons]
      rw [← Multiset.coe_eq_coe]
      simp only [← Multiset.coe_add, ← Multiset.cons_coe, ← Multiset.singleton_add]
      abel
    · simp only [h1, if_false]
      have hperm := ih (t ++ [x]) (sz - 1) (res ++ [t ++ [x]]) (by omega)
      refine (List.Perm.append_right _ hperm).trans ?_
      simp only [List.map_append, List.map_cons, List.map_map, Function.comp_def,
        List.append_assoc, List.singleton_append]
      rw [← Multiset.coe_eq_coe]
      simp only [← Multiset.coe_add, ← Multiset.cons_coe, ← Multiset.singleton_add]
      abel

/-- The partial tuples are the sub-tuples, each once. -/
theorem partial_tuples_perm (m : Nat) (hm : 1 ≤ m) (t : Tuple) :
    (generate_all_partial_tuples m t).Perm (sub_tuples m t) := by
  unfold generate_all_partial_tuples
  refine (partial_tuples_aux_perm t [] m [] hm).trans ?_
  simp

theorem foldl_max_spec (xs : List Int) :
    ∀ a : Int, a ≤ xs.foldl max a ∧ (∀ x ∈ xs, x ≤ xs.foldl max a) ∧
      (xs.foldl max a = a ∨ xs.foldl max a ∈ xs) := by
  induction xs with
  | nil => intro a; simp
  | cons y rest ih =>
    intro a
    rw [List.foldl_cons]
    obtain ⟨h1, h2, h3⟩ := ih (max a y)
    refine ⟨le_trans (le_max_left a y) h1, ?_, ?_⟩
    · intro x hx
      rcases List.mem_cons.mp hx with rfl | hx
      · exact le_trans (le_max_right a x) h1
      · exact h2 x hx
    · rcases h3 with h3 | h3
      · rcases max_choice a y with hm | hm
        · exact Or.inl (by rw [h3, hm])
        · exact Or.inr (by rw [h3, hm]; exact List.mem_cons_self _ _)
      · exact Or.inr (List.mem_cons_of_mem _ h3)

theorem maximum_or_zero_spec (l : List Int) (hne : l ≠ []) :
    maximum_or_zero l ∈ l ∧ ∀ x ∈ l, x ≤ maximum_or_zero l := by
  cases l with
  | nil => exact absurd rfl hne
  | cons a rest =>
    obtain ⟨h1, h2, h3⟩ := foldl_max_spec rest a
    simp only [maximum_or_zero]
    refine ⟨?_, ?_⟩
    · rcases h3 with h3 | h3
      · rw [h3]; exact List.mem_cons_self _ _
      · exact List.mem_cons_of_mem _ h3
    · intro x hx
      rcases List.mem_cons.mp hx with rfl | hx
      · exact h1
      · exact h2 x hx

/-- C14. The function `eval` equals its reference definition: for `m ≥ 1` and a tuple whose
sub-tuples are keys of the table with non-negative cost, `eval` returns the maximum of the
table values over all non-empty sub-tuples of at most `m` facts, and 0 when the tuple is
empty; and `generate_all_partial_tuples` yields exactly those sub-tuples, each once. -/
theorem eval_eq_reference (m : Nat) (hm : 1 ≤ m) (tbl : HMTable) (t : Tuple)
    (hkeys : ∀ x ∈ sub_tuples m t, x ∈ tbl.keys)
    (hnonneg : ∀ x ∈ sub_tuples m t, ∀ v, tbl.at x = some v → 0 ≤ v) :
    eval m tbl t = .ok (eval_reference m tbl t) ∧
    (generate_all_partial_tuples m t).Perm (sub_tuples m t) ∧
    (∀ x, x ∈ generate_all_partial_tuples m t ↔ x.Sublist t ∧ x ≠ [] ∧ x.length ≤ m) ∧
    (t = [] → eval m tbl t = .ok 0) := by
  have hperm := partial_tuples_perm m hm t
  have hkeys2 : ∀ x ∈ generate_all_partial_tuples m t, x ∈ tbl.keys :=
    fun x hx => hkeys x (hperm.mem_iff.mp hx)
  obtain ⟨v, hv⟩ := eval_loop_succeeds tbl _ hkeys2 0
  have hv2 : eval m tbl t = .ok v := hv
  obtain ⟨hpos, hub, hatt⟩ := eval_ok m tbl t v hv2
  refine ⟨?_, hperm, mem_partial_tuples m hm t, ?_⟩
  · rw [hv2]
    congr 1
    unfold eval_reference
    by_cases hnil : (sub_tuples m t).filterMap (fun x => tbl.at x) = []
    · rw [hnil]
      simp only [maximum_or_zero]
      rcases hatt with h0 | ⟨x, hx, hxv⟩
      · exact h0
      · have : v ∈ (sub_tuples m t).filterMap (fun x => tbl.at x) :=
          List.mem_filterMap.mpr ⟨x, hperm.mem_iff.mp hx, hxv⟩
        rw [hnil] at this
        cases this
    · obtain ⟨hmem, hmax⟩ := maximum_or_zero_spec _ hnil
      obtain ⟨y, hy, hyv⟩ := List.mem_filterMap.mp hmem
      apply le_antisymm
      · rcases hatt with h0 | ⟨x, hx, hxv⟩
        · rw [h0]
          exact hnonneg y hy _ hyv
        · exact hmax v (List.mem_filterMap.mpr ⟨x, hperm.mem_iff.mp hx, hxv⟩)
      · obtain ⟨w, hw, hwv⟩ := hub y (hperm.mem_iff.mpr hy)
        rw [hyv] at hw
        cases hw
        exact hwv
  · intro ht
    rw [ht]
    rfl

/-- Witness of C14: on the table of the example task after evaluating `[0, 0]`, the tuple
`[(0, 0), (1, 1)]` has the sub-tuples `[(1, 1)]`, `[(0, 0)]` and itself, and `eval` returns
their maximum 3. -/
theorem eval_eq_reference_witness :
    sub_tuples 2 [⟨0, 0⟩, ⟨1, 1⟩] = [[⟨1, 1⟩], [⟨0, 0⟩], [⟨0, 0⟩, ⟨1, 1⟩]] ∧
    eval_reference 2 example_live_table [⟨0, 0⟩, ⟨1, 1⟩] = 3 ∧
    eval 2 example_live_table [⟨0, 0⟩, ⟨1, 1⟩] = .ok 3 :=
  ⟨by decide, by decide,
    (eval_eq_reference 2 (by decide) example_live_table [⟨0, 0⟩, ⟨1, 1⟩] (by decide)
      (by decide)).1.trans rfl⟩

/-! ## The numbering of the facts -/

theorem getD_set_self {α : Type} (l : List α) (i : Nat) (a d : α) (h : i < l.length) :
    (l.set i a).getD i d = a := by
  simp [List.getD_eq_getElem?_getD, List.getElem?_set, h]

theorem getD_set_ne {α : Type} (l : List α) (i j : Nat) (a d : α) (h : i ≠ j) :
    (l.set i a).getD j d = l.getD j d := by
  simp [List.getD_eq_getElem?_getD, List.getElem?_set, h]

theorem length_resize {α : Type} (v : List α) (n : Nat) (d : α) :
    (resize v n d).length = n := by
  unfold resize
  simp only [List.length_append, List.length_take, List.length_replicate]
  omega

theorem fact_offset_succ (doms : List Nat) (i : Nat) :
    fact_offset doms (i + 1) = fact_offset doms i + doms.getD i 0 := by
  unfold fact_offset
  rw [List.take_succ, List.sum_append, List.getD_eq_getElem?_getD]
  cases doms[i]? <;> simp

theorem fact_offset_mono (doms : List Nat) (i k : Nat) (h : i ≤ k) :
    fact_offset doms i ≤ fact_offset doms k := by
  induction k with
  | zero =>
    have : i = 0 := by omega
    rw [this]
  | succ k ih =>
    by_cases hik : i ≤ k
    · rw [fact_offset_succ]
      have := ih hik
      omega
    · have : i = k + 1 := by omega
      rw [this]

theorem fact_offset_length (doms : List Nat) : fact_offset doms doms.length = doms.sum := by
  unfold fact_offset
  rw [List.take_of_length_le (le_refl _)]

/-- The inner loop of the numbering: it fills row `i` with consecutive numbers. -/
theorem number_inner_spec (i d : Nat) :
    ∀ (k : Nat) (acc : List (List Int) × Int), k ≤ d → i < acc.1.length →
      (acc.1.getD i []).length = d →
      let r := (List.range k).foldl (fun (acc : List (List Int) × Int) j =>
        (acc.1.set i ((acc.1.getD i []).set j (acc.2 + 1)), acc.2 + 1)) acc
      r.2 = acc.2 + k ∧ r.1.length = acc.1.length ∧ (r.1.getD i []).length = d ∧
      (∀ i1, i1 ≠ i → r.1.getD i1 [] = acc.1.getD i1 []) ∧
      (∀ j, j < k → (r.1.getD i []).getD j 0 = acc.2 + j + 1) := by
  intro k
  induction k with
  | zero =>
    intro acc _ _ hrow
    show acc.2 = acc.2 + ((0 : Nat) : Int) ∧ acc.1.length = acc.1.length ∧
      (acc.1.getD i []).length = d ∧ (∀ i1, i1 ≠ i → acc.1.getD i1 [] = acc.1.getD i1 []) ∧
      (∀ j, j < 0 → (acc.1.getD i []).getD j 0 = acc.2 + j + 1)
    exact ⟨by simp, rfl, hrow, fun _ _ => rfl, fun j hj => by omega⟩
  | succ k ih =>
    intro acc hk hi hrow
    obtain ⟨h1, h2, h3, h4, h5⟩ := ih acc (by omega) hi hrow
    simp only [List.range_succ, List.foldl_append, List.foldl_cons, List.foldl_nil]
    have hi2 : i < ((List.range k).foldl (fun (acc : List (List Int) × Int) j =>
        (acc.1.set i ((acc.1.getD i []).set j (acc.2 + 1)), acc.2 + 1)) acc).1.length := by
      rw [h2]; exact hi
    refine ⟨?_, ?_, ?_, ?_, ?_⟩
    · rw [h1]; push_cast; ring
    · rw [List.length_set, h2]
    · rw [getD_set_self _ _ _ _ hi2, List.length_set, h3]
    · intro i1 hne
      rw [getD_set_ne _ _ _ _ _ (fun h => hne h.symm), h4 i1 hne]
    · intro j hj
      rw [getD_set_self _ _ _ _ hi2]
      by_cases hjk : j = k
      · subst hjk
        rw [getD_set_self _ _ _ _ (by rw [h3]; omega), h1]
      · rw [getD_set_ne _ _ _ _ _ (fun h => hjk h.symm), h5 j (by omega)]

/-- The outer loop of the numbering: after the variables below `k`, their rows hold the
numbers of their facts and the counter is the number of facts seen. -/
theorem number_outer_spec (doms : List Nat) (ftv : List (List Int)) :
    ∀ k, k ≤ doms.length →
      let r := (List.range k).foldl (fun (acc : List (List Int) × Int) i =>
        (List.range (doms.getD i 0)).foldl (fun (acc : List (List Int) × Int) j =>
          (acc.1.set i ((acc.1.getD i []).set j (acc.2 + 1)), acc.2 + 1))
          (acc.1.set i (resize (acc.1.getD i []) (doms.getD i 0) 0), acc.2))
        (resize ftv doms.length [], 0)
      r.2 = fact_offset doms k ∧ r.1.length = doms.length ∧
      (∀ i, i < k → ∀ j, j < doms.getD i 0 →
        (r.1.getD i []).getD j 0 = ((fact_offset doms i + j + 1 : Nat) : Int)) := by
  intro k
  induction k with
  | zero =>
    intro _
    show ((0 : Int) = ((fact_offset doms 0 : Nat) : Int)) ∧
      (resize ftv doms.length []).length = doms.length ∧
      (∀ i, i < 0 → ∀ j, j < doms.getD i 0 →
        (((resize ftv doms.length ([] : List Int)).getD i []).getD j 0 : Int) =
          ((fact_offset doms i + j + 1 : Nat) : Int))
    exact ⟨by simp [fact_offset], length_resize _ _ _, fun i hi => by omega⟩
  | succ k ih =>
    intro hk
    obtain ⟨h1, h2, h3⟩ := ih (by omega)
    simp only [List.range_succ, List.foldl_append, List.foldl_cons, List.foldl_nil]
    generalize (List.foldl _ ((resize ftv doms.length [], 0) : List (List Int) × Int)
      (List.range k)) = R at h1 h2 h3 ⊢
    have hk2 : k < R.1.length := by rw [h2]; omega
    obtain ⟨g1, g2, _, g4, g5⟩ := number_inner_spec k (doms.getD k 0) (doms.getD k 0)
      (R.1.set k (resize (R.1.getD k []) (doms.getD k 0) 0), R.2) (le_refl _)
      (by rw [List.length_set]; exact hk2)
      (by rw [getD_set_self _ _ _ _ hk2, length_resize])
    simp only at g1 g2 g4 g5
    refine ⟨?_, ?_, ?_⟩
    · rw [g1, h1, fact_offset_succ]; push_cast; ring
    · rw [g2, List.length_set, h2]
    · intro i hi j hj
      by_cases hik : i = k
      · subst hik
        rw [g5 j hj, h1]
        push_cast
        ring
      · rw [g4 i hik, getD_set_ne _ _ _ _ _ (fun h => hik h.symm), h3 i (by omega) j hj]

/-- The proof-variable that setup assigns to the fact `(i, j)`: the facts are numbered from 1
on, variable by variable and value by value. -/
theorem proof_variable_number_facts (task : Task) (ftv : List (List Int)) (i j : Nat)
    (hi : i < task.get_variables.length) (hj : j < task.get_variables.getD i 0) :
    proof_variable (number_facts task ftv).1 i j =
      ((fact_offset task.get_variables i + j + 1 : Nat) : Int) := by
  unfold proof_variable number_facts
  exact (number_outer_spec task.get_variables ftv _ (le_refl _)).2.2 i hi j hj

theorem fact_of_number (doms : List Nat) (k : Nat) :
    ∀ p, p ≤ doms.length → k < fact_offset doms p →
      ∃ i, i < p ∧ fact_offset doms i ≤ k ∧ k < fact_offset doms (i + 1) := by
  intro p
  induction p with
  | zero =>
    intro _ hk
    simp [fact_offset] at hk
  | succ p ih =>
    intro hp hk
    by_cases hkp : k < fact_offset doms p
    · obtain ⟨i, hi, h1, h2⟩ := ih (by omega) hkp
      exact ⟨i, by omega, h1, h2⟩
    · exact ⟨p, by omega, by omega, hk⟩

/-- C19. Fact-to-proof-variable bijection: after `setup_unsolvability_proof`,
`fact_to_variable` maps the facts `(i, j)` with `j` below the domain size of variable `i`
one-to-one onto the integers from 1 to `N`, where `N` is `strips_varamount`, the sum of all
domain sizes: every assigned proof-variable is between 1 and `N`, no two distinct facts share
one, and every integer from 1 to `N` is assigned to a fact. -/
theorem fact_to_variable_bijection (task : Task) (h : HMHeuristic) :
    (setup_unsolvability_proof task h).strips_varamount = total_facts task ∧
    (∀ f, in_domain task f →
      1 ≤ proof_variable (setup_unsolvability_proof task h).fact_to_variable f.var f.value ∧
      proof_variable (setup_unsolvability_proof task h).fact_to_variable f.var f.value ≤
        total_facts task) ∧
    (∀ f g, in_domain task f → in_domain task g →
      proof_variable (setup_unsolvability_proof task h).fact_to_variable f.var f.value =
        proof_variable (setup_unsolvability_proof task h).fact_to_variable g.var g.value →
      f = g) ∧
    (∀ k : Int, 1 ≤ k → k ≤ total_facts task → ∃ f, in_domain task f ∧
      proof_variable (setup_unsolvability_proof task h).fact_to_variable f.var f.value = k) := by
  have hpv : ∀ f, in_domain task f →
      proof_variable (setup_unsolvability_proof task h).fact_to_variable f.var f.value =
        ((fact_offset task.get_variables f.var + f.value + 1 : Nat) : Int) := by
    intro f hf
    exact proof_variable_number_facts task h.fact_to_variable f.var f.value hf.1 hf.2
  have hupper : ∀ f, in_domain task f →
      fact_offset task.get_variables f.var + f.value + 1 ≤ task.get_variables.sum := by
    intro f hf
    have h1 := fact_offset_succ task.get_variables f.var
    have h2 := fact_offset_mono task.get_variables (f.var + 1) task.get_variables.length hf.1
    rw [fact_offset_length] at h2
    have h3 := hf.2
    omega
  refine ⟨number_facts_snd task h.fact_to_variable, ?_, ?_, ?_⟩
  · intro f hf
    rw [hpv f hf]
    unfold total_facts
    have := hupper f hf
    omega
  · intro f g hf hg heq
    rw [hpv f hf, hpv g hg] at heq
    have heq2 : fact_offset task.get_variables f.var + f.value + 1 =
        fact_offset task.get_variables g.var + g.value + 1 := by exact_mod_cast heq
    have hfs := fact_offset_succ task.get_variables f.var
    have hgs := fact_offset_succ task.get_variables g.var
    have hvar : f.var = g.var := by
      rcases Nat.lt_trichotomy f.var g.var with hlt | heq3 | hgt
      · have := fact_offset_mono task.get_variables (f.var + 1) g.var hlt
        have := hf.2
        omega
      · exact heq3
      · have := fact_offset_mono task.get_variables (g.var + 1) f.var hgt
        have := hg.2
        omega
    have hval : f.value = g.value := by
      rw [hvar] at heq2
      omega
    cases f
    cases g
    simp only at hvar hval
    rw [hvar, hval]
  · intro k hk1 hk2
    unfold total_facts at hk2
    obtain ⟨n, rfl⟩ : ∃ n : Nat, k = ((n + 1 : Nat) : Int) := ⟨(k - 1).toNat, by omega⟩
    have hn : n < fact_offset task.get_variables task.get_variables.length := by
      rw [fact_offset_length]
      omega
    obtain ⟨i, hi, h1, h2⟩ := fact_of_number task.get_variables n _ (le_refl _) hn
    rw [fact_offset_succ] at h2
    have hdom : in_domain task ⟨i, n - fact_offset task.get_variables i⟩ :=
      ⟨hi, by show n - fact_offset task.get_variables i < task.get_variables.getD i 0; omega⟩
    refine ⟨⟨i, n - fact_offset task.get_variables i⟩, hdom, ?_⟩
    rw [hpv _ hdom]
    show ((fact_offset task.get_variables i + (n - fact_offset task.get_variables i) + 1 : Nat)
      : Int) = ((n + 1 : Nat) : Int)
    congr 1
    omega

/-- Witness of C19: on the example task with two variables of two values each, the facts
`(0, 0), (0, 1), (1, 0), (1, 1)` get the proof-variables 1, 2, 3, 4. -/
theorem fact_to_variable_bijection_witness :
    (setup_unsolvability_proof example_task example_heuristic).fact_to_variable =
      [[1, 2], [3, 4]] ∧
    (setup_unsolvability_proof example_task example_heuristic).strips_varamount = 4 :=
  ⟨rfl, (fact_to_variable_bijection example_task example_heuristic).1.trans rfl⟩

/-! ## The mutex clauses -/

theorem fact_number_injective (doms : List Nat) (i j i1 j1 : Nat)
    (hj : j < doms.getD i 0) (hj1 : j1 < doms.getD i1 0)
    (heq : fact_offset doms i + j = fact_offset doms i1 + j1) : i = i1 ∧ j = j1 := by
  have hfs := fact_offset_succ doms i
  have hgs := fact_offset_succ doms i1
  have hvar : i = i1 := by
    rcases Nat.lt_trichotomy i i1 with hlt | heq3 | hgt
    · have := fact_offset_mono doms (i + 1) i1 hlt
      omega
    · exact heq3
    · have := fact_offset_mono doms (i1 + 1) i hgt
      omega
  refine ⟨hvar, ?_⟩
  rw [hvar] at heq
  omega

theorem foldl_append_flatMap {α β : Type} (F : β → List α) (g : List α → β → List α)
    (hg : ∀ acc x, g acc x = acc ++ F x) (l : List β) :
    ∀ init, l.foldl g init = init ++ l.flatMap F := by
  induction l with
  | nil => intro init; simp
  | cons x rest ih =>
    intro init
    rw [List.foldl_cons, ih, hg, List.flatMap_cons, List.append_assoc]

/-- The mutex clauses of one variable that the loop appends. -/
theorem mutex_clauses_eq (task : Task) (ftv : List (List Int)) (init : List (List Int)) :
    mutex_clauses task ftv init = init ++
      (List.range task.get_variables.length).flatMap (fun i =>
        (List.range (task.get_variables.getD i 0 - 1)).flatMap (fun j =>
          (List.range' (j + 1) (task.get_variables.getD i 0 - (j + 1))).flatMap (fun k =>
            [[-proof_variable ftv i j, -proof_variable ftv i k]]))) := by
  unfold mutex_clauses
  apply foldl_append_flatMap
  intro acc i
  apply foldl_append_flatMap
  intro acc j
  apply foldl_append_flatMap
  intro acc k
  rfl

theorem sum_descending (e : Nat) :
    ((List.range e).map (fun j => e - j)).sum = (e + 1) * e / 2 := by
  induction e with
  | zero => rfl
  | succ e ih =>
    rw [List.range_succ_eq_map, List.map_cons, List.map_map, List.sum_cons]
    have hmap : (List.range e).map ((fun j => e + 1 - j) ∘ Nat.succ) =
        (List.range e).map (fun j => e - j) := by
      apply List.map_congr_left
      intro j _
      show e + 1 - (j + 1) = e - j
      omega
    rw [hmap, ih]
    have h2 : (e + 1 + 1) * (e + 1) = (e + 1) * e + 2 * (e + 1) := by ring
    rw [h2, Nat.add_mul_div_left _ _ (by decide : 0 < 2)]
    omega

theorem sum_pairs (d : Nat) :
    ((List.range (d - 1)).map (fun j => d - (j + 1))).sum = d * (d - 1) / 2 := by
  cases d with
  | zero => rfl
  | succ e =>
    have hmap : (List.range (e + 1 - 1)).map (fun j => e + 1 - (j + 1)) =
        (List.range e).map (fun j => e - j) := by
      rw [Nat.add_sub_cancel]
      apply List.map_congr_left
      intro j _
      omega
    rw [hmap, sum_descending, Nat.add_sub_cancel]

/-- The mutex clauses built from the numbering of the facts, starting from an empty list. -/
theorem mutex_clauses_spec (task : Task) (ftv : List (List Int)) :
    (∀ c, c ∈ mutex_clauses task (number_facts task ftv).1 [] ↔
      ∃ i j k, i < task.get_variables.length ∧ j < k ∧ k < task.get_variables.getD i 0 ∧
        c = [-proof_variable (number_facts task ftv).1 i j,
             -proof_variable (number_facts task ftv).1 i k]) ∧
    (mutex_clauses task (number_facts task ftv).1 []).Nodup ∧
    (mutex_clauses task (number_facts task ftv).1 []).length =
      (task.get_variables.map (fun d => d * (d - 1) / 2)).sum := by
  rw [mutex_clauses_eq, List.nil_append]
  have hpv : ∀ i j, i < task.get_variables.length → j < task.get_variables.getD i 0 →
      proof_variable (number_facts task ftv).1 i j =
        ((fact_offset task.get_variables i + j + 1 : Nat) : Int) :=
    fun i j hi hj => proof_variable_number_facts task ftv i j hi hj
  have hinj : ∀ i j i1 j1, i < task.get_variables.length → j < task.get_variables.getD i 0 →
      i1 < task.get_variables.length → j1 < task.get_variables.getD i1 0 →
      proof_variable (number_facts task ftv).1 i j =
        proof_variable (number_facts task ftv).1 i1 j1 → i = i1 ∧ j = j1 := by
    intro i j i1 j1 hi hj hi1 hj1 heq
    rw [hpv i j hi hj, hpv i1 j1 hi1 hj1] at heq
    have heq2 : fact_offset task.get_variables i + j + 1 =
        fact_offset task.get_variables i1 + j1 + 1 := by exact_mod_cast heq
    exact fact_number_injective task.get_variables i j i1 j1 hj hj1 (by omega)
  refine ⟨?_, ?_, ?_⟩
  · intro c
    simp only [List.mem_flatMap, List.mem_range, List.mem_range'_1, List.mem_singleton]
    constructor
    · rintro ⟨i, hi, j, hj, k, ⟨hk1, hk2⟩, rfl⟩
      exact ⟨i, j, k, hi, by omega, by omega, rfl⟩
    · rintro ⟨i, j, k, hi, hjk, hk, rfl⟩
      exact ⟨i, hi, j, by omega, k, ⟨by omega, by omega⟩, rfl⟩
  · rw [List.nodup_flatMap]
    constructor
    · intro i hi
      rw [List.mem_range] at hi
      rw [List.nodup_flatMap]
      constructor
      · intro j hj
        rw [List.mem_range] at hj
        rw [List.nodup_flatMap]
        constructor
        · intro k _
          exact List.nodup_singleton _
        · refine List.Pairwise.imp_of_mem ?_ (List.nodup_range' (j + 1) _)
          intro k k1 hk hk1 hne
          rw [List.mem_range'_1] at hk hk1
          show List.Disjoint _ _
          rw [List.disjoint_left]
          intro c hc hc1
          rw [List.mem_singleton] at hc hc1
          rw [hc] at hc1
          simp only [List.cons.injEq, neg_inj, and_true, true_and] at hc1
          exact hne (hinj i k i k1 hi (by omega) hi (by omega) hc1).2
      · refine List.Pairwise.imp_of_mem ?_ (List.nodup_range _)
        intro j j1 hj hj1 hne
        rw [List.mem_range] at hj hj1
        show List.Disjoint _ _
        rw [List.disjoint_left]
        intro c hc hc1
        simp only [List.mem_flatMap, List.mem_range'_1, List.mem_singleton] at hc hc1
        obtain ⟨k, hk, rfl⟩ := hc
        obtain ⟨k1, hk1, heq⟩ := hc1
        simp only [List.cons.injEq, neg_inj, and_true] at heq
        exact hne (hinj i j i j1 hi (by omega) hi (by omega) heq.1).2
    · refine List.Pairwise.imp_of_mem ?_ (List.nodup_range _)
      intro i i1 hi hi1 hne
      rw [List.mem_range] at hi hi1
      show List.Disjoint _ _
      rw [List.disjoint_left]
      intro c hc hc1
      simp only [List.mem_flatMap, List.mem_range, List.mem_range'_1, List.mem_singleton]
        at hc hc1
      obtain ⟨j, hj, k, hk, rfl⟩ := hc
      obtain ⟨j1, hj1, k1, hk1, heq⟩ := hc1
      simp only [List.cons.injEq, neg_inj, and_true] at heq
      exact hne (hinj i j i1 j1 hi (by omega) hi1 (by omega) heq.1).1
  · rw [List.length_flatMap]
    have hrow : ∀ i, (List.length ∘ fun i =>
        (List.range (task.get_variables.getD i 0 - 1)).flatMap (fun j =>
          (List.range' (j + 1) (task.get_variables.getD i 0 - (j + 1))).flatMap (fun k =>
            [[-proof_variable (number_facts task ftv).1 i j,
              -proof_variable (number_facts task ftv).1 i k]]))) i =
        (fun i => (fun d => d * (d - 1) / 2) (task.get_variables.getD i 0)) i := by
      intro i
      show List.length _ = task.get_variables.getD i 0 * (task.get_variables.getD i 0 - 1) / 2
      rw [List.length_flatMap, ← sum_pairs]
      congr 1
      apply List.map_congr_left
      intro j _
      show List.length _ = _
      rw [List.length_flatMap]
      have hone : (List.length ∘ fun k =>
          [[-proof_variable (number_facts task ftv).1 i j,
            -proof_variable (number_facts task ftv).1 i k]]) = fun _ => 1 := rfl
      rw [hone, List.map_const', List.sum_replicate, List.length_range', smul_eq_mul, mul_one]
    rw [List.map_congr_left (fun i _ => hrow i)]
    show (List.map ((fun d => d * (d - 1) / 2) ∘ (fun i => task.get_variables.getD i 0))
      (List.range task.get_variables.length)).sum = _
    rw [← List.map_map, map_getD_range]

/-- The proof-variable table and the mutex clauses of a heuristic object: empty before setup,
and afterwards those that setup builds from empty ones. -/
theorem reachable_setup_state (task : Task) (m : Nat) (h : HMHeuristic)
    (hr : reachable task m h) :
    (h.unsolvability_setup = false → h.fact_to_variable = [] ∧ h.mutexes = []) ∧
    (h.unsolvability_setup = true →
      h.fact_to_variable = (number_facts task []).1 ∧
      h.mutexes = mutex_clauses task (number_facts task []).1 []) := by
  induction hr with
  | new g => exact ⟨fun _ => ⟨rfl, rfl⟩, fun hs => by simp [HMHeuristic.new] at hs⟩
  | compute h h1 state v _ hc ih =>
    unfold HMHeuristic.compute_heuristic at hc
    split at hc
    · cases hc
    · cases hc
      exact ih
  | store h id _ ih =>
    unfold store_deadend_info
    cases hset : h.unsolvability_setup
    · obtain ⟨h1, h2⟩ := ih.1 hset
      simp [setup_unsolvability_proof, h1, h2]
    · simpa [hset] using ih.2 hset
  | justify h id _ ih => exact ih

/-- C20. Mutex clause set: for every heuristic object on which setup has run (whatever calls
of `compute_heuristic`, `store_deadend_info` and `get_dead_end_justification` came before and
after), `mutexes` holds exactly the clauses made of the two negated proof-variables of
`(i, j)` and `(i, k)` for a variable `i` and two values `j < k` of it, each of them once, two
different pairs give different clauses, and its length is the sum over the variables of
`d * (d - 1) / 2` for the domain size `d`. -/
theorem mutexes_spec (task : Task) (m : Nat) (h : HMHeuristic) (hr : reachable task m h)
    (hs : h.unsolvability_setup = true) :
    (∀ c, c ∈ h.mutexes ↔
      ∃ i j k, i < task.get_variables.length ∧ j < k ∧ k < task.get_variables.getD i 0 ∧
        c = [-proof_variable h.fact_to_variable i j, -proof_variable h.fact_to_variable i k]) ∧
    h.mutexes.Nodup ∧
    (∀ i j k i1 j1 k1, i < task.get_variables.length → j < k →
      k < task.get_variables.getD i 0 → i1 < task.get_variables.length → j1 < k1 →
      k1 < task.get_variables.getD i1 0 →
      [-proof_variable h.fact_to_variable i j, -proof_variable h.fact_to_variable i k] =
        [-proof_variable h.fact_to_variable i1 j1, -proof_variable h.fact_to_variable i1 k1] →
      i = i1 ∧ j = j1 ∧ k = k1) ∧
    h.mutexes.length = (task.get_variables.map (fun d => d * (d - 1) / 2)).sum := by
  obtain ⟨hftv, hmut⟩ := (reachable_setup_state task m h hr).2 hs
  obtain ⟨h1, h2, h3⟩ := mutex_clauses_spec task []
  rw [hftv, hmut]
  refine ⟨h1, h2, ?_, h3⟩
  intro i j k i1 j1 k1 hi hjk hk hi1 hjk1 hk1 heq
  simp only [List.cons.injEq, neg_inj, and_true] at heq
  rw [proof_variable_number_facts task [] i j hi (by omega),
    proof_variable_number_facts task [] i k hi hk,
    proof_variable_number_facts task [] i1 j1 hi1 (by omega),
    proof_variable_number_facts task [] i1 k1 hi1 hk1] at heq
  have e1 : fact_offset task.get_variables i + j + 1 =
      fact_offset task.get_variables i1 + j1 + 1 := by exact_mod_cast heq.1
  have e2 : fact_offset task.get_variables i + k + 1 =
      fact_offset task.get_variables i1 + k1 + 1 := by exact_mod_cast heq.2
  have r1 := fact_number_injective task.get_variables i j i1 j1 (by omega) (by omega)
    (by omega)
  have r2 := fact_number_injective task.get_variables i k i1 k1 hk hk1 (by omega)
  exact ⟨r1.1, r1.2, r2.2⟩

/-- Witness of C20: on the example task, after a first and a second call of
`store_deadend_info`, the mutex clauses are the two clauses of the two variables. -/
theorem mutexes_spec_witness :
    (store_deadend_info example_task
      (store_deadend_info example_task (HMHeuristic.new example_task 2 0) 0) 1).mutexes =
      [[-1, -2], [-3, -4]] ∧
    (store_deadend_info example_task
      (store_deadend_info example_task (HMHeuristic.new example_task 2 0) 0) 1).mutexes.length =
      (example_task.get_variables.map (fun d => d * (d - 1) / 2)).sum :=
  ⟨rfl, (mutexes_spec example_task 2 _
    (reachable.store _ 1 (reachable.store _ 0 (reachable.new 0))) rfl).2.2.2⟩

/-! ## The heuristic for `m = 1` and the max-cost relaxation -/

theorem example_large_cost_equations (cost : FactPair → WithTop Int)
    (h : satisfies_relaxation example_large_cost_task [0] cost) :
    cost ⟨0, 0⟩ = 0 ∧ cost ⟨0, 1⟩ = ((2147483647 : Int) : WithTop Int) := by
  constructor
  · rw [h ⟨0, 0⟩]
    rfl
  · rw [h ⟨0, 1⟩]
    rfl

theorem example_large_cost_satisfies :
    satisfies_relaxation example_large_cost_task [0] example_large_cost := by
  intro f
  by_cases h0 : f = ⟨0, 0⟩
  · subst h0
    rfl
  · by_cases h1 : f = ⟨0, 1⟩
    · subst h1
      rfl
    · have hh : holds [0] f = false := by
        cases f with
        | mk var value =>
          cases var with
          | zero =>
            cases value with
            | zero => exact absurd rfl h0
            | succ v => simp [holds]
          | succ n => simp [holds]
      have hrel : relax_value example_large_cost_task example_large_cost f = ⊤ := by
        have hne : ¬ has_effect
            { preconditions := [], effects := [⟨[], ⟨0, 1⟩⟩], cost := 2147483647 } f := by
          rintro ⟨eff, he, hf⟩
          simp only [List.mem_singleton] at he
          subst he
          exact h1 hf.symm
        simp [relax_value, example_large_cost_task, hne]
      rw [hh, hrel]
      simp [example_large_cost, h0, h1]

/-- Counterexample to C12 as stated: the only operator of `example_large_cost_task` costs
`INT_MAX` and sets the goal fact from no precondition. The max-cost relaxation gives the goal
the finite cost 2147483647, but `compute_heuristic` with `m = 1` returns `DEAD_END`, since the
candidate value equals the value that stands for infinite and no entry is lowered. -/
theorem max_cost_relaxation_fails_for_large_cost :
    example_large_cost_task.well_formed ∧
    (∀ op ∈ example_large_cost_task.get_operators, 0 ≤ op.cost) ∧
    is_goal_state example_large_cost_task [0] = false ∧
    compute_heuristic example_large_cost_task 1
      (generate_all_tuples example_large_cost_task 1) [0] =
        .ok (DEAD_END, [([⟨0, 0⟩], 0), ([⟨0, 1⟩], 2147483647)]) ∧
    is_max_cost_relaxation example_large_cost_task [0] example_large_cost ∧
    (∀ cost, is_max_cost_relaxation example_large_cost_task [0] cost →
      heuristic_value (max_cost cost example_large_cost_task.get_goals) = 2147483647 ∧
      heuristic_value (max_cost cost example_large_cost_task.get_goals) ≠ DEAD_END) := by
  refine ⟨by decide, by decide, by decide, rfl, ⟨example_large_cost_satisfies, ?_⟩, ?_⟩
  · intro cost1 h1 f
    obtain ⟨e0, e1⟩ := example_large_cost_equations cost1 h1
    by_cases h0 : f = ⟨0, 0⟩
    · subst h0
      rw [e0]
      exact le_of_eq rfl
    · by_cases hf1 : f = ⟨0, 1⟩
      · subst hf1
        rw [e1]
        exact le_of_eq rfl
      · have : example_large_cost f = ⊤ := by simp [example_large_cost, h0, hf1]
        rw [this]
        exact le_top
  · intro cost hc
    obtain ⟨_, e1⟩ := example_large_cost_equations cost hc.1
    have hv : heuristic_value (max_cost cost example_large_cost_task.get_goals) =
        2147483647 := by
      show heuristic_value (max (cost ⟨0, 1⟩) 0) = 2147483647
      rw [e1]
      rfl
    rw [hv]
    exact ⟨rfl, by decide⟩

theorem partial_tuples_aux_one (rest : Tuple) :
    ∀ res, generate_all_partial_tuples_aux rest [] 1 res = res ++ rest.map (fun f => [f]) := by
  induction rest with
  | nil => intro res; simp [generate_all_partial_tuples_aux]
  | cons x rest ih =>
    intro res
    unfold generate_all_partial_tuples_aux
    simp only [if_true, List.nil_append]
    rw [ih]
    simp

theorem partial_tuples_one (base : Tuple) :
    generate_all_partial_tuples 1 base = base.map (fun f => [f]) := by
  unfold generate_all_partial_tuples
  rw [partial_tuples_aux_one]
  simp

theorem valid_key_one (task : Task) (f : FactPair) :
    valid_key task 1 [f] ↔ in_domain task f := by
  unfold valid_key
  simp

theorem at_fact (task : Task) (tbl : HMTable) (hk : keys_ok task 1 tbl) (f : FactPair)
    (hf : in_domain task f) : ∃ v, tbl.at [f] = some v :=
  at_of_mem_keys tbl [f] ((hk [f]).mpr ((valid_key_one task f).mpr hf))

theorem fact_of_at (task : Task) (tbl : HMTable) (hk : keys_ok task 1 tbl) (f : FactPair)
    (v : Int) (h : tbl.at [f] = some v) : in_domain task f := by
  have hmem : [f] ∈ tbl.keys := by
    rw [← at_isSome_iff_mem_keys, h]
    rfl
  exact (valid_key_one task f).mp ((hk [f]).mp hmem)

/-- The function `eval` for `m = 1`: the maximum of 0 and the entries of the facts. -/
theorem eval_one (tbl : HMTable) (t : Tuple) (c : Int) (h : eval 1 tbl t = .ok c) :
    0 ≤ c ∧ (∀ f ∈ t, ∃ y, tbl.at [f] = some y ∧ y ≤ c) ∧
    (c = 0 ∨ ∃ f ∈ t, tbl.at [f] = some c) := by
  obtain ⟨h0, h1, h2⟩ := eval_ok 1 tbl t c h
  rw [partial_tuples_one] at h1 h2
  refine ⟨h0, ?_, ?_⟩
  · intro f hf
    exact h1 [f] (List.mem_map.mpr ⟨f, hf, rfl⟩)
  · rcases h2 with h2 | ⟨x, hx, hxc⟩
    · exact Or.inl h2
    · obtain ⟨f, hf, rfl⟩ := List.mem_map.mp hx
      exact Or.inr ⟨f, hf, hxc⟩

theorem zero_le_max_cost (cost : FactPair → WithTop Int) (facts : List FactPair) :
    0 ≤ max_cost cost facts := by
  induction facts with
  | nil => exact le_refl _
  | cons f rest ih => exact le_trans ih (le_max_right _ _)

theorem le_max_cost (cost : FactPair → WithTop Int) (facts : List FactPair) (f : FactPair)
    (hf : f ∈ facts) : cost f ≤ max_cost cost facts := by
  induction facts with
  | nil => cases hf
  | cons g rest ih =>
    rcases List.mem_cons.mp hf with rfl | hr
    · exact le_max_left _ _
    · exact le_trans (ih hr) (le_max_right _ _)

theorem max_cost_le (cost : FactPair → WithTop Int) (facts : List FactPair) (b : WithTop Int)
    (hb : 0 ≤ b) (hall : ∀ f ∈ facts, cost f ≤ b) : max_cost cost facts ≤ b := by
  induction facts with
  | nil => exact hb
  | cons g rest ih =>
    exact max_le (hall g (List.mem_cons_self _ _))
      (ih (fun f hf => hall f (List.mem_cons_of_mem _ hf)))

theorem max_cost_attained (cost : FactPair → WithTop Int) (facts : List FactPair) :
    max_cost cost facts = 0 ∨ ∃ f ∈ facts, cost f = max_cost cost facts := by
  induction facts with
  | nil => exact Or.inl rfl
  | cons g rest ih =>
    show max (cost g) (max_cost cost rest) = 0 ∨
      ∃ f ∈ g :: rest, cost f = max (cost g) (max_cost cost rest)
    rcases le_total (cost g) (max_cost cost rest) with hle | hle
    · rw [max_eq_right hle]
      rcases ih with ih | ⟨f, hf, hfc⟩
      · exact Or.inl ih
      · exact Or.inr ⟨f, List.mem_cons_of_mem _ hf, hfc⟩
    · rw [max_eq_left hle]
      exact Or.inr ⟨g, List.mem_cons_self _ _, rfl⟩

theorem foldr_min_le (l : List (WithTop Int)) (x : WithTop Int) (hx : x ∈ l) :
    l.foldr min ⊤ ≤ x := by
  induction l with
  | nil => cases hx
  | cons y rest ih =>
    rcases List.mem_cons.mp hx with rfl | hr
    · exact min_le_left _ _
    · exact le_trans (min_le_right _ _) (ih hr)

theorem le_foldr_min (l : List (WithTop Int)) (a : WithTop Int) (hall : ∀ x ∈ l, a ≤ x) :
    a ≤ l.foldr min ⊤ := by
  induction l with
  | nil => exact le_top
  | cons y rest ih =>
    exact le_min (hall y (List.mem_cons_self _ _))
      (ih (fun x hx => hall x (List.mem_cons_of_mem _ hx)))

theorem relax_value_le (task : Task) (cost : FactPair → WithTop Int) (f : FactPair)
    (op : Operator) (hop : op ∈ task.get_operators) (heff : has_effect op f) :
    relax_value task cost f ≤ (op.cost : WithTop Int) + max_cost cost op.preconditions := by
  unfold relax_value
  apply foldr_min_le
  exact List.mem_map.mpr ⟨op, List.mem_filter.mpr ⟨hop, by simpa using heff⟩, rfl⟩

theorem le_relax_value (task : Task) (cost : FactPair → WithTop Int) (f : FactPair)
    (a : WithTop Int)
    (hall : ∀ op ∈ task.get_operators, has_effect op f →
      a ≤ (op.cost : WithTop Int) + max_cost cost op.preconditions) :
    a ≤ relax_value task cost f := by
  unfold relax_value
  apply le_foldr_min
  intro x hx
  obtain ⟨op, hop, rfl⟩ := List.mem_map.mp hx
  obtain ⟨hop1, hop2⟩ := List.mem_filter.mp hop
  exact hall op hop1 (by simpa using hop2)

theorem entry_cost_of_lt (v : Int) (h : v < INT_MAX) : entry_cost v = (v : WithTop Int) := by
  unfold entry_cost
  rw [if_neg (ne_of_lt h)]

theorem entry_cost_mono (y c : Int) (hyc : y ≤ c) (hc : c ≤ INT_MAX) :
    entry_cost y ≤ entry_cost c := by
  by_cases h : c = INT_MAX
  · unfold entry_cost
    rw [if_pos h]
    exact le_top
  · have hc1 : c < INT_MAX := lt_of_le_of_ne hc h
    rw [entry_cost_of_lt c hc1, entry_cost_of_lt y (lt_of_le_of_lt hyc hc1)]
    exact WithTop.coe_le_coe.mpr hyc

theorem table_cost_of_at (tbl : HMTable) (s : State) (f : FactPair) (v : Int)
    (h : tbl.at [f] = some v) : table_cost tbl s f = entry_cost v := by
  unfold table_cost
  rw [h]

/-- The value of `eval` for `m = 1` stands for the maximum of the table's cost function
over the facts. -/
theorem max_cost_of_eval (tbl : HMTable) (s : State)
    (hrange : ∀ t v, tbl.at t = some v → 0 ≤ v ∧ v ≤ INT_MAX)
    (t facts : Tuple) (hmem : ∀ f, f ∈ t ↔ f ∈ facts) (c : Int)
    (h : eval 1 tbl t = .ok c) :
    c ≤ INT_MAX ∧ max_cost (table_cost tbl s) facts = entry_cost c := by
  obtain ⟨h0, h1, h2⟩ := eval_one tbl t c h
  have hc : c ≤ INT_MAX := by
    rcases h2 with h2 | ⟨f, _, hf⟩
    · rw [h2]; decide
    · exact (hrange _ _ hf).2
  refine ⟨hc, le_antisymm ?_ ?_⟩
  · apply max_cost_le
    · have := entry_cost_mono 0 c h0 hc
      rwa [entry_cost_of_lt 0 (by decide)] at this
    · intro f hf
      obtain ⟨y, hy, hyc⟩ := h1 f ((hmem f).mpr hf)
      rw [table_cost_of_at tbl s f y hy]
      exact entry_cost_mono y c hyc hc
  · rcases h2 with h2 | ⟨f, hf, hfc⟩
    · rw [h2, entry_cost_of_lt 0 (by decide)]
      exact zero_le_max_cost _ _
    · rw [← table_cost_of_at tbl s f c hfc]
      exact le_max_cost _ _ f ((hmem f).mp hf)

theorem finite_entries_le_length (tbl : HMTable) : finite_entries tbl ≤ tbl.length :=
  List.length_filter_le _ _

theorem length_set (tbl : HMTable) (t : Tuple) (v : Int) :
    (tbl.set t v).length = tbl.length := by
  have h := congrArg List.length (keys_set tbl t v)
  simpa [HMTable.keys] using h

theorem finite_entries_set (tbl : HMTable) (t : Tuple) (val : Int) (hv : val < INT_MAX) :
    ∀ cur, tbl.at t = some cur →
      finite_entries tbl ≤ finite_entries (tbl.set t val) ∧
      (¬ cur < INT_MAX → finite_entries (tbl.set t val) = finite_entries tbl + 1) := by
  induction tbl with
  | nil => intro cur h; cases h
  | cons e rest ih =>
    intro cur h
    obtain ⟨k, w⟩ := e
    unfold HMTable.at at h
    unfold HMTable.set
    by_cases hk : k = t
    · rw [if_pos hk] at h
      rw [if_pos hk]
      cases h
      unfold finite_entries
      by_cases hw : cur < INT_MAX
      · simp [List.filter_cons, hv, hw]
      · simp [List.filter_cons, hv, hw]
    · rw [if_neg hk] at h
      rw [if_neg hk]
      obtain ⟨h1, h2⟩ := ih cur h
      unfold finite_entries at h1 h2 ⊢
      by_cases hw : w < INT_MAX
      · simp only [List.filter_cons, hw, decide_True, if_true, List.length_cons]
        exact ⟨by omega, fun hc => by rw [h2 hc]⟩
      · simp only [List.filter_cons, hw, decide_False, Bool.false_eq_true, if_false]
        exact ⟨h1, h2⟩

theorem at_set_le (tbl : HMTable) (t : Tuple) (val cur : Int) (hcur : tbl.at t = some cur)
    (hlt : val < cur) (t1 : Tuple) (y : Int) (h : tbl.at t1 = some y) :
    ∃ y1, (tbl.set t val).at t1 = some y1 ∧ y1 ≤ y := by
  rw [at_set]
  by_cases ht : t1 = t
  · rw [if_pos ht, hcur]
    rw [ht, hcur] at h
    cases h
    exact ⟨val, rfl, le_of_lt hlt⟩
  · rw [if_neg ht]
    exact ⟨y, h, le_refl _⟩

theorem cost_bound (C : Int) (k n : Nat) (hC : 0 ≤ C) (hk : k ≤ n)
    (hlen : ((n : Int) + 1) * C < INT_MAX) (x cost : Int) (hx : x ≤ C * k) (hcost : cost ≤ C) :
    x < INT_MAX ∧ x + cost < INT_MAX ∧ x + cost ≤ C * ((k + 1 : Nat) : Int) := by
  have hkn : C * (k : Int) ≤ C * (n : Int) :=
    mul_le_mul_of_nonneg_left (by exact_mod_cast hk) hC
  have e1 : ((n : Int) + 1) * C = C * n + C := by ring
  have e2 : C * ((k + 1 : Nat) : Int) = C * k + C := by push_cast; ring
  rw [e1] at hlen
  rw [e2]
  refine ⟨by omega, by omega, by omega⟩

/-- Lowering the entry of an effect of an operator to the value that the relaxation writes
keeps the invariant. -/
theorem invariant_set (task : Task) (s : State) (C : Int) (tbl : HMTable) (hC : 0 ≤ C)
    (hlen : ((tbl.length : Int) + 1) * C < INT_MAX)
    (hinv : relaxation_invariant task s C tbl) (op : Operator)
    (hop : op ∈ task.get_operators) (hcost : 0 ≤ op.cost ∧ op.cost ≤ C)
    (c1 : Int) (hc1 : 0 ≤ c1)
    (hpre : ∀ p ∈ op.preconditions, ∃ y, tbl.at [p] = some y ∧ y ≤ c1)
    (hfin : c1 ≤ C * finite_entries tbl) (f : FactPair) (heff : has_effect op f)
    (cur : Int) (hcur : tbl.at [f] = some cur) (hlt : c1 + op.cost < cur) :
    relaxation_invariant task s C (tbl.set [f] (c1 + op.cost)) ∧
    (∀ p ∈ op.preconditions, ∃ y, (tbl.set [f] (c1 + op.cost)).at [p] = some y ∧ y ≤ c1) ∧
    c1 ≤ C * finite_entries (tbl.set [f] (c1 + op.cost)) := by
  obtain ⟨hP3, hJ, hI1, hP4⟩ := hinv
  obtain ⟨hb1, hb2, hb3⟩ := cost_bound C (finite_entries tbl) tbl.length hC
    (finite_entries_le_length tbl) hlen c1 op.cost hfin hcost.2
  obtain ⟨hfin1, hfin2⟩ := finite_entries_set tbl [f] (c1 + op.cost) hb2 cur hcur
  have hmono : C * (finite_entries tbl : Int) ≤
      C * (finite_entries (tbl.set [f] (c1 + op.cost)) : Int) :=
    mul_le_mul_of_nonneg_left (by exact_mod_cast hfin1) hC
  have hlow := at_set_le tbl [f] (c1 + op.cost) cur hcur hlt
  have hself : (tbl.set [f] (c1 + op.cost)).at [f] = some (c1 + op.cost) :=
    at_set_self tbl [f] _ cur hcur
  have hpre1 : ∀ p ∈ op.preconditions,
      ∃ y, (tbl.set [f] (c1 + op.cost)).at [p] = some y ∧ y ≤ c1 := by
    intro p hp
    obtain ⟨y, hy, hyc⟩ := hpre p hp
    obtain ⟨y1, hy1, hle⟩ := hlow [p] y hy
    exact ⟨y1, hy1, le_trans hle hyc⟩
  refine ⟨⟨?_, ?_, ?_, ?_⟩, hpre1, le_trans hfin hmono⟩
  · intro t v hv
    by_cases ht : t = [f]
    · rw [ht, hself] at hv
      cases hv
      exact ⟨by omega, by omega⟩
    · rw [at_set_other tbl [f] t _ ht] at hv
      exact hP3 t v hv
  · intro t v hv hvlt
    by_cases ht : t = [f]
    · rw [ht, hself] at hv
      cases hv
      by_cases hcl : cur < INT_MAX
      · have := hJ [f] cur hcur hcl
        omega
      · rw [hfin2 hcl]
        exact hb3
    · rw [at_set_other tbl [f] t _ ht] at hv
      exact le_trans (hJ t v hv hvlt) hmono
  · intro cost1 hsol g v hv hvlt
    by_cases hg : g = f
    · subst hg
      rw [hself] at hv
      cases hv
      cases hh : holds s g
      · have hbound : max_cost cost1 op.preconditions ≤ ((c1 : Int) : WithTop Int) := by
          apply max_cost_le
          · exact_mod_cast hc1
          · intro p hp
            obtain ⟨y, hy, hyc⟩ := hpre p hp
            exact le_trans (hI1 cost1 hsol p y hy (by omega)) (WithTop.coe_le_coe.mpr hyc)
        have h1 := hsol g
        rw [hh] at h1
        simp only [Bool.false_eq_true, if_false] at h1
        rw [h1]
        refine le_trans (relax_value_le task cost1 g op hop heff) ?_
        rw [add_comm c1 op.cost, WithTop.coe_add]
        exact add_le_add_left hbound _
      · have h1 := hsol g
        rw [hh] at h1
        simp only [if_true] at h1
        rw [h1]
        have : (0 : Int) ≤ c1 + op.cost := by omega
        exact_mod_cast this
    · have hne : [g] ≠ [f] := fun h => hg (List.singleton_inj.mp h)
      rw [at_set_other tbl [f] [g] _ hne] at hv
      exact hI1 cost1 hsol g v hv hvlt
  · intro g v hv hvlt hh
    by_cases hg : g = f
    · subst hg
      rw [hself] at hv
      cases hv
      exact ⟨op, hop, heff, c1, hc1, le_refl _, hpre1⟩
    · have hne : [g] ≠ [f] := fun h => hg (List.singleton_inj.mp h)
      rw [at_set_other tbl [f] [g] _ hne] at hv
      obtain ⟨op1, hop1, heff1, c, hc, hcv, hp⟩ := hP4 g v hv hvlt hh
      refine ⟨op1, hop1, heff1, c, hc, hcv, ?_⟩
      intro p hp1
      obtain ⟨y, hy, hyc⟩ := hp p hp1
      obtain ⟨y1, hy1, hle⟩ := hlow [p] y hy
      exact ⟨y1, hy1, le_trans hle hyc⟩

theorem has_effect_of_partial (op : Operator) (pe : Tuple)
    (h : pe ∈ generate_all_partial_tuples 1 (get_operator_eff op)) :
    ∃ f, pe = [f] ∧ has_effect op f := by
  rw [partial_tuples_one] at h
  obtain ⟨f, hf, rfl⟩ := List.mem_map.mp h
  refine ⟨f, rfl, ?_⟩
  unfold get_operator_eff at hf
  rw [mem_sort_facts] at hf
  obtain ⟨eff, he, rfl⟩ := List.mem_map.mp hf
  exact ⟨eff, he, rfl⟩

theorem partial_of_has_effect (op : Operator) (f : FactPair) (h : has_effect op f) :
    [f] ∈ generate_all_partial_tuples 1 (get_operator_eff op) := by
  rw [partial_tuples_one]
  obtain ⟨eff, he, rfl⟩ := h
  refine List.mem_map.mpr ⟨eff.fact, ?_, rfl⟩
  unfold get_operator_eff
  rw [mem_sort_facts]
  exact List.mem_map.mpr ⟨eff, he, rfl⟩

theorem eval_bounded (C : Int) (hC : 0 ≤ C) (tbl : HMTable)
    (hP3 : ∀ t v, tbl.at t = some v → 0 ≤ v ∧ v ≤ INT_MAX)
    (hJ : ∀ t v, tbl.at t = some v → v < INT_MAX → v ≤ C * finite_entries tbl)
    (t : Tuple) (c1 : Int) (h : eval 1 tbl t = .ok c1) (hne : c1 ≠ INT_MAX) :
    c1 ≤ C * finite_entries tbl := by
  obtain ⟨_, _, h2⟩ := eval_one tbl t c1 h
  rcases h2 with h2 | ⟨f, _, hf⟩
  · rw [h2]
    exact mul_nonneg hC (by exact_mod_cast Nat.zero_le _)
  · exact hJ [f] c1 hf (lt_of_le_of_ne (hP3 _ _ hf).2 hne)

/-- Processing an operator for `m = 1` keeps the invariant and the size of the table. -/
theorem operator_step_invariant (task : Task) (s : State) (C : Int) (hC : 0 ≤ C) (n : Nat)
    (hn : ((n : Int) + 1) * C < INT_MAX) (op : Operator) (hop : op ∈ task.get_operators)
    (hcost : 0 ≤ op.cost ∧ op.cost ≤ C) (st st1 : HMState)
    (h : operator_step 1 st op = .ok st1) :
    (relaxation_invariant task s C st.hm_table ∧ st.hm_table.length = n) →
    (relaxation_invariant task s C st1.hm_table ∧ st1.hm_table.length = n) := by
  intro hG
  unfold operator_step at h
  cases he : eval 1 st.hm_table (get_operator_pre op) with
  | error e => rw [he] at h; cases h
  | ok c1 =>
    rw [he] at h
    simp only at h
    by_cases hc : c1 = INT_MAX
    · rw [if_neg (by simpa using hc)] at h
      cases h
      exact hG
    · rw [if_pos (by simpa using hc)] at h
      obtain ⟨hc0, hpre0, _⟩ := eval_one st.hm_table _ c1 he
      have hpre : ∀ p ∈ op.preconditions, ∃ y, st.hm_table.at [p] = some y ∧ y ≤ c1 := by
        intro p hp
        exact hpre0 p ((mem_sort_facts _ p).mpr hp)
      have hfin : c1 ≤ C * finite_entries st.hm_table :=
        eval_bounded C hC st.hm_table hG.1.1 hG.1.2.1 _ c1 he hc
      have hloop := for_each_rel (partial_eff_step 1 op c1)
        (fun a b =>
          ((relaxation_invariant task s C a.hm_table ∧ a.hm_table.length = n) ∧
            (∀ p ∈ op.preconditions, ∃ y, a.hm_table.at [p] = some y ∧ y ≤ c1) ∧
            c1 ≤ C * finite_entries a.hm_table) →
          ((relaxation_invariant task s C b.hm_table ∧ b.hm_table.length = n) ∧
            (∀ p ∈ op.preconditions, ∃ y, b.hm_table.at [p] = some y ∧ y ≤ c1) ∧
            c1 ≤ C * finite_entries b.hm_table))
        (fun _ hx => hx) (fun _ _ _ hab hbc hx => hbc (hab hx))
        (generate_all_partial_tuples 1 (get_operator_eff op))
        (by
          intro a pe b hpe hstep ⟨⟨hinv, hlen⟩, hpa, hfa⟩
          obtain ⟨f, rfl, heff⟩ := has_effect_of_partial op pe hpe
          unfold partial_eff_step at hstep
          obtain ⟨hb1, hb2, _⟩ := cost_bound C (finite_entries a.hm_table) a.hm_table.length
            hC (finite_entries_le_length _) (by rw [hlen]; exact hn) c1 op.cost hfa hcost.2
          have hw : wrap32 (c1 + op.cost) = c1 + op.cost :=
            wrap32_eq _ (by omega) (by unfold INT_MAX at hb2; omega)
          rw [hw] at hstep
          cases hu : update_hm_entry a [f] (c1 + op.cost) with
          | error e => rw [hu] at hstep; cases hstep
          | ok a1 =>
            rw [hu] at hstep
            simp only [List.length_singleton, lt_self_iff_false, if_false] at hstep
            obtain ⟨cur, hcur, hcase⟩ := update_hm_entry_cases a a1 [f] _ hu
            cases hstep
            rcases hcase with ⟨hlt, rfl⟩ | ⟨_, rfl⟩
            · obtain ⟨r1, r2, r3⟩ := invariant_set task s C a.hm_table hC
                (by rw [hlen]; exact hn) hinv op hop hcost c1 hc0 hpa hfa f heff cur hcur hlt
              exact ⟨⟨r1, by rw [length_set]; exact hlen⟩, r2, r3⟩
            · exact ⟨⟨hinv, hlen⟩, hpa, hfa⟩)
        st st1 h
      exact (hloop ⟨hG, hpre, hfin⟩).1

/-- The relaxation for `m = 1` keeps the invariant and the size of the table. -/
theorem update_hm_table_invariant (task : Task) (s : State) (C : Int) (hC : 0 ≤ C) (n : Nat)
    (hn : ((n : Int) + 1) * C < INT_MAX)
    (hcost : ∀ op ∈ task.get_operators, 0 ≤ op.cost ∧ op.cost ≤ C)
    (tbl tblF : HMTable) (k : Nat) (h : update_hm_table task 1 tbl = .ok (tblF, k))
    (hinv : relaxation_invariant task s C tbl) (hlen : tbl.length = n) :
    relaxation_invariant task s C tblF ∧ tblF.length = n := by
  have hround : ∀ tbl st, update_round task 1 tbl = .ok st →
      (relaxation_invariant task s C tbl ∧ tbl.length = n) →
      (relaxation_invariant task s C st.hm_table ∧ st.hm_table.length = n) := by
    intro tbl st hr
    unfold update_round at hr
    exact for_each_rel (operator_step 1)
      (fun a b => (relaxation_invariant task s C a.hm_table ∧ a.hm_table.length = n) →
        (relaxation_invariant task s C b.hm_table ∧ b.hm_table.length = n))
      (fun _ hx => hx) (fun _ _ _ hab hbc hx => hbc (hab hx)) task.get_operators
      (fun a op b hop hstep =>
        operator_step_invariant task s C hC n hn op hop (hcost op hop) a b hstep)
      ⟨tbl, false⟩ st hr
  unfold update_hm_table at h
  exact (loop_result task 1
    (fun a b => (relaxation_invariant task s C a ∧ a.length = n) →
      (relaxation_invariant task s C b ∧ b.length = n))
    (fun _ hx => hx) (fun _ _ _ hab hbc hx => hbc (hab hx)) hround _ _ _ _ _ h).1
    ⟨hinv, hlen⟩

theorem init_value (tbl : HMTable) (s : State) (t : Tuple) (v : Int)
    (h : (init_hm_table tbl (get_fact_pairs_of_state s)).at t = some v) :
    v = check_tuple_in_tuple t (get_fact_pairs_of_state s) := by
  rw [at_init] at h
  cases hat : tbl.at t with
  | none => rw [hat] at h; cases h
  | some w =>
    rw [hat] at h
    simp only [Option.map_some', Option.some.injEq] at h
    exact h.symm

theorem init_finite (tbl : HMTable) (s : State) (t : Tuple) (v : Int)
    (h : (init_hm_table tbl (get_fact_pairs_of_state s)).at t = some v) (hv : v < INT_MAX) :
    v = 0 ∧ ∀ f ∈ t, holds s f = true := by
  have hv1 := init_value tbl s t v h
  rcases check_tuple_in_tuple_cases t (get_fact_pairs_of_state s) with h0 | h1
  · refine ⟨by rw [hv1, h0], ?_⟩
    intro f hf
    exact (mem_fact_pairs_of_state s f).mp ((check_tuple_in_tuple_eq_zero _ _).mp h0 f hf)
  · rw [hv1, h1] at hv
    exact absurd hv (lt_irrefl _)

/-- The table that `init_hm_table` leaves satisfies the invariant of the relaxation. -/
theorem init_invariant (task : Task) (s : State) (C : Int) (hC : 0 ≤ C) (tbl : HMTable) :
    relaxation_invariant task s C (init_hm_table tbl (get_fact_pairs_of_state s)) := by
  refine ⟨?_, ?_, ?_, ?_⟩
  · intro t v hv
    have hv1 := init_value tbl s t v hv
    rcases check_tuple_in_tuple_cases t (get_fact_pairs_of_state s) with h0 | h1
    · rw [hv1, h0]; decide
    · rw [hv1, h1]; decide
  · intro t v hv hlt
    rw [(init_finite tbl s t v hv hlt).1]
    exact mul_nonneg hC (by exact_mod_cast Nat.zero_le _)
  · intro cost1 hsol f v hv hlt
    obtain ⟨h0, hh⟩ := init_finite tbl s [f] v hv hlt
    have h1 := hsol f
    rw [hh f (List.mem_singleton_self f)] at h1
    simp only [if_true] at h1
    rw [h1, h0]
    exact le_of_eq rfl
  · intro f v hv hlt hh
    obtain ⟨_, hh1⟩ := init_finite tbl s [f] v hv hlt
    rw [hh1 f (List.mem_singleton_self f)] at hh
    cases hh

/-- The one-fact tuples of the task, variable by variable. -/
theorem keys_one_length (task : Task) :
    (generate_all_tuples task 1).keys.length = task.get_variables.sum := by
  have hnodup : (generate_all_tuples task 1).keys.Nodup :=
    generate_aux_invariant task (fun tbl => tbl.keys.Nodup)
      (fun tbl t h => keys_nodup_assign tbl t 0 h) 1 0 [] [] List.nodup_nil
  have hk := keys_generate_all_tuples task 1 (le_refl 1)
  have hnodup2 : ((List.range task.get_variables.length).flatMap (fun i =>
      (List.range (task.get_variables.getD i 0)).map
        (fun j => [(⟨i, j⟩ : FactPair)]))).Nodup := by
    rw [List.nodup_flatMap]
    constructor
    · intro i _
      refine List.Nodup.map ?_ (List.nodup_range _)
      intro a b hab
      simpa using hab
    · refine List.Pairwise.imp_of_mem ?_ (List.nodup_range _)
      intro i i1 _ _ hne
      show List.Disjoint _ _
      rw [List.disjoint_left]
      intro c hc hc1
      obtain ⟨j, _, rfl⟩ := List.mem_map.mp hc
      obtain ⟨j1, _, heq⟩ := List.mem_map.mp hc1
      simp only [List.cons.injEq, FactPair.mk.injEq, and_true] at heq
      exact hne heq.1.symm
  have hperm : (generate_all_tuples task 1).keys.Perm
      ((List.range task.get_variables.length).flatMap (fun i =>
        (List.range (task.get_variables.getD i 0)).map
          (fun j => [(⟨i, j⟩ : FactPair)]))) := by
    rw [List.perm_ext_iff_of_nodup hnodup hnodup2]
    intro t
    rw [hk t]
    simp only [List.mem_flatMap, List.mem_range, List.mem_map]
    constructor
    · rintro ⟨hne, hlen, _, hdom⟩
      cases t with
      | nil => exact absurd rfl hne
      | cons f rest =>
        cases rest with
        | nil =>
          have hf := hdom f (List.mem_singleton_self f)
          exact ⟨f.var, hf.1, f.value, hf.2, rfl⟩
        | cons g rest =>
          simp only [List.length_cons] at hlen
          omega
    · rintro ⟨i, hi, j, hj, rfl⟩
      exact (valid_key_one task ⟨i, j⟩).mpr ⟨hi, hj⟩
  rw [hperm.length_eq, List.length_flatMap]
  have hrow : (List.length ∘ fun i =>
      (List.range (task.get_variables.getD i 0)).map (fun j => [(⟨i, j⟩ : FactPair)])) =
      fun i => task.get_variables.getD i 0 := by
    funext i
    simp
  rw [hrow, map_getD_range]

/-- The cost function of a fixpoint table that satisfies the invariant is the pointwise
greatest solution of the equations of the max-cost relaxation. -/
theorem table_cost_is_relaxation (task : Task) (hwf : task.well_formed) (s : State) (C : Int)
    (hC : 0 ≤ C) (hcost : ∀ op ∈ task.get_operators, 0 ≤ op.cost ∧ op.cost ≤ C)
    (tblF : HMTable) (hlen : ((tblF.length : Int) + 1) * C < INT_MAX)
    (hkF : keys_ok task 1 tblF) (hinv : relaxation_invariant task s C tblF)
    (hfix : is_fixpoint task 1 tblF)
    (hstate : ∀ f v, holds s f = true → tblF.at [f] = some v → v = 0) :
    is_max_cost_relaxation task s (table_cost tblF s) := by
  obtain ⟨hP3, hJ, hI1, hP4⟩ := hinv
  constructor
  · intro f
    cases hh : holds s f
    · simp only [Bool.false_eq_true, if_false]
      apply le_antisymm
      · apply le_relax_value
        intro op hop heff
        have hdom : in_domain task f := by
          obtain ⟨eff, he, rfl⟩ := heff
          exact (hwf.1 op hop).2.2.1 eff he
        obtain ⟨cur, hcur⟩ := at_fact task tblF hkF f hdom
        obtain ⟨c1, hc1⟩ := eval_succeeds task 1 (le_refl 1) tblF hkF (get_operator_pre op)
          (pre_strict task hwf op hop).1 (pre_strict task hwf op hop).2
        obtain ⟨hc1le, hmax⟩ := max_cost_of_eval tblF s hP3 (get_operator_pre op)
          op.preconditions (fun p => mem_sort_facts _ p) c1 hc1
        rw [hmax]
        by_cases hc : c1 = INT_MAX
        · unfold entry_cost
          rw [if_pos hc, WithTop.add_top]
          exact le_top
        · have hfin := eval_bounded C hC tblF hP3 hJ _ c1 hc1 hc
          obtain ⟨_, hb2, _⟩ := cost_bound C (finite_entries tblF) tblF.length hC
            (finite_entries_le_length _) hlen c1 op.cost hfin (hcost op hop).2
          have hc0 := (eval_one tblF _ c1 hc1).1
          have hw : wrap32 (c1 + op.cost) = c1 + op.cost :=
            wrap32_eq _ (by have := (hcost op hop).1; omega)
              (by unfold INT_MAX at hb2; omega)
          obtain ⟨cur1, hcur1, hle⟩ :=
            (hfix op hop c1 hc1 hc [f] (partial_of_has_effect op f heff)).1
          rw [hw] at hle
          rw [table_cost_of_at tblF s f cur1 hcur1, entry_cost_of_lt cur1 (by omega),
            entry_cost_of_lt c1 (lt_of_le_of_ne hc1le hc), ← WithTop.coe_add]
          exact WithTop.coe_le_coe.mpr (by omega)
      · cases hat : tblF.at [f] with
        | none =>
          unfold table_cost
          rw [hat, hh]
          exact le_top
        | some v =>
          rw [table_cost_of_at tblF s f v hat]
          by_cases hv : v = INT_MAX
          · unfold entry_cost
            rw [if_pos hv]
            exact le_top
          · have hvlt : v < INT_MAX := lt_of_le_of_ne (hP3 _ _ hat).2 hv
            obtain ⟨op, hop, heff, c, hc0, hcv, hpre⟩ := hP4 f v hat hvlt hh
            rw [entry_cost_of_lt v hvlt]
            refine le_trans (relax_value_le task _ f op hop heff) ?_
            have hbound : max_cost (table_cost tblF s) op.preconditions ≤
                ((c : Int) : WithTop Int) := by
              apply max_cost_le
              · exact_mod_cast hc0
              · intro p hp
                obtain ⟨y, hy, hyc⟩ := hpre p hp
                have := (hcost op hop).1
                rw [table_cost_of_at tblF s p y hy, entry_cost_of_lt y (by omega)]
                exact WithTop.coe_le_coe.mpr hyc
            refine le_trans (add_le_add_left hbound _) ?_
            rw [← WithTop.coe_add]
            exact WithTop.coe_le_coe.mpr (by omega)
    · simp only [if_true]
      cases hat : tblF.at [f] with
      | none =>
        unfold table_cost
        rw [hat, hh]
        rfl
      | some v =>
        rw [table_cost_of_at tblF s f v hat, hstate f v hh hat]
        rfl
  · intro cost1 hsol f
    cases hat : tblF.at [f] with
    | none =>
      unfold table_cost
      rw [hat]
      cases hh : holds s f
      · exact le_top
      · have h1 := hsol f
        rw [hh] at h1
        simp only [if_true] at h1 ⊢
        rw [h1]
    | some v =>
      rw [table_cost_of_at tblF s f v hat]
      by_cases hv : v = INT_MAX
      · unfold entry_cost
        rw [if_pos hv]
        exact le_top
      · have hvlt : v < INT_MAX := lt_of_le_of_ne (hP3 _ _ hat).2 hv
        rw [entry_cost_of_lt v hvlt]
        exact hI1 cost1 hsol f v hat hvlt

/-- C12, with the bound on the costs that it needs. For `m = 1`, a well-formed task whose
operator costs are between 0 and some `C` with `(number of facts + 1) * C < INT_MAX`, a table
with the keys of setup and a state that is not a goal state, `compute_heuristic` returns the
value of the max-cost relaxation: there is a pointwise greatest cost function on the facts
with cost 0 for the facts of the state and otherwise the minimum over the operators having the
fact as an effect of operator cost plus maximum of the cost over the preconditions, and the
call returns the maximum of that function over the goal facts, `DEAD_END` if it is
infinite. -/
theorem compute_heuristic_max_cost_relaxation (task : Task) (hwf : task.well_formed)
    (C : Int) (hcost : ∀ op ∈ task.get_operators, 0 ≤ op.cost ∧ op.cost ≤ C)
    (hsmall : (total_facts task + 1) * C < INT_MAX) (tbl : HMTable)
    (hkeys : tbl.keys = (generate_all_tuples task 1).keys) (state : State)
    (hng : is_goal_state task state = false) :
    ∃ cost tblF, is_max_cost_relaxation task state cost ∧
      compute_heuristic task 1 tbl state =
        .ok (heuristic_value (max_cost cost task.get_goals), tblF) := by
  have hC1 : 0 ≤ max C 0 := le_max_right _ _
  have hcost1 : ∀ op ∈ task.get_operators, 0 ≤ op.cost ∧ op.cost ≤ max C 0 :=
    fun op hop => ⟨(hcost op hop).1, le_trans (hcost op hop).2 (le_max_left _ _)⟩
  have hk : keys_ok task 1 tbl :=
    keys_ok_of_keys_eq task 1 _ _ hkeys (keys_generate_all_tuples task 1 (le_refl 1))
  have hk0 : keys_ok task 1 (init_hm_table tbl (get_fact_pairs_of_state state)) :=
    keys_ok_of_keys_eq task 1 _ _ (keys_init _ _) hk
  have hlen0 : (init_hm_table tbl (get_fact_pairs_of_state state)).length =
      task.get_variables.sum := by
    have h1 := congrArg List.length (keys_init tbl (get_fact_pairs_of_state state))
    have h2 := congrArg List.length hkeys
    rw [keys_one_length] at h2
    simp only [HMTable.keys, List.length_map] at h1 h2
    rw [h1, h2]
  have hn : ((task.get_variables.sum : Int) + 1) * max C 0 < INT_MAX := by
    rcases le_total C 0 with hle | hle
    · rw [max_eq_right hle]
      simp [INT_MAX]
    · rw [max_eq_left hle]
      exact hsmall
  obtain ⟨tblF, n, hloop⟩ := update_hm_table_succeeds task 1 (le_refl 1) hwf _ hk0
  obtain ⟨hinvF, hlenF⟩ := update_hm_table_invariant task state (max C 0) hC1
    task.get_variables.sum hn hcost1 _ tblF n hloop
    (init_invariant task state (max C 0) hC1 tbl) hlen0
  obtain ⟨hle, _, _, hfix⟩ := update_hm_table_result task 1 _ tblF n hloop
  have hkF : keys_ok task 1 tblF := keys_ok_of_keys_eq task 1 _ _ hle.1 hk0
  have hstate : ∀ f v, holds state f = true → tblF.at [f] = some v → v = 0 := by
    intro f v hh hat
    have hdom := fact_of_at task tblF hkF f v hat
    obtain ⟨w, hw⟩ := at_fact task tbl hk f hdom
    have h0 : (init_hm_table tbl (get_fact_pairs_of_state state)).at [f] = some 0 := by
      rw [at_init, hw]
      simp only [Option.map_some', Option.some.injEq]
      rw [check_tuple_in_tuple_eq_zero]
      intro g hg
      rw [List.mem_singleton.mp hg]
      exact (mem_fact_pairs_of_state state f).mpr hh
    obtain ⟨w1, hw1, hle1⟩ := hle.2 [f] 0 h0
    rw [hat] at hw1
    cases hw1
    have := (hinvF.1 [f] v hat).1
    omega
  obtain ⟨h, hh⟩ := eval_succeeds task 1 (le_refl 1) tblF hkF task.get_goals
    (goal_strict task hwf).1 (goal_strict task hwf).2
  obtain ⟨_, hmax⟩ := max_cost_of_eval tblF state hinvF.1 task.get_goals task.get_goals
    (fun _ => Iff.rfl) h hh
  refine ⟨table_cost tblF state, tblF,
    table_cost_is_relaxation task hwf state (max C 0) hC1 hcost1 tblF
      (by rw [hlenF]; exact hn) hkF hinvF hfix hstate, ?_⟩
  rw [hmax]
  unfold compute_heuristic
  simp only [hng, Bool.false_eq_true, if_false, hloop, hh]
  by_cases hv : h = INT_MAX
  · rw [if_pos hv]
    unfold entry_cost heuristic_value
    rw [if_pos hv, WithTop.untop'_top]
  · rw [if_neg hv]
    unfold entry_cost heuristic_value
    rw [if_neg hv, WithTop.untop'_coe]

/-- Witness of C12 with the bound: the example task for `m = 1`, whose operator costs 3, from
the state `[0, 0]`; the value of the max-cost relaxation is returned. -/
theorem compute_heuristic_max_cost_relaxation_witness :
    (example_task.well_formed ∧
      (∀ op ∈ example_task.get_operators, 0 ≤ op.cost ∧ op.cost ≤ 3) ∧
      (total_facts example_task + 1) * 3 < INT_MAX ∧
      is_goal_state example_task [0, 0] = false) ∧
    (∃ cost tblF, is_max_cost_relaxation example_task [0, 0] cost ∧
      compute_heuristic example_task 1 (generate_all_tuples example_task 1) [0, 0] =
        .ok (heuristic_value (max_cost cost example_task.get_goals), tblF)) ∧
    compute_heuristic example_task 1 (generate_all_tuples example_task 1) [0, 0] =
      .ok (3, [([⟨0, 0⟩], 0), ([⟨0, 1⟩], 2147483647), ([⟨1, 0⟩], 0), ([⟨1, 1⟩], 3)]) :=
  ⟨⟨by decide, by decide, by decide, by decide⟩,
    compute_heuristic_max_cost_relaxation example_task (by decide) 3 (by decide) (by decide)
      (generate_all_tuples example_task 1) rfl [0, 0] (by decide),
    rfl⟩

end hm_heuristic

namespace combining_evaluator

/-! ## Theorems on the combining evaluator -/

theorem compute_result_loop_infinite {σ J : Type} (combine_values : List Int → Int)
    (result : EvaluationResult) (before : List (Evaluator σ J)) (first : Evaluator σ J)
    (after : List (Evaluator σ J)) (ctx : EvaluationContext) (values : List Int)
    (hbefore : ∀ e ∈ before, ctx.value e.id ≠ INFTY) (hfirst : ctx.value first.id = INFTY) :
    compute_result_loop combine_values result (before ++ first :: after) ctx values =
      (result.set_evaluator_value INFTY,
        { ctx with queried := ctx.queried ++ (before ++ [first]).map (fun e => e.id) }) := by
  induction before generalizing ctx values with
  | nil =>
    simp [compute_result_loop, EvaluationContext.get_evaluator_value_or_infinity, hfirst]
  | cons e rest ih =>
    have he : ctx.value e.id ≠ INFTY := hbefore e (List.mem_cons_self _ _)
    have hrest : ∀ x ∈ rest, ctx.value x.id ≠ INFTY :=
      fun x hx => hbefore x (List.mem_cons_of_mem _ hx)
    simp only [List.cons_append, compute_result_loop,
      EvaluationContext.get_evaluator_value_or_infinity, he, if_false, List.append_eq]
    rw [ih ⟨ctx.value, ctx.queried ++ [e.id]⟩ _ hrest hfirst]
    simp

theorem compute_result_loop_finite {σ J : Type} (combine_values : List Int → Int)
    (result : EvaluationResult) (subs : List (Evaluator σ J)) (ctx : EvaluationContext)
    (values : List Int) (hall : ∀ e ∈ subs, ctx.value e.id ≠ INFTY) :
    compute_result_loop combine_values result subs ctx values =
      (result.set_evaluator_value
          (combine_values (values ++ subs.map (fun e => ctx.value e.id))),
        { ctx with queried := ctx.queried ++ subs.map (fun e => e.id) }) := by
  induction subs generalizing ctx values with
  | nil => simp [compute_result_loop]
  | cons e rest ih =>
    have he : ctx.value e.id ≠ INFTY := hall e (List.mem_cons_self _ _)
    have hrest : ∀ x ∈ rest, ctx.value x.id ≠ INFTY :=
      fun x hx => hall x (List.mem_cons_of_mem _ hx)
    simp only [compute_result_loop, EvaluationContext.get_evaluator_value_or_infinity, he,
      if_false]
    rw [ih ⟨ctx.value, ctx.queried ++ [e.id]⟩ _ hrest]
    simp

/-- Every list with an element satisfying `p` splits at the first such element. -/
theorem split_at_first {α : Type} (p : α → Prop) [DecidablePred p] (l : List α)
    (h : ∃ x ∈ l, p x) :
    ∃ before first after, l = before ++ first :: after ∧ (∀ x ∈ before, ¬ p x) ∧ p first := by
  induction l with
  | nil => simp at h
  | cons a rest ih =>
    by_cases ha : p a
    · exact ⟨[], a, rest, rfl, by simp, ha⟩
    · have h2 : ∃ x ∈ rest, p x := by
        obtain ⟨x, hx, hpx⟩ := h
        rcases List.mem_cons.mp hx with rfl | hx
        · exact absurd hpx ha
        · exact ⟨x, hx, hpx⟩
      obtain ⟨before, first, after, hsplit, hb, hf⟩ := ih h2
      refine ⟨a :: before, first, after, by simp [hsplit], ?_, hf⟩
      intro x hx
      rcases List.mem_cons.mp hx with rfl | hx
      · exact ha
      · exact hb x hx

/-- C3. Short-circuit of `compute_result`: when some sub-evaluator is infinite for the current
state, the result value is infinite, and the list splits at the first infinite sub-evaluator
such that the evaluators queried through the context are exactly those before it and itself,
in list order; none after it is queried. -/
theorem compute_result_short_circuit {σ J : Type} (c : CombiningEvaluator σ J)
    (combine_values : List Int → Int) (ctx : EvaluationContext)
    (h : ∃ e ∈ c.subevaluators, ctx.value e.id = INFTY) :
    (c.compute_result combine_values ctx).1.evaluator_value = INFTY ∧
    ∃ before first after, c.subevaluators = before ++ first :: after ∧
      (∀ e ∈ before, ctx.value e.id ≠ INFTY) ∧ ctx.value first.id = INFTY ∧
      (c.compute_result combine_values ctx).2.queried =
        ctx.queried ++ (before ++ [first]).map (fun e => e.id) := by
  obtain ⟨before, first, after, hsplit, hb, hf⟩ :=
    split_at_first (fun e : Evaluator σ J => ctx.value e.id = INFTY) c.subevaluators h
  have hrun := compute_result_loop_infinite combine_values EvaluationResult.new before first
    after ctx [] hb hf
  unfold CombiningEvaluator.compute_result
  rw [hsplit, hrun]
  exact ⟨rfl, before, first, after, rfl, hb, hf, rfl⟩

/-- Witness of C3: in `[0, 1, 2]` with evaluator 1 infinite, the result is infinite and only
the evaluators 0 and 1 are queried. -/
theorem compute_result_short_circuit_witness :
    (∃ e ∈ example_combining_evaluator.subevaluators,
      example_context_infinite.value e.id = INFTY) ∧
    (example_combining_evaluator.compute_result List.sum
      example_context_infinite).1.evaluator_value = INFTY ∧
    (example_combining_evaluator.compute_result List.sum
      example_context_infinite).2.queried = [0, 1] :=
  have hex : ∃ e ∈ example_combining_evaluator.subevaluators,
      example_context_infinite.value e.id = INFTY :=
    ⟨example_subevaluator 1 false,
      by simp [example_combining_evaluator, CombiningEvaluator.new], rfl⟩
  ⟨hex, (compute_result_short_circuit example_combining_evaluator List.sum
    example_context_infinite hex).1, rfl⟩

/-- C4. Reduction correctness of `compute_result`: when every sub-evaluator is finite for the
current state, the result value is `combine_values` of exactly the list of their values in
sub-evaluator order, and the result has no preferred operators. -/
theorem compute_result_reduction {σ J : Type} (c : CombiningEvaluator σ J)
    (combine_values : List Int → Int) (ctx : EvaluationContext)
    (hall : ∀ e ∈ c.subevaluators, ctx.value e.id ≠ INFTY) :
    (c.compute_result combine_values ctx).1.evaluator_value =
      combine_values (c.subevaluators.map (fun e => ctx.value e.id)) ∧
    (c.compute_result combine_values ctx).1.preferred_operators = [] := by
  unfold CombiningEvaluator.compute_result
  rw [compute_result_loop_finite combine_values EvaluationResult.new c.subevaluators ctx [] hall]
  exact ⟨by simp [EvaluationResult.set_evaluator_value], rfl⟩

theorem example_context_finite_all :
    ∀ e ∈ example_combining_evaluator.subevaluators,
      example_context_finite.value e.id ≠ INFTY := by
  intro e he
  simp only [example_combining_evaluator, CombiningEvaluator.new, List.mem_cons,
    List.mem_singleton, List.not_mem_nil, or_false] at he
  rcases he with rfl | rfl | rfl <;>
    simp [example_context_finite, example_subevaluator, INFTY]

/-- Witness of C4: the finite values 5, 6 and 7 of the three sub-evaluators are summed. -/
theorem compute_result_reduction_witness :
    (∀ e ∈ example_combining_evaluator.subevaluators,
      example_context_finite.value e.id ≠ INFTY) ∧
    (example_combining_evaluator.compute_result List.sum
      example_context_finite).1.evaluator_value = List.sum [5, 6, 7] ∧
    (example_combining_evaluator.compute_result List.sum
      example_context_finite).1.preferred_operators = [] :=
  ⟨example_context_finite_all,
    compute_result_reduction example_combining_evaluator List.sum example_context_finite
      example_context_finite_all⟩

theorem foldl_reliable {σ J : Type} (evals : List (Evaluator σ J)) (init : Bool) :
    evals.foldl (fun all_reliable subevaluator =>
        if !subevaluator.dead_ends_are_reliable then false else all_reliable) init = true ↔
      init = true ∧ ∀ e ∈ evals, e.dead_ends_are_reliable = true := by
  induction evals generalizing init with
  | nil => simp
  | cons e rest ih =>
    simp only [List.foldl_cons, ih, List.mem_cons, forall_eq_or_imp]
    cases hrel : e.dead_ends_are_reliable <;> simp

/-- C5. Reliability conjunction: `dead_ends_are_reliable()` of a combining evaluator is true
if and only if it is true for every sub-evaluator of the list. -/
theorem dead_ends_are_reliable_iff {σ J : Type} (evals : List (Evaluator σ J)) :
    (CombiningEvaluator.new evals).dead_ends_are_reliable = true ↔
      ∀ e ∈ evals, e.dead_ends_are_reliable = true := by
  unfold CombiningEvaluator.dead_ends_are_reliable CombiningEvaluator.new
  exact (foldl_reliable evals true).trans (by simp)

theorem justification_loop_first {σ J : Type} (ctx : EvaluationContext)
    (before : List (Evaluator σ J)) (first : Evaluator σ J) (after : List (Evaluator σ J))
    (hbefore : ∀ e ∈ before, ctx.is_evaluator_value_infinite e.id = false)
    (hfirst : ctx.is_evaluator_value_infinite first.id = true) :
    get_dead_end_justification_loop ctx (before ++ first :: after) =
      .ok (first.get_dead_end_justification ctx first.state) := by
  induction before with
  | nil => simp [get_dead_end_justification_loop, hfirst]
  | cons e rest ih =>
    have he := hbefore e (List.mem_cons_self _ _)
    simp only [List.cons_append, get_dead_end_justification_loop, he, List.append_eq]
    exact ih (fun x hx => hbefore x (List.mem_cons_of_mem _ hx))

theorem justification_loop_error_iff {σ J : Type} (ctx : EvaluationContext)
    (subs : List (Evaluator σ J)) :
    get_dead_end_justification_loop ctx subs = .error .SEARCH_CRITICAL_ERROR ↔
      ∀ e ∈ subs, ctx.is_evaluator_value_infinite e.id = false := by
  induction subs with
  | nil => simp [get_dead_end_justification_loop]
  | cons e rest ih =>
    simp only [get_dead_end_justification_loop, List.mem_cons, forall_eq_or_imp]
    cases hinf : ctx.is_evaluator_value_infinite e.id <;> simp [ih]

/-- C6. The function `get_dead_end_justification` of the combining evaluator returns the
justification of the first sub-evaluator, in list order, that is infinite for the current
state; it ends with the critical error if and only if no sub-evaluator is infinite, and in
that case it returns no judgment. -/
theorem get_dead_end_justification_spec {σ J : Type} (c : CombiningEvaluator σ J)
    (ctx : EvaluationContext) :
    (∀ before first after, c.subevaluators = before ++ first :: after →
      (∀ e ∈ before, ctx.is_evaluator_value_infinite e.id = false) →
      ctx.is_evaluator_value_infinite first.id = true →
      c.get_dead_end_justification ctx =
        .ok (first.get_dead_end_justification ctx first.state)) ∧
    (c.get_dead_end_justification ctx = .error .SEARCH_CRITICAL_ERROR ↔
      ∀ e ∈ c.subevaluators, ctx.is_evaluator_value_infinite e.id = false) ∧
    ((∀ e ∈ c.subevaluators, ctx.is_evaluator_value_infinite e.id = false) →
      ∀ j, c.get_dead_end_justification ctx ≠ .ok j) := by
  refine ⟨?_, justification_loop_error_iff ctx c.subevaluators, ?_⟩
  · intro before first after hsplit hb hf
    unfold CombiningEvaluator.get_dead_end_justification
    rw [hsplit]
    exact justification_loop_first ctx before first after hb hf
  · intro hnone j hj
    have herr := (justification_loop_error_iff ctx c.subevaluators).mpr hnone
    unfold CombiningEvaluator.get_dead_end_justification at hj
    rw [herr] at hj
    cases hj

/-- Witness of C6: with evaluator 1 the first infinite one its justification is returned, and
with no infinite evaluator the call ends with the critical error. -/
theorem get_dead_end_justification_spec_witness :
    example_combining_evaluator.get_dead_end_justification example_context_infinite = .ok 1 ∧
    example_combining_evaluator.get_dead_end_justification example_context_finite =
      .error .SEARCH_CRITICAL_ERROR :=
  ⟨(get_dead_end_justification_spec example_combining_evaluator example_context_infinite).1
      [example_subevaluator 0 true] (example_subevaluator 1 false)
      [example_subevaluator 2 true] rfl (by simp [example_subevaluator,
        example_context_infinite, EvaluationContext.is_evaluator_value_infinite, INFTY]) rfl,
    rfl⟩

theorem example_context_finite_all_false :
    ∀ e ∈ example_combining_evaluator.subevaluators,
      example_context_finite.is_evaluator_value_infinite e.id = false := by
  intro e he
  simp only [example_combining_evaluator, CombiningEvaluator.new, List.mem_cons,
    List.mem_singleton, List.not_mem_nil, or_false] at he
  rcases he with rfl | rfl | rfl <;>
    simp [example_context_finite, example_subevaluator, INFTY,
      EvaluationContext.is_evaluator_value_infinite]

theorem store_loop_first {σ J : Type} (ctx : EvaluationContext)
    (before : List (Evaluator σ J)) (first : Evaluator σ J) (after : List (Evaluator σ J))
    (objects : EvaluatorObjects σ)
    (hbefore : ∀ e ∈ before, ctx.is_evaluator_value_infinite e.id = false)
    (hfirst : ctx.is_evaluator_value_infinite first.id = true) :
    store_deadend_info_loop ctx (before ++ first :: after) objects =
      (first.store_deadend_info ctx objects, [first.id]) := by
  induction before with
  | nil => simp [store_deadend_info_loop, hfirst]
  | cons e rest ih =>
    have he := hbefore e (List.mem_cons_self _ _)
    simp only [List.cons_append, store_deadend_info_loop, he, List.append_eq]
    exact ih (fun x hx => hbefore x (List.mem_cons_of_mem _ hx))

theorem store_loop_none {σ J : Type} (ctx : EvaluationContext) (subs : List (Evaluator σ J))
    (objects : EvaluatorObjects σ)
    (hnone : ∀ e ∈ subs, ctx.is_evaluator_value_infinite e.id = false) :
    store_deadend_info_loop ctx subs objects = (objects, []) := by
  induction subs with
  | nil => rfl
  | cons e rest ih =>
    have he := hnone e (List.mem_cons_self _ _)
    simp only [store_deadend_info_loop, he]
    exact ih (fun x hx => hnone x (List.mem_cons_of_mem _ hx))

/-- Counterexample to C7 as stated: the list holds object 3, a combining evaluator over
object 1, and object 1 itself, and both are infinite. The call invokes `store_deadend_info`
on object 3 only, yet the state of the other sub-evaluator of the list, object 1, changes
from 0 to 1, because object 3 delegates to the object it shares with the list. -/
theorem store_deadend_info_changes_shared_subevaluator :
    example_sharing_evaluator.subevaluators.map (fun e => e.id) = [3, 1] ∧
    (example_sharing_evaluator.store_deadend_info example_context_all_infinite
      (fun _ => 0)).2 = [3] ∧
    (example_sharing_evaluator.store_deadend_info example_context_all_infinite
      (fun _ => 0)).1 1 = 1 ∧
    (example_sharing_evaluator.store_deadend_info example_context_all_infinite
      (fun _ => 0)).1 1 ≠ (fun _ => 0) 1 := by
  refine ⟨rfl, rfl, rfl, ?_⟩
  decide

/-- C7, for shared sub-evaluators. The function `store_deadend_info` of the combining
evaluator invokes `store_deadend_info` on at most one sub-evaluator: on the first one in list
order that is infinite for the current state. It writes to no object itself: the evaluator
objects after the call are those that this one invocation leaves, so every object that the
invocation does not change is as it was. When no sub-evaluator is infinite it invokes none
and changes nothing. -/
theorem store_deadend_info_spec {σ J : Type} (c : CombiningEvaluator σ J)
    (ctx : EvaluationContext) (objects : EvaluatorObjects σ) :
    (∀ before first after, c.subevaluators = before ++ first :: after →
      (∀ e ∈ before, ctx.is_evaluator_value_infinite e.id = false) →
      ctx.is_evaluator_value_infinite first.id = true →
      c.store_deadend_info ctx objects = (first.store_deadend_info ctx objects, [first.id]) ∧
      ∀ id, first.store_deadend_info ctx objects id = objects id →
        (c.store_deadend_info ctx objects).1 id = objects id) ∧
    ((∀ e ∈ c.subevaluators, ctx.is_evaluator_value_infinite e.id = false) →
      c.store_deadend_info ctx objects = (objects, [])) ∧
    (c.store_deadend_info ctx objects).2.length ≤ 1 := by
  refine ⟨?_, ?_, ?_⟩
  · intro before first after hsplit hb hf
    have hrun : c.store_deadend_info ctx objects =
        (first.store_deadend_info ctx objects, [first.id]) := by
      unfold CombiningEvaluator.store_deadend_info
      rw [hsplit]
      exact store_loop_first ctx before first after objects hb hf
    refine ⟨hrun, ?_⟩
    intro id hid
    rw [hrun]
    exact hid
  · intro hnone
    unfold CombiningEvaluator.store_deadend_info
    exact store_loop_none ctx c.subevaluators objects hnone
  · by_cases hex : ∃ e ∈ c.subevaluators, ctx.is_evaluator_value_infinite e.id = true
    · obtain ⟨before, first, after, hsplit, hb, hf⟩ :=
        split_at_first (fun e : Evaluator σ J => ctx.is_evaluator_value_infinite e.id = true)
          c.subevaluators hex
      have hb2 : ∀ e ∈ before, ctx.is_evaluator_value_infinite e.id = false := by
        intro e he
        simpa using hb e he
      unfold CombiningEvaluator.store_deadend_info
      rw [hsplit, store_loop_first ctx before first after objects hb2 hf]
      exact le_refl 1
    · have hnone : ∀ e ∈ c.subevaluators, ctx.is_evaluator_value_infinite e.id = false := by
        intro e he
        cases hinf : ctx.is_evaluator_value_infinite e.id
        · rfl
        · exact absurd ⟨e, he, hinf⟩ hex
      unfold CombiningEvaluator.store_deadend_info
      rw [store_loop_none ctx c.subevaluators objects hnone]
      exact Nat.zero_le 1

/-- Witness of C7: with evaluator 1 the first infinite one of `[0, 1, 2]`, only it is invoked
and only its call counter goes from 0 to 1; with no infinite evaluator none is invoked; and
when object 1 is listed twice it is invoked once. -/
theorem store_deadend_info_spec_witness :
    ((example_combining_evaluator.store_deadend_info example_context_infinite (fun _ => 0)).2
      = [1] ∧
      ∀ id, (example_subevaluator 1 false).store_deadend_info example_context_infinite
          (fun _ => 0) id = (fun _ => 0) id →
        (example_combining_evaluator.store_deadend_info example_context_infinite
          (fun _ => 0)).1 id = (fun _ => 0) id) ∧
    [0, 1, 2].map (example_combining_evaluator.store_deadend_info example_context_infinite
      (fun _ => 0)).1 = [0, 1, 0] ∧
    example_combining_evaluator.store_deadend_info example_context_finite (fun _ => 0) =
      ((fun _ => 0), []) ∧
    (example_twice_evaluator.store_deadend_info example_context_infinite (fun _ => 0)).2 = [1] ∧
    (example_twice_evaluator.store_deadend_info example_context_infinite (fun _ => 0)).1 1 = 1 :=
  have h := (store_deadend_info_spec example_combining_evaluator example_context_infinite
    (fun _ => 0)).1 [example_subevaluator 0 true] (example_subevaluator 1 false)
    [example_subevaluator 2 true] rfl (by simp [example_subevaluator,
      example_context_infinite, EvaluationContext.is_evaluator_value_infinite, INFTY]) rfl
  ⟨⟨congrArg Prod.snd h.1, h.2⟩, rfl,
    (store_deadend_info_spec example_combining_evaluator example_context_finite
      (fun _ => 0)).2.1 example_context_finite_all_false, rfl, rfl⟩

end combining_evaluator
